import Mathlib

/-!
A verification development for the rebed package (rebed.go): a breadth-first
walk over an embedded read-only filesystem, and five materialization policies
(Tree, Touch, Write, Patch, Create) that project the embedded tree onto a
host filesystem.

Modelling conventions:
* Go strings are modelled as lists of characters (GoStr).
* The embedded store (embed.FS) is a tree of named nodes; ReadDir and Open
  are modelled by path resolution.  As in embed.FS, an invalid path, a
  missing path, and a file path all make ReadDir fail with the not-exist
  error (modelled as none).
* path/filepath.Join is modelled for a slash-separator host on relative
  paths: the non-empty elements are joined with a slash and the result is
  cleaned by dropping empty and single-dot components.  (The Clean step for
  paths that traverse a parent directory with a ".." component is not
  modelled; well-formedness hypotheses keep ".." out of the paths the
  theorems touch.)
* The host filesystem is a partial map from cleaned path component lists to
  nodes, together with the set of paths at which a stat fails with an error
  other than not-exist (e.g. permission denied).  os.MkdirAll, os.Stat and
  os.Create (truncating create, as used by Touch and embedCopyToFile) are
  modelled on top of it with POSIX outcomes; the fixed permission mode is
  not modelled (no claim refers to it).
* Walks are instrumented: a walk returns its final visitor state, the exact
  sequence of visitor invocations, and the returned error.  Error values are
  modelled structurally, so that verbatim propagation versus wrapping by
  fmt.Errorf is observable.
-/

namespace Rebed

/-- A Go string, as its list of characters. -/
abbrev GoStr := List Char

/-- rebed.sanitize: converts windows representation of a path to the
embed.FS representation, replacing every backslash by a forward slash
(strings.ReplaceAll with single-character arguments is a character map). -/
def sanitize (p : GoStr) : GoStr :=
  p.map fun c => if c = '\\' then '/' else c

/-- strings.Split on the slash separator (Split with a one-character
separator): the list of slash-separated components, keeping empties. -/
def splitSlash : GoStr → List GoStr
  | [] => [[]]
  | c :: cs =>
    if c = '/' then [] :: splitSlash cs
    else
      match splitSlash cs with
      | [] => [[c]]
      | g :: r => (c :: g) :: r

/-- Joining components back with slashes. -/
def joinParts : List GoStr → GoStr
  | [] => []
  | [p] => p
  | p :: q :: ps => p ++ '/' :: joinParts (q :: ps)

/-- The cleaned component list of a path: slash components that are neither
empty nor a single dot.  Two host paths denote the same filesystem node
exactly when their cleaned components agree; this is the key type of the
host filesystem map. -/
def cleanParts (p : GoStr) : List GoStr :=
  (splitSlash p).filter fun c => !(c = [] : Bool) && !(c = ['.'] : Bool)

/-- path/filepath.Join on a slash-separator host (see the file comment for
the modelling scope): all-empty input yields the empty path, otherwise the
cleaned components joined with slashes, with a cleaned-to-nothing result
standing for the current directory. -/
def filepathJoin (elems : List GoStr) : GoStr :=
  if elems.all fun e => (e = [] : Bool) then []
  else
    match elems.flatMap cleanParts with
    | [] => ['.']
    | ps => joinParts ps

/-- A component acceptable to io/fs.ValidPath: non-empty and neither "."
nor "..". -/
def isValidComp (c : GoStr) : Bool :=
  !(c = [] : Bool) && !(c = ['.'] : Bool) && !(c = ['.', '.'] : Bool)

/-- Path parsing as done by embed.FS lookups (io/fs.ValidPath): the single
dot denotes the root (no components); otherwise every slash component must
be valid, and an invalid path resolves to nothing. -/
def pathParts (p : GoStr) : Option (List GoStr) :=
  if p = ['.'] then some []
  else if (splitSlash p).all isValidComp then some (splitSlash p) else none

/-- The canonical path string of a component list (inverse of pathParts on
valid components): the root is the single dot. -/
def pathOfParts : List GoStr → GoStr
  | [] => ['.']
  | p :: ps => joinParts (p :: ps)

/-- One node of the embedded filesystem: a file with byte content, or a
directory with an ordered list of named children. -/
inductive EmbNode where
  | file (content : List Nat)
  | dir (entries : List (GoStr × EmbNode))

/-- fs.DirEntry as observed through Name() and IsDir(). -/
structure DirEntry where
  name : GoStr
  isDir : Bool
deriving DecidableEq, Repr

/-- Whether a node is a directory. -/
def EmbNode.isDirB : EmbNode → Bool
  | .file _ => false
  | .dir _ => true

mutual

/-- Resolving a component list against a node. -/
def resolve : EmbNode → List GoStr → Option EmbNode
  | n, [] => some n
  | .file _, _ :: _ => none
  | .dir es, c :: cs => resolveIn es c cs

/-- Resolving a name among the entries of a directory, then the rest. -/
def resolveIn : List (GoStr × EmbNode) → GoStr → List GoStr → Option EmbNode
  | [], _, _ => none
  | (n, e) :: es, c, cs => if n = c then resolve e cs else resolveIn es c cs

end

/-- The DirEntry views of a directory's entries, in store order. -/
def entryList (es : List (GoStr × EmbNode)) : List DirEntry :=
  es.map fun pr => ⟨pr.1, pr.2.isDirB⟩

/-- embed.FS.ReadDir: the entries of the directory at the given path, in
store order; none (the not-exist error) for an invalid path, a missing
path, or a file path. -/
def readDir (fsys : EmbNode) (path : GoStr) : Option (List DirEntry) :=
  match pathParts path with
  | none => none
  | some ps =>
    match resolve fsys ps with
    | some (.dir es) => some (entryList es)
    | _ => none

/-- embed.FS.Open followed by reading the whole content, as used by
embedCopyToFile on file paths: the byte content of the file at the path,
none when the path is invalid, missing, or a directory. -/
def embOpen (fsys : EmbNode) (path : GoStr) : Option (List Nat) :=
  match pathParts path with
  | none => none
  | some ps =>
    match resolve fsys ps with
    | some (.file content) => some content
    | _ => none

mutual

/-- Height of an embedded node: files are 0, a directory is one more than
the maximal height of its children. -/
def embHeight : EmbNode → Nat
  | .file _ => 0
  | .dir es => embHeightEntries es + 1

/-- Maximal height among entries. -/
def embHeightEntries : List (GoStr × EmbNode) → Nat
  | [] => 0
  | (_, e) :: es => max (embHeight e) (embHeightEntries es)

end

/-- A name an embedded entry can actually carry (guaranteed by embed.FS and
assumed by the package's backslash normalization): valid as a path
component and free of both separators. -/
def validName (n : GoStr) : Bool :=
  isValidComp n && !(n.contains '/') && !(n.contains '\\')

/-- Boolean no-duplicates check on a list of names. -/
def nodupB : List GoStr → Bool
  | [] => true
  | n :: ns => !(ns.contains n) && nodupB ns

mutual

/-- Well-formedness of an embedded tree: every entry name is valid and the
names within each directory are pairwise distinct.  Real embed.FS values
satisfy this. -/
def wfB : EmbNode → Bool
  | .file _ => true
  | .dir es => wfEntries es && nodupB (es.map Prod.fst)

/-- Well-formedness of an entry list. -/
def wfEntries : List (GoStr × EmbNode) → Bool
  | [] => true
  | (n, e) :: es => validName n && wfB e && wfEntries es

end

mutual

/-- All non-empty component paths to descendants of a node (the spec-side
enumeration of everything a complete walk must visit below the node). -/
def subpaths : EmbNode → List (List GoStr)
  | .file _ => []
  | .dir es => subpathsEntries es

/-- Descendant paths contributed by an entry list. -/
def subpathsEntries : List (GoStr × EmbNode) → List (List GoStr)
  | [] => []
  | (n, e) :: es => [n] :: (subpaths e).map (n :: ·) ++ subpathsEntries es

end

/-- One node of the host filesystem. -/
inductive HostNode where
  | dir
  | file (content : List Nat)
deriving DecidableEq, Repr

/-- The host filesystem state: nodes keyed by cleaned path components, and
the set of keys at which a stat fails with an error other than not-exist. -/
structure Host where
  nodes : List GoStr → Option HostNode
  statErr : List GoStr → Bool

/-- The host key of a path string. -/
def hostKey (p : GoStr) : List GoStr := cleanParts p

/-- Setting one node of the host map. -/
def setNode (h : Host) (k : List GoStr) (n : HostNode) : Host :=
  { h with nodes := fun q => if q = k then some n else h.nodes q }

/-- Outcomes of os.Stat as inspected by the policies (only the error is
used): success, the not-exist error, or any other stat failure. -/
inductive StatRes where
  | ok
  | notExist
  | otherErr
deriving DecidableEq, Repr

/-- os.Stat at a path. -/
def osStat (h : Host) (p : GoStr) : StatRes :=
  if h.statErr (hostKey p) then .otherErr
  else
    match h.nodes (hostKey p) with
    | some _ => .ok
    | none => .notExist

/-- Host operation errors, carrying the offending key so that error values
have identity. -/
inductive OSErr where
  | statOther (k : List GoStr)
  | mkdirNotDir (k : List GoStr)
  | createFail (k : List GoStr)
deriving DecidableEq, Repr

/-- The chain step of os.MkdirAll: walk the prefix chain of the components,
creating each missing directory; an existing file anywhere in the chain is
an error (in which case, as on a POSIX host, nothing was created before the
blocking file was reached). -/
def mkdirChain (h : Host) (pre : List GoStr) : List GoStr → Except OSErr Host
  | [] => .ok h
  | c :: cs =>
    match h.nodes (pre ++ [c]) with
    | some .dir => mkdirChain h (pre ++ [c]) cs
    | some (.file _) => .error (.mkdirNotDir (pre ++ [c]))
    | none => mkdirChain (setNode h (pre ++ [c]) .dir) (pre ++ [c]) cs

/-- os.MkdirAll: create the directory and all missing ancestors. -/
def mkdirAll (h : Host) (p : GoStr) : Except OSErr Host :=
  mkdirChain h [] (hostKey p)

/-- os.Create: truncating create of an empty file.  Fails when the target
is an existing directory, when the target is the current directory itself,
or when the parent is neither the current directory nor an existing
directory. -/
def osCreate (h : Host) (p : GoStr) : Except OSErr Host :=
  let k := hostKey p
  match h.nodes k with
  | some .dir => .error (.createFail k)
  | _ =>
    if k = [] then .error (.createFail k)
    else
      if k.dropLast = [] then .ok (setNode h k (.file []))
      else
        match h.nodes k.dropLast with
        | some .dir => .ok (setNode h k (.file []))
        | _ => .error (.createFail k.dropLast)

/-- Errors produced by the package and its visitors. -/
inductive RebedErr where
  | os (e : OSErr)
  | openEmbedFail (path : GoStr)
  | errExist
deriving DecidableEq, Repr

/-- rebed.embedCopyToFile: sanitize the embedded path, open the embedded
file (wrapping an open failure in a descriptive message, modelled by the
openEmbedFail constructor), create (truncate) the host file, and copy the
full embedded content into it. -/
def embedCopyToFile (fsys : EmbNode) (h : Host) (embedPath path : GoStr) :
    Except RebedErr Host :=
  let ep := sanitize embedPath
  match embOpen fsys ep with
  | none => .error (.openEmbedFail ep)
  | some content =>
    match osCreate h path with
    | .error e => .error (.os e)
    | .ok h' => .ok (setNode h' (hostKey path) (.file content))

/-- Walk errors, structurally: the embed.FS not-exist error from listing a
directory, an error returned by the visitor (verbatim), the top-level
fmt.Errorf no-folder-found wrapping, and the fuel marker of the loop model
(shown unreachable on well-formed trees). -/
inductive WErr (ε : Type) where
  | notFound (path : GoStr)
  | visitor (e : ε)
  | noFolderFound (inner : WErr ε)
  | outOfFuel
deriving DecidableEq, Repr

/-- The instrumented result of a walk: final visitor state, the sequence of
visitor invocations (directory argument and entry), and the error. -/
structure WalkOut (σ ε : Type) where
  st : σ
  trace : List (GoStr × DirEntry)
  err : Option (WErr ε)

/-- The loop body of rebed.WalkDir: apply the visitor to each listed entry
in order, short-circuiting at the first error. -/
def runItems (f : σ → GoStr → DirEntry → σ × Option ε) (p : GoStr) :
    σ → List DirEntry → WalkOut σ ε
  | s, [] => ⟨s, [], none⟩
  | s, de :: des =>
    match f s p de with
    | (s', some e) => ⟨s', [(p, de)], some (.visitor e)⟩
    | (s', none) =>
      let r := runItems f p s' des
      ⟨r.st, (p, de) :: r.trace, r.err⟩

/-- rebed.WalkDir: sanitize the start path, list it, and apply the visitor
to every entry, returning the not-exist error when the listing fails. -/
def WalkDir (fsys : EmbNode) (startPath : GoStr)
    (f : σ → GoStr → DirEntry → σ × Option ε) (s : σ) : WalkOut σ ε :=
  let sp := sanitize startPath
  match readDir fsys sp with
  | none => ⟨s, [], some (.notFound sp)⟩
  | some items => runItems f sp s items

/-- The closure rebed.Walk passes to WalkDir: append every directory entry
(as the join of the scanned directory and the entry name) to the folder
buffer, then forward the entry to the caller's visitor. -/
def collectVisit (f : σ → GoStr → DirEntry → σ × Option ε) :
    σ × List GoStr → GoStr → DirEntry → (σ × List GoStr) × Option ε :=
  fun sf dirpath de =>
    let folders' :=
      if de.isDir then sf.2 ++ [filepathJoin [dirpath, de.name]] else sf.2
    let r := f sf.1 dirpath de
    ((r.1, folders'), r.2)

/-- One batch of rebed.Walk's loop: run WalkDir (with the collecting
closure) on each of the first n folders in order, short-circuiting on
error; returns the walk output together with the newly discovered
folders. -/
def walkBatch (fsys : EmbNode) (f : σ → GoStr → DirEntry → σ × Option ε) :
    σ → List GoStr → WalkOut σ ε × List GoStr
  | s, [] => (⟨s, [], none⟩, [])
  | s, p :: ps =>
    let r := WalkDir fsys p (collectVisit f) (s, [])
    match r.err with
    | some e => (⟨r.st.1, r.trace, some e⟩, r.st.2)
    | none =>
      let rest := walkBatch fsys f r.st.1 ps
      (⟨rest.1.st, r.trace ++ rest.1.trace, rest.1.err⟩, r.st.2 ++ rest.2)

/-- rebed.Walk's batch loop: while folders remain, process the current
batch, discard it, and continue with the newly discovered folders.  The
fuel argument bounds the number of batches; Walk supplies the height of
the tree, which is shown sufficient for well-formed trees. -/
def walkLoop (fsys : EmbNode) (f : σ → GoStr → DirEntry → σ × Option ε) :
    Nat → σ → List GoStr → WalkOut σ ε
  | fuel, s, folders =>
    match folders with
    | [] => ⟨s, [], none⟩
    | p :: ps =>
      let br := walkBatch fsys f s (p :: ps)
      match br.1.err with
      | some _ => br.1
      | none =>
        match fuel with
        | 0 => ⟨br.1.st, br.1.trace, some .outOfFuel⟩
        | fuel' + 1 =>
          let r := walkLoop fsys f fuel' br.1.st br.2
          ⟨r.st, br.1.trace ++ r.trace, r.err⟩

/-- rebed.Walk: run WalkDir at the start path with the collecting closure;
on failure, wrap the error in the no-folder-found message when no folder
was collected, and return it verbatim otherwise; on success, run the batch
loop on the collected folders. -/
def Walk (fsys : EmbNode) (startPath : GoStr)
    (f : σ → GoStr → DirEntry → σ × Option ε) (s : σ) : WalkOut σ ε :=
  let r := WalkDir fsys startPath (collectVisit f) (s, [])
  match r.err with
  | some e =>
    match r.st.2 with
    | [] => ⟨r.st.1, r.trace, some (.noFolderFound e)⟩
    | _ :: _ => ⟨r.st.1, r.trace, some e⟩
  | none =>
    let r' := walkLoop fsys f (embHeight fsys) r.st.1 r.st.2
    ⟨r'.st, r.trace ++ r'.trace, r'.err⟩

/-- The visitor of rebed.Tree: create the directory tree, ignore files. -/
def treeVisit (out : GoStr) : Host → GoStr → DirEntry → Host × Option RebedErr :=
  fun h dirpath de =>
    let fullpath := filepathJoin [out, dirpath, de.name]
    if de.isDir then
      match mkdirAll h fullpath with
      | .ok h' => (h', none)
      | .error e => (h, some (.os e))
    else (h, none)

/-- The visitor of rebed.Touch: create directories; create an empty file
when the target is absent; leave existing targets alone; propagate any
stat error other than not-exist. -/
def touchVisit (out : GoStr) : Host → GoStr → DirEntry → Host × Option RebedErr :=
  fun h dirpath de =>
    let fullpath := filepathJoin [out, dirpath, de.name]
    if de.isDir then
      match mkdirAll h fullpath with
      | .ok h' => (h', none)
      | .error e => (h, some (.os e))
    else
      match osStat h fullpath with
      | .notExist =>
        match osCreate h fullpath with
        | .ok h' => (h', none)
        | .error e => (h, some (.os e))
      | .ok => (h, none)
      | .otherErr => (h, some (.os (.statOther (hostKey fullpath))))

/-- The visitor of rebed.Write: create directories; always copy the full
embedded content over the target file. -/
def writeVisit (fsys : EmbNode) (out : GoStr) :
    Host → GoStr → DirEntry → Host × Option RebedErr :=
  fun h dirpath de =>
    let embedPath := sanitize (filepathJoin [dirpath, de.name])
    let fullpath := filepathJoin [out, embedPath]
    if de.isDir then
      match mkdirAll h fullpath with
      | .ok h' => (h', none)
      | .error e => (h, some (.os e))
    else
      match embedCopyToFile fsys h embedPath fullpath with
      | .ok h' => (h', none)
      | .error e => (h, some e)

/-- The visitor of rebed.Patch: create directories; copy the embedded
content only when the target is absent; propagate any stat error other
than not-exist. -/
def patchVisit (fsys : EmbNode) (out : GoStr) :
    Host → GoStr → DirEntry → Host × Option RebedErr :=
  fun h dirpath de =>
    let embedPath := sanitize (filepathJoin [dirpath, de.name])
    let fullpath := filepathJoin [out, embedPath]
    if de.isDir then
      match mkdirAll h fullpath with
      | .ok h' => (h', none)
      | .error e => (h, some (.os e))
    else
      match osStat h fullpath with
      | .notExist =>
        match embedCopyToFile fsys h embedPath fullpath with
        | .ok h' => (h', none)
        | .error e => (h, some e)
      | .ok => (h, none)
      | .otherErr => (h, some (.os (.statOther (hostKey fullpath))))

/-- The pre-flight visitor of rebed.Create: directories never conflict; a
file whose target is absent is fine; any other stat error is returned; any
existing host entry at a file target returns the ErrExist sentinel (which
carries no path). -/
def createVisit (out : GoStr) : Host → GoStr → DirEntry → Host × Option RebedErr :=
  fun h dirpath de =>
    let embedPath := filepathJoin [dirpath, de.name]
    let fullpath := filepathJoin [out, embedPath]
    if de.isDir then (h, none)
    else
      match osStat h fullpath with
      | .notExist => (h, none)
      | .otherErr => (h, some (.os (.statOther (hostKey fullpath))))
      | .ok => (h, some .errExist)

/-- rebed.Tree. -/
def Tree (fsys : EmbNode) (out : GoStr) (h : Host) : WalkOut Host RebedErr :=
  Walk fsys ['.'] (treeVisit out) h

/-- rebed.Touch. -/
def Touch (fsys : EmbNode) (out : GoStr) (h : Host) : WalkOut Host RebedErr :=
  Walk fsys ['.'] (touchVisit out) h

/-- rebed.Write. -/
def Write (fsys : EmbNode) (out : GoStr) (h : Host) : WalkOut Host RebedErr :=
  Walk fsys ['.'] (writeVisit fsys out) h

/-- rebed.Patch. -/
def Patch (fsys : EmbNode) (out : GoStr) (h : Host) : WalkOut Host RebedErr :=
  Walk fsys ['.'] (patchVisit fsys out) h

/-- rebed.Create: the pre-flight walk with the conflict-checking visitor,
and, only when it reports no error, the Patch run. -/
def Create (fsys : EmbNode) (out : GoStr) (h : Host) : WalkOut Host RebedErr :=
  let r := Walk fsys ['.'] (createVisit out) h
  match r.err with
  | some e => ⟨r.st, r.trace, some e⟩
  | none => Patch fsys out r.st

/-- The state reached by replaying a list of visitor invocations. -/
def applyTrace (f : σ → GoStr → DirEntry → σ × Option ε) (s : σ)
    (tr : List (GoStr × DirEntry)) : σ :=
  tr.foldl (fun s pr => (f s pr.1 pr.2).1) s

/-- Every call in the trace, replayed from the given state, returns no
error. -/
def noErrCalls (f : σ → GoStr → DirEntry → σ × Option ε) :
    σ → List (GoStr × DirEntry) → Prop
  | _, [] => True
  | s, pr :: tr =>
    (f s pr.1 pr.2).2 = none ∧ noErrCalls f (f s pr.1 pr.2).1 tr

/-- The full component path denoted by one visitor invocation: the cleaned
components of the directory argument followed by the entry name. -/
def visitParts (pr : GoStr × DirEntry) : List GoStr :=
  cleanParts pr.1 ++ [pr.2.name]

/-- The folder paths the collecting closure appends while a trace runs. -/
def foldersOf (tr : List (GoStr × DirEntry)) : List GoStr :=
  (tr.filter fun pr => pr.2.isDir).map fun pr => filepathJoin [pr.1, pr.2.name]

/-- The visitor invocations one level of the walk performs at a directory
node: every entry, with the canonical path of the base as the directory
argument. -/
def levelVisits (fsys : EmbNode) (base : List GoStr) : List (GoStr × DirEntry) :=
  match resolve fsys base with
  | some (.dir es) => es.map fun pr => (pathOfParts base, (⟨pr.1, pr.2.isDirB⟩ : DirEntry))
  | _ => []

/-- The component paths of the directory children of a directory node. -/
def childDirParts (fsys : EmbNode) (base : List GoStr) : List (List GoStr) :=
  match resolve fsys base with
  | some (.dir es) => (es.filter fun pr => pr.2.isDirB).map fun pr => base ++ [pr.1]
  | _ => []

/-- The visits a breadth-first traversal performs from a frontier of
directory paths, level by level, with fuel bounding the number of levels. -/
def bfsVisits (fsys : EmbNode) : Nat → List (List GoStr) → List (GoStr × DirEntry)
  | _, [] => []
  | 0, _ :: _ => []
  | fuel + 1, b :: bs =>
    (b :: bs).flatMap (levelVisits fsys) ++
      bfsVisits fsys fuel ((b :: bs).flatMap (childDirParts fsys))

/-- The expected complete trace of rebed.Walk from a start path given by
its components. -/
def walkSpec (fsys : EmbNode) (base : List GoStr) : List (GoStr × DirEntry) :=
  levelVisits fsys base ++ bfsVisits fsys (embHeight fsys) (childDirParts fsys base)

/-- The full component paths of all proper descendants of the node at the
given base. -/
def descFrom (fsys : EmbNode) (base : List GoStr) : List (List GoStr) :=
  match resolve fsys base with
  | some n => (subpaths n).map (base ++ ·)
  | none => []

/-- Every component of the list is a valid entry name. -/
def validBase (b : List GoStr) : Prop :=
  ∀ c ∈ b, validName c = true

/-- A visitor invocation that reports a real entry of the tree: its
directory argument is the canonical path of a base, and the named child
exists below that base with the reported kind. -/
def TruthfulVisit (fsys : EmbNode) (pr : GoStr × DirEntry) : Prop :=
  ∃ base child, validBase base ∧ validName pr.2.name = true ∧
    pr.1 = pathOfParts base ∧ pr.2.isDir = child.isDirB ∧
    resolve fsys (base ++ [pr.2.name]) = some child

/-- The nonempty prefix keys MkdirAll touches below a given prefix. -/
def chainKeys (pre : List GoStr) : List GoStr → List (List GoStr)
  | [] => []
  | c :: cs => (pre ++ [c]) :: chainKeys (pre ++ [c]) cs

/-- The host keys a policy visitor may write when handling one entry of
the walk below the output root: the MkdirAll chain of the target for a
directory entry, the target itself for a file entry. -/
def stepKeys (out : GoStr) (pr : GoStr × DirEntry) : List (List GoStr) :=
  if pr.2.isDir then chainKeys [] (hostKey out ++ visitParts pr)
  else [hostKey out ++ visitParts pr]

/-- A good frontier for the walk loop: every base is a valid component path
resolving to a directory of bounded height. -/
def GoodFrontier (fsys : EmbNode) (H : Nat) (bases : List (List GoStr)) : Prop :=
  ∀ b ∈ bases, validBase b ∧
    ∃ es, resolve fsys b = some (.dir es) ∧ embHeight (.dir es) ≤ H

/-- The fixture tree used by the witnesses: a root with a directory d
(holding file f and a directory s with file x) and a top-level file g. -/
def fsW : EmbNode :=
  .dir [(['d'], .dir [(['f'], .file [7, 8]), (['s'], .dir [(['x'], .file [1])])]),
        (['g'], .file [9])]

/-- An empty host filesystem with no stat failures. -/
def h0 : Host := ⟨fun _ => none, fun _ => false⟩

/-- A host filesystem holding one file, at the key of the embedded file g. -/
def h1 : Host :=
  ⟨fun k => if k = [['g']] then some (.file [1]) else none, fun _ => false⟩

/-- A tree with a single directory a. -/
def fsA : EmbNode := .dir [(['a'], .dir [])]

/-- A tree with a single file a. -/
def fsF : EmbNode := .dir [(['a'], .file [2])]

/-- A tree with a directory d and a file a. -/
def fs3a : EmbNode := .dir [(['d'], .dir []), (['a'], .file [1])]

/-- A tree with the same directory d and a file b instead. -/
def fs3b : EmbNode := .dir [(['d'], .dir []), (['b'], .file [1])]

/-- A host with a file blocking o/a. -/
def hFileA : Host :=
  ⟨fun k => if k = [['o'], ['a']] then some (.file []) else none, fun _ => false⟩

/-- A host with a directory at o/a. -/
def hDirA : Host :=
  ⟨fun k => if k = [['o'], ['a']] then some .dir else none, fun _ => false⟩

/-- A host with files at both o/a and o/b. -/
def hAB : Host :=
  ⟨fun k => if k = [['o'], ['a']] ∨ k = [['o'], ['b']] then some (.file [5])
    else none, fun _ => false⟩

/-! Lemmas on the path layer. -/

theorem sanitize_eq_self {p : GoStr} (h : '\\' ∉ p) : sanitize p = p := by
  induction p with
  | nil => rfl
  | cons c cs ih =>
    have hc : c ≠ '\\' := fun hc => h (hc ▸ List.mem_cons_self c cs)
    simp only [sanitize, List.map_cons, if_neg hc] at *
    exact congrArg (c :: ·) (ih fun hm => h (List.mem_cons_of_mem c hm))

theorem mem_sanitize_ne {p : GoStr} {c : Char} (h : c ∈ sanitize p) : c ≠ '\\' := by
  simp only [sanitize, List.mem_map] at h
  obtain ⟨a, _, rfl⟩ := h
  by_cases ha : a = '\\' <;> simp [ha]

theorem sanitize_idem (p : GoStr) : sanitize (sanitize p) = sanitize p :=
  sanitize_eq_self fun hm => mem_sanitize_ne hm rfl

theorem sanitize_append (a b : GoStr) :
    sanitize (a ++ b) = sanitize a ++ sanitize b :=
  List.map_append _ a b

theorem splitSlash_ne_nil : ∀ p : GoStr, splitSlash p ≠ []
  | [] => by simp [splitSlash]
  | c :: cs => by
    simp only [splitSlash]
    split
    · simp
    · split <;> simp

theorem splitSlash_slash_cons (cs : GoStr) :
    splitSlash ('/' :: cs) = [] :: splitSlash cs := by
  simp [splitSlash]

theorem splitSlash_cons_of_ne (c : Char) (cs : GoStr) (h : ¬c = '/') {g : GoStr}
    {r : List GoStr} (hgr : splitSlash cs = g :: r) :
    splitSlash (c :: cs) = (c :: g) :: r := by
  simp [splitSlash, h, hgr]

theorem splitSlash_append (a b : GoStr) :
    splitSlash (a ++ '/' :: b) = splitSlash a ++ splitSlash b := by
  induction a with
  | nil => simp [splitSlash_slash_cons, splitSlash]
  | cons c cs ih =>
    by_cases hc : c = '/'
    · subst hc
      rw [List.cons_append, splitSlash_slash_cons, splitSlash_slash_cons, ih,
        List.cons_append]
    · cases hsc : splitSlash cs with
      | nil => exact absurd hsc (splitSlash_ne_nil cs)
      | cons g r =>
        have hsc2 : splitSlash (cs ++ '/' :: b) = g :: (r ++ splitSlash b) := by
          rw [ih, hsc]; rfl
        rw [List.cons_append, splitSlash_cons_of_ne c _ hc hsc2,
          splitSlash_cons_of_ne c cs hc hsc]
        rfl

theorem splitSlash_no_slash : ∀ {p : GoStr}, '/' ∉ p → splitSlash p = [p]
  | [], _ => rfl
  | c :: cs, h => by
    have hc : ¬c = '/' := fun hc => h (hc ▸ List.mem_cons_self c cs)
    have ih : splitSlash cs = [cs] :=
      splitSlash_no_slash fun hm => h (List.mem_cons_of_mem c hm)
    rw [splitSlash_cons_of_ne c cs hc ih]

theorem joinParts_cons (p : GoStr) (ps : List GoStr) (h : ps ≠ []) :
    joinParts (p :: ps) = p ++ '/' :: joinParts ps := by
  cases ps with
  | nil => exact absurd rfl h
  | cons q qs => rfl

theorem joinParts_splitSlash : ∀ p : GoStr, joinParts (splitSlash p) = p
  | [] => rfl
  | c :: cs => by
    have ih := joinParts_splitSlash cs
    by_cases hc : c = '/'
    · subst hc
      rw [splitSlash_slash_cons, joinParts_cons _ _ (splitSlash_ne_nil cs), ih]
      rfl
    · cases hsc : splitSlash cs with
      | nil => exact absurd hsc (splitSlash_ne_nil cs)
      | cons g r =>
        rw [hsc] at ih
        rw [splitSlash_cons_of_ne c cs hc hsc]
        cases r with
        | nil =>
          simp only [joinParts] at ih ⊢
          exact congrArg (c :: ·) ih
        | cons r0 rs =>
          rw [joinParts_cons _ _ (by simp)] at ih
          rw [joinParts_cons _ _ (by simp)]
          rw [← ih]
          rfl

theorem splitSlash_joinParts : ∀ ps : List GoStr, ps ≠ [] →
    (∀ part ∈ ps, '/' ∉ part) → splitSlash (joinParts ps) = ps
  | [], h, _ => absurd rfl h
  | [p], _, hs => by
    simp only [joinParts]
    exact splitSlash_no_slash (hs p (List.mem_singleton.mpr rfl))
  | p :: q :: ps, _, hs => by
    rw [joinParts_cons _ _ (by simp), splitSlash_append,
      splitSlash_no_slash (hs p (by simp)),
      splitSlash_joinParts (q :: ps) (by simp) (fun part hm => hs part (by simp [hm]))]
    rfl

theorem mem_of_mem_splitSlash {p : GoStr} :
    ∀ {g : GoStr} {c : Char}, g ∈ splitSlash p → c ∈ g → c ∈ p := by
  induction p with
  | nil =>
    intro g c hg hc
    simp [splitSlash] at hg
    subst hg
    exact absurd hc (List.not_mem_nil c)
  | cons d cs ih =>
    intro g c hg hc
    by_cases hd : d = '/'
    · subst hd
      rw [splitSlash_slash_cons] at hg
      rcases List.mem_cons.mp hg with hg | hg
      · subst hg; exact absurd hc (List.not_mem_nil c)
      · exact List.mem_cons_of_mem _ (ih hg hc)
    · cases hsc : splitSlash cs with
      | nil => exact absurd hsc (splitSlash_ne_nil cs)
      | cons g0 r =>
        rw [splitSlash_cons_of_ne d cs hd hsc] at hg
        rcases List.mem_cons.mp hg with hg | hg
        · subst hg
          rcases List.mem_cons.mp hc with hc | hc
          · exact hc ▸ List.mem_cons_self d cs
          · exact List.mem_cons_of_mem _ (ih (hsc ▸ List.mem_cons_self g0 r) hc)
        · exact List.mem_cons_of_mem _ (ih (hsc ▸ List.mem_cons_of_mem g0 hg) hc)

theorem not_slash_mem_splitSlash {p : GoStr} :
    ∀ {g : GoStr}, g ∈ splitSlash p → '/' ∉ g := by
  induction p with
  | nil =>
    intro g hg
    simp [splitSlash] at hg
    subst hg
    exact List.not_mem_nil _
  | cons d cs ih =>
    intro g hg
    by_cases hd : d = '/'
    · subst hd
      rw [splitSlash_slash_cons] at hg
      rcases List.mem_cons.mp hg with hg | hg
      · subst hg; exact List.not_mem_nil _
      · exact ih hg
    · cases hsc : splitSlash cs with
      | nil => exact absurd hsc (splitSlash_ne_nil cs)
      | cons g0 r =>
        rw [splitSlash_cons_of_ne d cs hd hsc] at hg
        rcases List.mem_cons.mp hg with hg | hg
        · subst hg
          intro hmem
          rcases List.mem_cons.mp hmem with hs | hs
          · exact hd hs.symm
          · exact ih (hsc ▸ List.mem_cons_self g0 r) hs
        · exact ih (hsc ▸ List.mem_cons_of_mem g0 hg)

theorem mem_joinParts : ∀ {ps : List GoStr} {c : Char},
    c ∈ joinParts ps → c = '/' ∨ ∃ part ∈ ps, c ∈ part
  | [], c, h => absurd h (List.not_mem_nil c)
  | [p], c, h => Or.inr ⟨p, List.mem_singleton.mpr rfl, h⟩
  | p :: q :: ps, c, h => by
    rw [joinParts_cons _ _ (by simp)] at h
    rcases List.mem_append.mp h with h | h
    · exact Or.inr ⟨p, by simp, h⟩
    · rcases List.mem_cons.mp h with h | h
      · exact Or.inl h
      · rcases mem_joinParts h with h | ⟨part, hm, hc⟩
        · exact Or.inl h
        · exact Or.inr ⟨part, by simp [List.mem_cons.mp hm], hc⟩

theorem isValidComp_spec {n : GoStr} :
    isValidComp n = true ↔ n ≠ [] ∧ n ≠ ['.'] ∧ n ≠ ['.', '.'] := by
  simp [isValidComp, and_assoc]

theorem validName_spec {n : GoStr} :
    validName n = true ↔
      (n ≠ [] ∧ n ≠ ['.'] ∧ n ≠ ['.', '.'] ∧ '/' ∉ n ∧ '\\' ∉ n) := by
  simp [validName, isValidComp, List.contains, and_assoc]

theorem mem_cleanParts {p part : GoStr} :
    part ∈ cleanParts p ↔ part ∈ splitSlash p ∧ part ≠ [] ∧ part ≠ ['.'] := by
  simp [cleanParts, List.mem_filter, and_assoc]

theorem cleanParts_dot : cleanParts ['.'] = [] := by rfl

theorem cleanParts_append_slash (a b : GoStr) :
    cleanParts (a ++ '/' :: b) = cleanParts a ++ cleanParts b := by
  simp [cleanParts, splitSlash_append, List.filter_append]

theorem cleanParts_single {n : GoStr} (h1 : n ≠ []) (h2 : n ≠ ['.'])
    (h3 : '/' ∉ n) : cleanParts n = [n] := by
  rw [cleanParts, splitSlash_no_slash h3]
  simp [List.filter, h1, h2]

theorem cleanParts_joinParts {ps : List GoStr} (hne : ps ≠ [])
    (h : ∀ part ∈ ps, part ≠ [] ∧ part ≠ ['.'] ∧ '/' ∉ part) :
    cleanParts (joinParts ps) = ps := by
  rw [cleanParts, splitSlash_joinParts ps hne fun part hm => (h part hm).2.2]
  exact List.filter_eq_self.mpr fun part hm => by
    simp [(h part hm).1, (h part hm).2.1]

theorem validName_props {n : GoStr} (h : validName n = true) :
    n ≠ [] ∧ n ≠ ['.'] ∧ '/' ∉ n ∧ '\\' ∉ n := by
  have := validName_spec.mp h
  exact ⟨this.1, this.2.1, this.2.2.2.1, this.2.2.2.2⟩

theorem validName_isValidComp {n : GoStr} (h : validName n = true) :
    isValidComp n = true := by
  have := validName_spec.mp h
  exact isValidComp_spec.mpr ⟨this.1, this.2.1, this.2.2.1⟩

theorem pathOfParts_ne_nil {ps : List GoStr} (h : ps ≠ []) :
    pathOfParts ps = joinParts ps := by
  cases ps with
  | nil => exact absurd rfl h
  | cons p rest => rfl

theorem cleanParts_pathOfParts {ps : List GoStr} (h : validBase ps) :
    cleanParts (pathOfParts ps) = ps := by
  cases ps with
  | nil => exact cleanParts_dot
  | cons p rest =>
    rw [pathOfParts_ne_nil (by simp)]
    exact cleanParts_joinParts (by simp) fun part hm =>
      ⟨(validName_props (h part hm)).1, (validName_props (h part hm)).2.1,
        (validName_props (h part hm)).2.2.1⟩

theorem sanitize_pathOfParts {ps : List GoStr} (h : validBase ps) :
    sanitize (pathOfParts ps) = pathOfParts ps := by
  apply sanitize_eq_self
  intro hmem
  cases ps with
  | nil =>
    simp only [pathOfParts] at hmem
    simp at hmem
  | cons p rest =>
    rw [pathOfParts_ne_nil (by simp)] at hmem
    rcases mem_joinParts hmem with hc | ⟨part, hm, hc⟩
    · exact absurd hc (by decide)
    · exact (validName_props (h part hm)).2.2.2 hc

theorem pathParts_dot : pathParts ['.'] = some [] := by
  rw [pathParts, if_pos rfl]

theorem pathParts_cases {p : GoStr} {ps : List GoStr}
    (h : pathParts p = some ps) :
    (p = ['.'] ∧ ps = []) ∨
      (ps = splitSlash p ∧ ∀ c ∈ ps, isValidComp c = true) := by
  by_cases hp : p = ['.']
  · rw [pathParts, if_pos hp] at h
    exact Or.inl ⟨hp, (Option.some.inj h).symm⟩
  · rw [pathParts, if_neg hp] at h
    by_cases hall : ((splitSlash p).all isValidComp) = true
    · rw [if_pos hall] at h
      refine Or.inr ⟨(Option.some.inj h).symm, ?_⟩
      intro c hc
      exact List.all_eq_true.mp hall c ((Option.some.inj h) ▸ hc)
    · rw [if_neg hall] at h
      exact absurd h (by simp)

theorem pathOfParts_pathParts {p : GoStr} {ps : List GoStr}
    (h : pathParts p = some ps) : pathOfParts ps = p := by
  rcases pathParts_cases h with ⟨hp, hps⟩ | ⟨hps, _⟩
  · rw [hps, hp]; rfl
  · subst hps
    rw [pathOfParts_ne_nil (splitSlash_ne_nil p)]
    exact joinParts_splitSlash p

theorem pathParts_pathOfParts {ps : List GoStr} (h : validBase ps) :
    pathParts (pathOfParts ps) = some ps := by
  cases ps with
  | nil => exact pathParts_dot
  | cons p rest =>
    have hnoslash : ∀ part ∈ p :: rest, '/' ∉ part :=
      fun part hm => (validName_props (h part hm)).2.2.1
    have hsplit : splitSlash (joinParts (p :: rest)) = p :: rest :=
      splitSlash_joinParts _ (by simp) hnoslash
    rw [pathOfParts_ne_nil (by simp)]
    have hne : joinParts (p :: rest) ≠ ['.'] := by
      intro heq
      have h1 : p :: rest = [['.']] := by
        rw [← hsplit, heq]; rfl
      injection h1 with hp _
      exact (validName_props (h p (by simp))).2.1 hp
    rw [pathParts, if_neg hne, hsplit,
      if_pos (List.all_eq_true.mpr fun c hc => validName_isValidComp (h c hc))]

theorem flatMap_cleanParts_of_all_nil {elems : List GoStr}
    (h : ∀ e ∈ elems, e = []) : elems.flatMap cleanParts = [] := by
  induction elems with
  | nil => rfl
  | cons e es ih =>
    have he : e = [] := h e (by simp)
    subst he
    have : cleanParts [] = [] := by rfl
    simp only [List.flatMap_cons, this, List.nil_append]
    exact ih fun e hm => h e (by simp [hm])

theorem cleanParts_filepathJoin (elems : List GoStr) :
    cleanParts (filepathJoin elems) = elems.flatMap cleanParts := by
  by_cases hall : (elems.all fun e => (e = [] : Bool)) = true
  · rw [filepathJoin, if_pos hall]
    rw [flatMap_cleanParts_of_all_nil fun e hm => by
      simpa using List.all_eq_true.mp hall e hm]
    rfl
  · cases hm : elems.flatMap cleanParts with
    | nil =>
      simp only [filepathJoin, if_neg hall, hm]
      exact cleanParts_dot
    | cons p ps =>
      simp only [filepathJoin, if_neg hall, hm]
      refine cleanParts_joinParts (by simp) fun part hpm => ?_
      have hpm2 : part ∈ elems.flatMap cleanParts := hm ▸ hpm
      rcases List.mem_flatMap.mp hpm2 with ⟨e, _, hpe⟩
      have h3 := mem_cleanParts.mp hpe
      exact ⟨h3.2.1, h3.2.2, not_slash_mem_splitSlash h3.1⟩

theorem filepathJoin_canonical {base : List GoStr} {n : GoStr}
    (hb : validBase base) (hn : validName n = true) :
    filepathJoin [pathOfParts base, n] = pathOfParts (base ++ [n]) := by
  have hnp := validName_props hn
  have hall : ¬(([pathOfParts base, n].all fun e => (e = [] : Bool)) = true) := by
    simp [List.all_eq_true]
    intro h1
    exact fun h2 => hnp.1 h2
  have hflat : [pathOfParts base, n].flatMap cleanParts = base ++ [n] := by
    simp only [List.flatMap_cons, List.flatMap_nil, List.append_nil]
    rw [cleanParts_pathOfParts hb, cleanParts_single hnp.1 hnp.2.1 hnp.2.2.1]
  cases base with
  | nil =>
    simp only [filepathJoin, if_neg hall, hflat, List.nil_append]
    rfl
  | cons b bs =>
    simp only [filepathJoin, if_neg hall, hflat, List.cons_append]
    rw [pathOfParts_ne_nil (by simp)]

/-! Lemmas on the embedded store. -/

theorem resolve_nil (n : EmbNode) : resolve n [] = some n := by
  cases n <;> rfl

theorem resolve_file (content : List Nat) (c : GoStr) (cs : List GoStr) :
    resolve (.file content) (c :: cs) = none := rfl

theorem resolve_dir (es : List (GoStr × EmbNode)) (c : GoStr) (cs : List GoStr) :
    resolve (.dir es) (c :: cs) = resolveIn es c cs := rfl

theorem resolveIn_nil (c : GoStr) (cs : List GoStr) :
    resolveIn [] c cs = none := rfl

theorem resolveIn_cons (nm : GoStr) (e : EmbNode) (es : List (GoStr × EmbNode))
    (c : GoStr) (cs : List GoStr) :
    resolveIn ((nm, e) :: es) c cs =
      if nm = c then resolve e cs else resolveIn es c cs := rfl

theorem resolve_append : ∀ (a : List GoStr) (n : EmbNode) (b : List GoStr),
    resolve n (a ++ b) = (resolve n a).bind fun m => resolve m b
  | [], n, b => by simp [resolve_nil]
  | c :: cs, .file content, b => by simp [resolve_file]
  | c :: cs, .dir es, b => by
    rw [List.cons_append, resolve_dir, resolve_dir]
    induction es with
    | nil => simp [resolveIn_nil]
    | cons pr es ihe =>
      obtain ⟨nm, e⟩ := pr
      rw [resolveIn_cons, resolveIn_cons]
      by_cases hnm : nm = c
      · rw [if_pos hnm, if_pos hnm]
        exact resolve_append cs e b
      · rw [if_neg hnm, if_neg hnm]
        exact ihe

theorem resolveIn_mem : ∀ {es : List (GoStr × EmbNode)} {c : GoStr}
    {cs : List GoStr} {m : EmbNode}, resolveIn es c cs = some m →
    ∃ e, (c, e) ∈ es ∧ resolve e cs = some m := by
  intro es
  induction es with
  | nil => intro c cs m hr; rw [resolveIn_nil] at hr; cases hr
  | cons pr es ih =>
    intro c cs m hr
    obtain ⟨nm, e⟩ := pr
    rw [resolveIn_cons] at hr
    by_cases hnm : nm = c
    · rw [if_pos hnm] at hr
      exact ⟨e, by simp [hnm], hr⟩
    · rw [if_neg hnm] at hr
      rcases ih hr with ⟨e', hm, hre⟩
      exact ⟨e', List.mem_cons_of_mem _ hm, hre⟩

theorem nodupB_cons {x : GoStr} {l : List GoStr} :
    nodupB (x :: l) = true ↔ x ∉ l ∧ nodupB l = true := by
  simp [nodupB, List.contains]

theorem resolveIn_of_mem {es : List (GoStr × EmbNode)} {n : GoStr} {e : EmbNode}
    (hnd : nodupB (es.map Prod.fst) = true) (hm : (n, e) ∈ es)
    (cs : List GoStr) : resolveIn es n cs = resolve e cs := by
  induction es with
  | nil => exact absurd hm (List.not_mem_nil _)
  | cons pr es ih =>
    obtain ⟨nm, e'⟩ := pr
    rw [List.map_cons] at hnd
    have hnd2 := nodupB_cons.mp hnd
    rw [resolveIn_cons]
    rcases List.mem_cons.mp hm with hh | hh
    · injection hh with h1 h2
      subst h1; subst h2
      rw [if_pos rfl]
    · by_cases hnm : nm = n
      · exfalso
        apply hnd2.1
        subst hnm
        exact List.mem_map.mpr ⟨(nm, e), hh, rfl⟩
      · rw [if_neg hnm]
        exact ih hnd2.2 hh

theorem wfB_dir {es : List (GoStr × EmbNode)} (h : wfB (.dir es) = true) :
    wfEntries es = true ∧ nodupB (es.map Prod.fst) = true := by
  have h2 : (wfEntries es && nodupB (es.map Prod.fst)) = true := h
  simp only [Bool.and_eq_true] at h2
  exact h2

theorem wfEntries_cons {nm : GoStr} {e : EmbNode} {es : List (GoStr × EmbNode)}
    (h : wfEntries ((nm, e) :: es) = true) :
    validName nm = true ∧ wfB e = true ∧ wfEntries es = true := by
  have h2 : (validName nm && wfB e && wfEntries es) = true := h
  simp only [Bool.and_eq_true] at h2
  exact ⟨h2.1.1, h2.1.2, h2.2⟩

theorem wfEntries_mem {es : List (GoStr × EmbNode)} (h : wfEntries es = true)
    {pr : GoStr × EmbNode} (hm : pr ∈ es) :
    validName pr.1 = true ∧ wfB pr.2 = true := by
  induction es with
  | nil => exact absurd hm (List.not_mem_nil _)
  | cons pr0 es ih =>
    obtain ⟨nm, e⟩ := pr0
    have h1 := wfEntries_cons h
    rcases List.mem_cons.mp hm with hh | hh
    · subst hh; exact ⟨h1.1, h1.2.1⟩
    · exact ih h1.2.2 hh

mutual

theorem wf_resolve : ∀ (ps : List GoStr) (n m : EmbNode),
    wfB n = true → resolve n ps = some m → wfB m = true
  | [], n, m, hw, hr => by
    rw [resolve_nil] at hr
    cases hr
    exact hw
  | c :: cs, .file content, m, _, hr => by
    rw [resolve_file] at hr
    cases hr
  | c :: cs, .dir es, m, hw, hr =>
    wf_resolveIn cs es c m (wfB_dir hw).1 (by rwa [resolve_dir] at hr)

theorem wf_resolveIn : ∀ (cs : List GoStr) (es : List (GoStr × EmbNode))
    (c : GoStr) (m : EmbNode), wfEntries es = true →
    resolveIn es c cs = some m → wfB m = true
  | cs, [], c, m, _, hr => by
    rw [resolveIn_nil] at hr
    cases hr
  | cs, (nm, e) :: es, c, m, he, hr => by
    have h1 := wfEntries_cons he
    rw [resolveIn_cons] at hr
    by_cases hnm : nm = c
    · rw [if_pos hnm] at hr
      exact wf_resolve cs e m h1.2.1 hr
    · rw [if_neg hnm] at hr
      exact wf_resolveIn cs es c m h1.2.2 hr

end

theorem embHeightEntries_mem {es : List (GoStr × EmbNode)}
    {pr : GoStr × EmbNode} (hm : pr ∈ es) :
    embHeight pr.2 ≤ embHeightEntries es := by
  induction es with
  | nil => exact absurd hm (List.not_mem_nil _)
  | cons pr0 es ih =>
    obtain ⟨nm, e⟩ := pr0
    rcases List.mem_cons.mp hm with hh | hh
    · subst hh
      exact le_max_left _ _
    · exact le_trans (ih hh) (le_max_right _ _)

theorem embHeight_mem {es : List (GoStr × EmbNode)} {pr : GoStr × EmbNode}
    (hm : pr ∈ es) : embHeight pr.2 < embHeight (.dir es) := by
  have h1 : embHeight (.dir es) = embHeightEntries es + 1 := rfl
  rw [h1]
  exact Nat.lt_succ_of_le (embHeightEntries_mem hm)

theorem resolve_child {fsys : EmbNode} {base : List GoStr}
    {es : List (GoStr × EmbNode)} (hres : resolve fsys base = some (.dir es))
    (hnd : nodupB (es.map Prod.fst) = true) {n : GoStr} {e : EmbNode}
    (hm : (n, e) ∈ es) : resolve fsys (base ++ [n]) = some e := by
  rw [resolve_append, hres]
  show resolve (.dir es) [n] = some e
  rw [resolve_dir, resolveIn_of_mem hnd hm, resolve_nil]

/-! Generic lemmas about the walk layers. -/

theorem applyTrace_nil (f : σ → GoStr → DirEntry → σ × Option ε) (s : σ) :
    applyTrace f s [] = s := rfl

theorem applyTrace_cons (f : σ → GoStr → DirEntry → σ × Option ε) (s : σ)
    (pr : GoStr × DirEntry) (tr : List (GoStr × DirEntry)) :
    applyTrace f s (pr :: tr) = applyTrace f (f s pr.1 pr.2).1 tr := rfl

theorem applyTrace_append (f : σ → GoStr → DirEntry → σ × Option ε) (s : σ)
    (a b : List (GoStr × DirEntry)) :
    applyTrace f s (a ++ b) = applyTrace f (applyTrace f s a) b :=
  List.foldl_append _ _ a b

theorem noErrCalls_nil (f : σ → GoStr → DirEntry → σ × Option ε) (s : σ) :
    noErrCalls f s [] := trivial

theorem noErrCalls_cons {f : σ → GoStr → DirEntry → σ × Option ε} {s : σ}
    {pr : GoStr × DirEntry} {tr : List (GoStr × DirEntry)} :
    noErrCalls f s (pr :: tr) ↔
      (f s pr.1 pr.2).2 = none ∧ noErrCalls f (f s pr.1 pr.2).1 tr :=
  Iff.rfl

theorem noErrCalls_append {f : σ → GoStr → DirEntry → σ × Option ε} :
    ∀ {a b : List (GoStr × DirEntry)} {s : σ},
    noErrCalls f s (a ++ b) ↔ noErrCalls f s a ∧ noErrCalls f (applyTrace f s a) b := by
  intro a
  induction a with
  | nil =>
    intro b s
    rw [List.nil_append, applyTrace_nil]
    exact ⟨fun h => ⟨trivial, h⟩, fun h => h.2⟩
  | cons pr t ih =>
    intro b s
    rw [List.cons_append, noErrCalls_cons, noErrCalls_cons, applyTrace_cons, ih,
      and_assoc]

theorem noErrCalls_mem {f : σ → GoStr → DirEntry → σ × Option ε} :
    ∀ {tr : List (GoStr × DirEntry)} {s : σ} {pr : GoStr × DirEntry},
    noErrCalls f s tr → pr ∈ tr →
    ∃ t1 t2, tr = t1 ++ pr :: t2 ∧ (f (applyTrace f s t1) pr.1 pr.2).2 = none := by
  intro tr
  induction tr with
  | nil => intro s pr _ hm; exact absurd hm (List.not_mem_nil _)
  | cons pr0 t ih =>
    intro s pr hok hm
    rcases List.mem_cons.mp hm with hh | hh
    · subst hh
      exact ⟨[], t, rfl, hok.1⟩
    · rcases ih hok.2 hh with ⟨t1, t2, ht, hc⟩
      exact ⟨pr0 :: t1, t2, by rw [ht]; rfl, by rwa [applyTrace_cons]⟩

theorem runItems_st (f : σ → GoStr → DirEntry → σ × Option ε) (p : GoStr) :
    ∀ (items : List DirEntry) (s : σ),
    (runItems f p s items).st = applyTrace f s (runItems f p s items).trace
  | [], s => rfl
  | de :: des, s => by
    rcases hfs : f s p de with ⟨s', r2⟩
    cases r2 with
    | some e =>
      simp only [runItems, hfs]
      rw [applyTrace_cons, applyTrace_nil, hfs]
    | none =>
      simp only [runItems, hfs]
      rw [applyTrace_cons, hfs]
      exact runItems_st f p des s'

theorem runItems_fst (f : σ → GoStr → DirEntry → σ × Option ε) (p : GoStr) :
    ∀ (items : List DirEntry) (s : σ) (pr : GoStr × DirEntry),
    pr ∈ (runItems f p s items).trace → pr.1 = p
  | [], s, pr, hm => absurd hm (List.not_mem_nil _)
  | de :: des, s, pr, hm => by
    rcases hfs : f s p de with ⟨s', r2⟩
    cases r2 with
    | some e =>
      simp only [runItems, hfs] at hm
      rcases List.mem_singleton.mp hm with rfl
      rfl
    | none =>
      simp only [runItems, hfs] at hm
      rcases List.mem_cons.mp hm with hh | hh
      · subst hh; rfl
      · exact runItems_fst f p des s' pr hh

theorem runItems_mem (f : σ → GoStr → DirEntry → σ × Option ε) (p : GoStr) :
    ∀ (items : List DirEntry) (s : σ) (pr : GoStr × DirEntry),
    pr ∈ (runItems f p s items).trace → pr.2 ∈ items
  | [], s, pr, hm => absurd hm (List.not_mem_nil _)
  | de :: des, s, pr, hm => by
    rcases hfs : f s p de with ⟨s', r2⟩
    cases r2 with
    | some e =>
      simp only [runItems, hfs] at hm
      rcases List.mem_singleton.mp hm with rfl
      simp
    | none =>
      simp only [runItems, hfs] at hm
      rcases List.mem_cons.mp hm with hh | hh
      · subst hh; simp
      · exact List.mem_cons_of_mem _ (runItems_mem f p des s' pr hh)

theorem runItems_ok (f : σ → GoStr → DirEntry → σ × Option ε) (p : GoStr) :
    ∀ (items : List DirEntry) (s : σ), (runItems f p s items).err = none →
    (runItems f p s items).trace = items.map ((p, ·)) ∧
      noErrCalls f s (runItems f p s items).trace
  | [], s, _ => ⟨rfl, trivial⟩
  | de :: des, s, herr => by
    rcases hfs : f s p de with ⟨s', r2⟩
    cases r2 with
    | some e =>
      simp only [runItems, hfs] at herr
      exact Option.noConfusion herr
    | none =>
      simp only [runItems, hfs] at herr ⊢
      have ih := runItems_ok f p des s' herr
      refine ⟨by rw [ih.1]; rfl, ?_⟩
      rw [noErrCalls_cons, hfs]
      exact ⟨rfl, ih.2⟩

theorem runItems_err (f : σ → GoStr → DirEntry → σ × Option ε) (p : GoStr) :
    ∀ (items : List DirEntry) (s : σ) (er : WErr ε),
    (runItems f p s items).err = some er →
    ∃ e t1 de, er = .visitor e ∧
      (runItems f p s items).trace = t1 ++ [(p, de)] ∧
      noErrCalls f s t1 ∧ (f (applyTrace f s t1) p de).2 = some e
  | [], s, er, herr => by
    simp only [runItems] at herr
    exact Option.noConfusion herr
  | de :: des, s, er, herr => by
    rcases hfs : f s p de with ⟨s', r2⟩
    cases r2 with
    | some e =>
      simp only [runItems, hfs] at herr ⊢
      cases herr
      exact ⟨e, [], de, rfl, rfl, trivial, by rw [applyTrace_nil, hfs]⟩
    | none =>
      simp only [runItems, hfs] at herr ⊢
      rcases runItems_err f p des s' er herr with ⟨e, t1, de', her, htr, hok, hc⟩
      refine ⟨e, (p, de) :: t1, de', her, by rw [htr, List.cons_append], ?_, ?_⟩
      · rw [noErrCalls_cons, hfs]
        exact ⟨rfl, hok⟩
      · rwa [applyTrace_cons, hfs]

theorem WalkDir_notFound {fsys : EmbNode} {p : GoStr}
    (h : readDir fsys (sanitize p) = none)
    (f : σ → GoStr → DirEntry → σ × Option ε) (s : σ) :
    WalkDir fsys p f s = ⟨s, [], some (.notFound (sanitize p))⟩ := by
  simp only [WalkDir, h]

theorem WalkDir_items {fsys : EmbNode} {p : GoStr} {items : List DirEntry}
    (h : readDir fsys (sanitize p) = some items)
    (f : σ → GoStr → DirEntry → σ × Option ε) (s : σ) :
    WalkDir fsys p f s = runItems f (sanitize p) s items := by
  simp only [WalkDir, h]

theorem foldersOf_nil : foldersOf [] = [] := rfl

theorem foldersOf_cons (pr : GoStr × DirEntry) (tr : List (GoStr × DirEntry)) :
    foldersOf (pr :: tr) =
      (if pr.2.isDir then [filepathJoin [pr.1, pr.2.name]] else []) ++ foldersOf tr := by
  by_cases hd : pr.2.isDir <;> simp [foldersOf, List.filter_cons, hd]

theorem foldersOf_append (a b : List (GoStr × DirEntry)) :
    foldersOf (a ++ b) = foldersOf a ++ foldersOf b := by
  simp [foldersOf, List.filter_append]

theorem foldersOf_eq_nil {tr : List (GoStr × DirEntry)}
    (h : foldersOf tr = []) : ∀ pr ∈ tr, pr.2.isDir = false := by
  intro pr hm
  by_contra hd
  have hd2 : pr.2.isDir = true := by
    cases hb : pr.2.isDir
    · exact absurd hb hd
    · rfl
  have : filepathJoin [pr.1, pr.2.name] ∈ foldersOf tr :=
    List.mem_map.mpr ⟨pr, List.mem_filter.mpr ⟨hm, hd2⟩, rfl⟩
  rw [h] at this
  exact List.not_mem_nil _ this

theorem runItems_collect (f : σ → GoStr → DirEntry → σ × Option ε) (p : GoStr) :
    ∀ (items : List DirEntry) (s : σ) (fol : List GoStr),
    runItems (collectVisit f) p (s, fol) items =
      ⟨((runItems f p s items).st, fol ++ foldersOf (runItems f p s items).trace),
        (runItems f p s items).trace, (runItems f p s items).err⟩
  | [], s, fol => by simp [runItems, foldersOf_nil]
  | de :: des, s, fol => by
    rcases hfs : f s p de with ⟨s', r2⟩
    have hcv : collectVisit f (s, fol) p de =
        ((s', if de.isDir then fol ++ [filepathJoin [p, de.name]] else fol), r2) := by
      simp only [collectVisit, hfs]
    cases r2 with
    | some e =>
      simp only [runItems, hcv, hfs]
      by_cases hd : de.isDir <;>
        simp [hd, foldersOf_cons, foldersOf_nil]
    | none =>
      simp only [runItems, hcv, hfs]
      rw [runItems_collect f p des s' (if de.isDir then fol ++ [filepathJoin [p, de.name]] else fol)]
      by_cases hd : de.isDir <;> simp [hd, foldersOf_cons]

theorem WalkDir_collect {fsys : EmbNode} {p : GoStr} {items : List DirEntry}
    (h : readDir fsys (sanitize p) = some items)
    (f : σ → GoStr → DirEntry → σ × Option ε) (s : σ) (fol : List GoStr) :
    WalkDir fsys p (collectVisit f) (s, fol) =
      ⟨((runItems f (sanitize p) s items).st,
          fol ++ foldersOf (runItems f (sanitize p) s items).trace),
        (runItems f (sanitize p) s items).trace,
        (runItems f (sanitize p) s items).err⟩ := by
  rw [WalkDir_items h, runItems_collect]

theorem walkBatch_shape (fsys : EmbNode) (f : σ → GoStr → DirEntry → σ × Option ε) :
    ∀ (folders : List GoStr) (s : σ) (r : WalkOut σ ε) (nf : List GoStr),
    walkBatch fsys f s folders = (r, nf) →
    r.st = applyTrace f s r.trace ∧
    ((noErrCalls f s r.trace ∧
        (r.err = none ∨ ∃ q, r.err = some (.notFound q))) ∨
      ∃ t1 pr e, r.trace = t1 ++ [pr] ∧ noErrCalls f s t1 ∧
        (f (applyTrace f s t1) pr.1 pr.2).2 = some e ∧
        r.err = some (.visitor e))
  | [], s, r, nf, heq => by
    simp only [walkBatch] at heq
    cases heq
    exact ⟨rfl, Or.inl ⟨trivial, Or.inl rfl⟩⟩
  | p :: ps, s, r, nf, heq => by
    simp only [walkBatch] at heq
    cases hrd : readDir fsys (sanitize p) with
    | none =>
      rw [WalkDir_notFound hrd] at heq
      simp only at heq
      cases heq
      exact ⟨rfl, Or.inl ⟨trivial, Or.inr ⟨sanitize p, rfl⟩⟩⟩
    | some items =>
      rw [WalkDir_collect hrd] at heq
      cases herr : (runItems f (sanitize p) s items).err with
      | some er =>
        rw [herr] at heq
        simp only at heq
        cases heq
        rcases runItems_err f (sanitize p) items s er herr with
          ⟨e, t1, de, her, htr, hok, hc⟩
        subst her
        exact ⟨by rw [runItems_st], Or.inr ⟨t1, (sanitize p, de), e, htr, hok, hc, rfl⟩⟩
      | none =>
        rw [herr] at heq
        simp only at heq
        rcases hwb : walkBatch fsys f (runItems f (sanitize p) s items).st ps with
          ⟨r2, nf2⟩
        rw [hwb] at heq
        simp only at heq
        cases heq
        have hok0 := runItems_ok f (sanitize p) items s herr
        have ih := walkBatch_shape fsys f ps (runItems f (sanitize p) s items).st r2 nf2 hwb
        have hst0 := runItems_st f (sanitize p) items s
        constructor
        · show r2.st = applyTrace f s (_ ++ r2.trace)
          rw [applyTrace_append, ← hst0, ih.1]
        · rcases ih.2 with ⟨hnec, herr2⟩ | ⟨t1, pr, e, htr, hnec, hc, herr2⟩
          · refine Or.inl ⟨?_, herr2⟩
            rw [noErrCalls_append]
            exact ⟨hok0.2, by rwa [← hst0]⟩
          · refine Or.inr ⟨(runItems f (sanitize p) s items).trace ++ t1, pr, e,
              by rw [htr, List.append_assoc], ?_, ?_, herr2⟩
            · rw [noErrCalls_append]
              exact ⟨hok0.2, by rwa [← hst0]⟩
            · rwa [applyTrace_append, ← hst0]

theorem walkLoop_shape (fsys : EmbNode) (f : σ → GoStr → DirEntry → σ × Option ε) :
    ∀ (fuel : Nat) (folders : List GoStr) (s : σ) (r : WalkOut σ ε),
    walkLoop fsys f fuel s folders = r →
    r.st = applyTrace f s r.trace ∧
    ((noErrCalls f s r.trace ∧
        (r.err = none ∨ (∃ q, r.err = some (.notFound q)) ∨ r.err = some .outOfFuel)) ∨
      ∃ t1 pr e, r.trace = t1 ++ [pr] ∧ noErrCalls f s t1 ∧
        (f (applyTrace f s t1) pr.1 pr.2).2 = some e ∧
        r.err = some (.visitor e)) := by
  intro fuel
  induction fuel with
  | zero =>
    intro folders s r heq
    cases folders with
    | nil =>
      simp only [walkLoop] at heq
      cases heq
      exact ⟨rfl, Or.inl ⟨trivial, Or.inl rfl⟩⟩
    | cons p ps =>
      simp only [walkLoop] at heq
      rcases hwb : walkBatch fsys f s (p :: ps) with ⟨br, nf⟩
      rw [hwb] at heq
      have hsh := walkBatch_shape fsys f (p :: ps) s br nf hwb
      cases herr : br.err with
      | some er =>
        rw [herr] at heq
        simp only at heq
        cases heq
        rcases hsh.2 with ⟨hnec, hca⟩ | hvis
        · exact ⟨hsh.1, Or.inl ⟨hnec, by
            rcases hca with hca | ⟨q, hca⟩
            · exact absurd (hca ▸ herr) (by simp)
            · exact Or.inr (Or.inl ⟨q, hca⟩)⟩⟩
        · exact ⟨hsh.1, Or.inr hvis⟩
      | none =>
        rw [herr] at heq
        simp only at heq
        cases heq
        rcases hsh.2 with ⟨hnec, _⟩ | ⟨t1, pr, e, htr, _, _, herr2⟩
        · exact ⟨hsh.1, Or.inl ⟨hnec, Or.inr (Or.inr rfl)⟩⟩
        · exact absurd (herr2 ▸ herr) (by simp)
  | succ fuel ih =>
    intro folders s r heq
    cases folders with
    | nil =>
      simp only [walkLoop] at heq
      cases heq
      exact ⟨rfl, Or.inl ⟨trivial, Or.inl rfl⟩⟩
    | cons p ps =>
      simp only [walkLoop] at heq
      rcases hwb : walkBatch fsys f s (p :: ps) with ⟨br, nf⟩
      rw [hwb] at heq
      have hsh := walkBatch_shape fsys f (p :: ps) s br nf hwb
      cases herr : br.err with
      | some er =>
        rw [herr] at heq
        simp only at heq
        cases heq
        rcases hsh.2 with ⟨hnec, hca⟩ | hvis
        · exact ⟨hsh.1, Or.inl ⟨hnec, by
            rcases hca with hca | ⟨q, hca⟩
            · exact absurd (hca ▸ herr) (by simp)
            · exact Or.inr (Or.inl ⟨q, hca⟩)⟩⟩
        · exact ⟨hsh.1, Or.inr hvis⟩
      | none =>
        rw [herr] at heq
        simp only at heq
        rcases hwl : walkLoop fsys f fuel br.st nf with r2
        rw [hwl] at heq
        cases heq
        have hih := ih nf br.st r2 hwl
        rcases hsh.2 with ⟨hnec0, _⟩ | ⟨t1, pr, e, htr, _, _, herr2⟩
        · constructor
          · show r2.st = applyTrace f s (br.trace ++ r2.trace)
            rw [applyTrace_append, ← hsh.1, hih.1]
          · rcases hih.2 with ⟨hnec, hca⟩ | ⟨t1, pr, e, htr, hnec, hc, herr2⟩
            · refine Or.inl ⟨?_, hca⟩
              rw [noErrCalls_append]
              exact ⟨hnec0, by rwa [← hsh.1]⟩
            · refine Or.inr ⟨br.trace ++ t1, pr, e, by rw [htr, List.append_assoc],
                ?_, ?_, herr2⟩
              · rw [noErrCalls_append]
                exact ⟨hnec0, by rwa [← hsh.1]⟩
              · rwa [applyTrace_append, ← hsh.1]
        · exact absurd (herr2 ▸ herr) (by simp)

theorem Walk_shape (fsys : EmbNode) (startPath : GoStr)
    (f : σ → GoStr → DirEntry → σ × Option ε) (s : σ) {r : WalkOut σ ε}
    (heq : Walk fsys startPath f s = r) :
    r.st = applyTrace f s r.trace ∧
    ((noErrCalls f s r.trace ∧
        (r.err = none ∨ (∃ q, r.err = some (.notFound q)) ∨
          (∃ q, r.err = some (.noFolderFound (.notFound q))) ∨
          r.err = some .outOfFuel)) ∨
      ∃ t1 pr e, r.trace = t1 ++ [pr] ∧ noErrCalls f s t1 ∧
        (f (applyTrace f s t1) pr.1 pr.2).2 = some e ∧
        (r.err = some (.visitor e) ∨
          (r.err = some (.noFolderFound (.visitor e)) ∧
            ∀ pr' ∈ t1 ++ [pr], pr'.1 = sanitize startPath ∧ pr'.2.isDir = false))) := by
  cases hrd : readDir fsys (sanitize startPath) with
  | none =>
    rw [Walk, WalkDir_notFound hrd] at heq
    simp only at heq
    cases heq
    exact ⟨rfl, Or.inl ⟨trivial, Or.inr (Or.inr (Or.inl ⟨sanitize startPath, rfl⟩))⟩⟩
  | some items =>
    rw [Walk, WalkDir_collect hrd] at heq
    cases herr : (runItems f (sanitize startPath) s items).err with
    | some er =>
      rw [herr] at heq
      simp only at heq
      rcases runItems_err f (sanitize startPath) items s er herr with
        ⟨e, t1, de, her, htr, hok, hc⟩
      subst her
      cases hfol : foldersOf (runItems f (sanitize startPath) s items).trace with
      | nil =>
        rw [hfol] at heq
        simp only [List.append_nil] at heq
        cases heq
        refine ⟨by rw [runItems_st], Or.inr ⟨t1, (sanitize startPath, de), e, htr,
          hok, hc, Or.inr ⟨rfl, ?_⟩⟩⟩
        intro pr' hm
        rw [← htr] at hm
        exact ⟨runItems_fst f (sanitize startPath) items s pr' hm,
          foldersOf_eq_nil hfol pr' hm⟩
      | cons q qs =>
        rw [hfol] at heq
        simp only [List.nil_append] at heq
        cases heq
        exact ⟨by rw [runItems_st], Or.inr ⟨t1, (sanitize startPath, de), e, htr,
          hok, hc, Or.inl rfl⟩⟩
    | none =>
      rw [herr] at heq
      simp only at heq
      rcases hwl : walkLoop fsys f (embHeight fsys)
          (runItems f (sanitize startPath) s items).st
          ([] ++ foldersOf (runItems f (sanitize startPath) s items).trace) with r2
      rw [hwl] at heq
      cases heq
      have hok0 := runItems_ok f (sanitize startPath) items s herr
      have hst0 := runItems_st f (sanitize startPath) items s
      have hih := walkLoop_shape fsys f (embHeight fsys) _ _ r2 hwl
      constructor
      · show r2.st = applyTrace f s (_ ++ r2.trace)
        rw [applyTrace_append, ← hst0, hih.1]
      · rcases hih.2 with ⟨hnec, hca⟩ | ⟨t1, pr, e, htr, hnec, hc, herr2⟩
        · refine Or.inl ⟨?_, ?_⟩
          · rw [noErrCalls_append]
            exact ⟨hok0.2, by rwa [← hst0]⟩
          · rcases hca with hca | ⟨q, hca⟩ | hca
            · exact Or.inl hca
            · exact Or.inr (Or.inl ⟨q, hca⟩)
            · exact Or.inr (Or.inr (Or.inr hca))
        · refine Or.inr ⟨(runItems f (sanitize startPath) s items).trace ++ t1, pr, e,
            by rw [htr, List.append_assoc], ?_, ?_, Or.inl herr2⟩
          · rw [noErrCalls_append]
            exact ⟨hok0.2, by rwa [← hst0]⟩
          · rwa [applyTrace_append, ← hst0]

/-! The walk on well-formed trees: complete breadth-first enumeration. -/

theorem filter_map_comm {α β : Type} (f : α → β) (p : β → Bool) :
    ∀ l : List α, (l.map f).filter p = (l.filter fun a => p (f a)).map f
  | [] => rfl
  | a :: l => by
    by_cases hp : p (f a) = true <;>
      simp [List.filter_cons, hp, filter_map_comm f p l]

theorem readDir_canonical {fsys : EmbNode} {b : List GoStr}
    {es : List (GoStr × EmbNode)} (hb : validBase b)
    (hres : resolve fsys b = some (.dir es)) :
    readDir fsys (pathOfParts b) = some (entryList es) := by
  simp only [readDir, pathParts_pathOfParts hb, hres]

theorem mem_entryList {es : List (GoStr × EmbNode)} {de : DirEntry} :
    de ∈ entryList es ↔ ∃ pr ∈ es, de = ⟨pr.1, pr.2.isDirB⟩ := by
  simp only [entryList, List.mem_map]
  constructor
  · rintro ⟨pr, hm, rfl⟩; exact ⟨pr, hm, rfl⟩
  · rintro ⟨pr, hm, rfl⟩; exact ⟨pr, hm, rfl⟩

theorem levelVisits_eq {fsys : EmbNode} {b : List GoStr}
    {es : List (GoStr × EmbNode)} (hres : resolve fsys b = some (.dir es)) :
    levelVisits fsys b = (entryList es).map ((pathOfParts b, ·)) := by
  simp only [levelVisits, hres, entryList, List.map_map]
  rfl

theorem foldersOf_levelVisits {fsys : EmbNode} {b : List GoStr}
    {es : List (GoStr × EmbNode)} (hb : validBase b)
    (hres : resolve fsys b = some (.dir es)) (hes : wfEntries es = true) :
    foldersOf (levelVisits fsys b) = (childDirParts fsys b).map pathOfParts := by
  simp only [levelVisits, hres, childDirParts, foldersOf]
  rw [filter_map_comm, List.map_map, List.map_map]
  apply List.map_congr_left
  intro pr hm
  have hpm : pr ∈ es := List.mem_of_mem_filter hm
  have hn : validName pr.1 = true := (wfEntries_mem hes hpm).1
  exact filepathJoin_canonical hb hn

theorem embHeight_resolve_le : ∀ (ps : List GoStr) (n m : EmbNode),
    resolve n ps = some m → embHeight m ≤ embHeight n
  | [], n, m, hr => by
    rw [resolve_nil] at hr
    cases hr
    exact le_refl _
  | c :: cs, .file content, m, hr => by
    rw [resolve_file] at hr
    cases hr
  | c :: cs, .dir es, m, hr => by
    rw [resolve_dir] at hr
    rcases resolveIn_mem hr with ⟨e, hm, hre⟩
    exact le_trans (embHeight_resolve_le cs e m hre)
      (le_of_lt (embHeight_mem hm))

theorem validBase_of_pathParts_sanitize {q : GoStr} {ps : List GoStr}
    (h : pathParts (sanitize q) = some ps) : validBase ps := by
  rcases pathParts_cases h with ⟨_, hps⟩ | ⟨hps, hvalid⟩
  · subst hps; intro c hc; exact absurd hc (List.not_mem_nil _)
  · intro c hc
    have hv := hvalid c hc
    have hsl : '/' ∉ c := not_slash_mem_splitSlash (hps ▸ hc)
    have hbs : '\\' ∉ c := fun hm =>
      mem_sanitize_ne (mem_of_mem_splitSlash (hps ▸ hc) hm) rfl
    have hspec := isValidComp_spec.mp hv
    exact validName_spec.mpr ⟨hspec.1, hspec.2.1, hspec.2.2, hsl, hbs⟩

theorem readDir_inv {fsys : EmbNode} {q : GoStr} {items : List DirEntry}
    (h : readDir fsys q = some items) :
    ∃ ps es, pathParts q = some ps ∧ resolve fsys ps = some (.dir es) ∧
      items = entryList es := by
  cases hps : pathParts q with
  | none =>
    simp only [readDir, hps] at h
    exact Option.noConfusion h
  | some ps =>
    cases hres : resolve fsys ps with
    | none =>
      simp only [readDir, hps, hres] at h
      exact Option.noConfusion h
    | some n =>
      cases n with
      | file content =>
        simp only [readDir, hps, hres] at h
        exact Option.noConfusion h
      | dir es =>
        simp only [readDir, hps, hres] at h
        exact ⟨ps, es, rfl, hres, (Option.some.inj h).symm⟩

theorem GoodFrontier_child {fsys : EmbNode} {H : Nat} {bases : List (List GoStr)}
    (hwf : wfB fsys = true) (hg : GoodFrontier fsys H bases) :
    GoodFrontier fsys (H - 1) (bases.flatMap (childDirParts fsys)) := by
  intro b' hm
  rcases List.mem_flatMap.mp hm with ⟨b, hb, hmb⟩
  rcases hg b hb with ⟨hvb, es, hres, hH⟩
  rw [childDirParts, hres] at hmb
  rcases List.mem_map.mp hmb with ⟨pr, hpr, rfl⟩
  have hpm : pr ∈ es := List.mem_of_mem_filter hpr
  have hdirB : pr.2.isDirB = true := (List.mem_filter.mp hpr).2
  have hwfd : wfB (.dir es) = true := wf_resolve b fsys _ hwf hres
  have hnames := wfB_dir hwfd
  have hvn : validName pr.1 = true := (wfEntries_mem hnames.1 hpm).1
  have hchild : resolve fsys (b ++ [pr.1]) = some pr.2 :=
    resolve_child hres hnames.2 (by rcases pr with ⟨n, e⟩; exact hpm)
  refine ⟨?_, ?_⟩
  · intro c hc
    rcases List.mem_append.mp hc with hc | hc
    · exact hvb c hc
    · rw [List.mem_singleton.mp hc]; exact hvn
  · cases he : pr.2 with
    | file content => rw [he] at hdirB; exact absurd hdirB (by simp [EmbNode.isDirB])
    | dir es' =>
      refine ⟨es', by rw [← he]; exact hchild, ?_⟩
      have h1 : embHeight pr.2 < embHeight (.dir es) := embHeight_mem hpm
      rw [he] at h1
      exact Nat.le_sub_one_of_lt (lt_of_lt_of_le h1 hH)

theorem walkBatch_nil (fsys : EmbNode) (f : σ → GoStr → DirEntry → σ × Option ε)
    (s : σ) : walkBatch fsys f s [] = (⟨s, [], none⟩, []) := rfl

theorem walkBatch_cons_err {fsys : EmbNode} {p : GoStr} {items : List DirEntry}
    (hrd : readDir fsys (sanitize p) = some items)
    (f : σ → GoStr → DirEntry → σ × Option ε) (s : σ) {er : WErr ε}
    (herr : (runItems f (sanitize p) s items).err = some er) (ps : List GoStr) :
    walkBatch fsys f s (p :: ps) =
      (⟨(runItems f (sanitize p) s items).st,
          (runItems f (sanitize p) s items).trace, some er⟩,
        [] ++ foldersOf (runItems f (sanitize p) s items).trace) := by
  simp only [walkBatch, WalkDir_collect hrd f s []]
  rw [herr]

theorem walkBatch_cons_ok {fsys : EmbNode} {p : GoStr} {items : List DirEntry}
    (hrd : readDir fsys (sanitize p) = some items)
    (f : σ → GoStr → DirEntry → σ × Option ε) (s : σ)
    (herr : (runItems f (sanitize p) s items).err = none) (ps : List GoStr) :
    walkBatch fsys f s (p :: ps) =
      (⟨(walkBatch fsys f (runItems f (sanitize p) s items).st ps).1.st,
          (runItems f (sanitize p) s items).trace ++
            (walkBatch fsys f (runItems f (sanitize p) s items).st ps).1.trace,
          (walkBatch fsys f (runItems f (sanitize p) s items).st ps).1.err⟩,
        ([] ++ foldersOf (runItems f (sanitize p) s items).trace) ++
          (walkBatch fsys f (runItems f (sanitize p) s items).st ps).2) := by
  simp only [walkBatch, WalkDir_collect hrd f s []]
  rw [herr]

theorem walkLoop_nil (fsys : EmbNode) (f : σ → GoStr → DirEntry → σ × Option ε)
    (fuel : Nat) (s : σ) : walkLoop fsys f fuel s [] = ⟨s, [], none⟩ := by
  simp [walkLoop]

theorem walkLoop_cons_err {fsys : EmbNode}
    {f : σ → GoStr → DirEntry → σ × Option ε} {s : σ} {p : GoStr}
    {ps : List GoStr} {r1 : WalkOut σ ε} {nf1 : List GoStr}
    (hb : walkBatch fsys f s (p :: ps) = (r1, nf1)) {er : WErr ε}
    (herr : r1.err = some er) (fuel : Nat) :
    walkLoop fsys f fuel s (p :: ps) = r1 := by
  cases fuel <;>
    · simp only [walkLoop, hb]
      rw [herr]

theorem walkLoop_cons_ok_zero {fsys : EmbNode}
    {f : σ → GoStr → DirEntry → σ × Option ε} {s : σ} {p : GoStr}
    {ps : List GoStr} {r1 : WalkOut σ ε} {nf1 : List GoStr}
    (hb : walkBatch fsys f s (p :: ps) = (r1, nf1))
    (herr : r1.err = none) :
    walkLoop fsys f 0 s (p :: ps) = ⟨r1.st, r1.trace, some .outOfFuel⟩ := by
  simp only [walkLoop, hb]
  rw [herr]

theorem walkLoop_cons_ok_succ {fsys : EmbNode}
    {f : σ → GoStr → DirEntry → σ × Option ε} {s : σ} {p : GoStr}
    {ps : List GoStr} {r1 : WalkOut σ ε} {nf1 : List GoStr}
    (hb : walkBatch fsys f s (p :: ps) = (r1, nf1))
    (herr : r1.err = none) (fuel : Nat) :
    walkLoop fsys f (fuel + 1) s (p :: ps) =
      ⟨(walkLoop fsys f fuel r1.st nf1).st,
        r1.trace ++ (walkLoop fsys f fuel r1.st nf1).trace,
        (walkLoop fsys f fuel r1.st nf1).err⟩ := by
  simp only [walkLoop, hb]
  rw [herr]

theorem Walk_eq_notFound {fsys : EmbNode} {startPath : GoStr}
    (hrd : readDir fsys (sanitize startPath) = none)
    (f : σ → GoStr → DirEntry → σ × Option ε) (s : σ) :
    Walk fsys startPath f s =
      ⟨s, [], some (.noFolderFound (.notFound (sanitize startPath)))⟩ := by
  rw [Walk, WalkDir_notFound hrd]

theorem Walk_top_err_wrap {fsys : EmbNode} {startPath : GoStr}
    {items : List DirEntry} (hrd : readDir fsys (sanitize startPath) = some items)
    (f : σ → GoStr → DirEntry → σ × Option ε) (s : σ) {er : WErr ε}
    (herr : (runItems f (sanitize startPath) s items).err = some er)
    (hfol : foldersOf (runItems f (sanitize startPath) s items).trace = []) :
    Walk fsys startPath f s =
      ⟨(runItems f (sanitize startPath) s items).st,
        (runItems f (sanitize startPath) s items).trace,
        some (.noFolderFound er)⟩ := by
  rw [Walk, WalkDir_collect hrd]
  rw [herr, hfol]
  rfl

theorem Walk_top_err_bare {fsys : EmbNode} {startPath : GoStr}
    {items : List DirEntry} (hrd : readDir fsys (sanitize startPath) = some items)
    (f : σ → GoStr → DirEntry → σ × Option ε) (s : σ) {er : WErr ε}
    (herr : (runItems f (sanitize startPath) s items).err = some er)
    {q : GoStr} {qs : List GoStr}
    (hfol : foldersOf (runItems f (sanitize startPath) s items).trace = q :: qs) :
    Walk fsys startPath f s =
      ⟨(runItems f (sanitize startPath) s items).st,
        (runItems f (sanitize startPath) s items).trace, some er⟩ := by
  rw [Walk, WalkDir_collect hrd]
  rw [herr]
  simp only [List.nil_append, hfol]

theorem Walk_top_ok {fsys : EmbNode} {startPath : GoStr}
    {items : List DirEntry} (hrd : readDir fsys (sanitize startPath) = some items)
    (f : σ → GoStr → DirEntry → σ × Option ε) (s : σ)
    (herr : (runItems f (sanitize startPath) s items).err = none) :
    Walk fsys startPath f s =
      ⟨(walkLoop fsys f (embHeight fsys) (runItems f (sanitize startPath) s items).st
          ([] ++ foldersOf (runItems f (sanitize startPath) s items).trace)).st,
        (runItems f (sanitize startPath) s items).trace ++
          (walkLoop fsys f (embHeight fsys)
            (runItems f (sanitize startPath) s items).st
            ([] ++ foldersOf (runItems f (sanitize startPath) s items).trace)).trace,
        (walkLoop fsys f (embHeight fsys)
          (runItems f (sanitize startPath) s items).st
          ([] ++ foldersOf (runItems f (sanitize startPath) s items).trace)).err⟩ := by
  rw [Walk, WalkDir_collect hrd]
  rw [herr]

theorem levelVisits_truthful {fsys : EmbNode} {b : List GoStr}
    {es : List (GoStr × EmbNode)} (hvb : validBase b)
    (hres : resolve fsys b = some (.dir es)) (hwfd : wfB (.dir es) = true) :
    ∀ pr ∈ levelVisits fsys b, TruthfulVisit fsys pr := by
  intro pr hm
  have hnames := wfB_dir hwfd
  rw [levelVisits_eq hres] at hm
  rcases List.mem_map.mp hm with ⟨de, hde, rfl⟩
  rcases mem_entryList.mp hde with ⟨pr0, hpr0, rfl⟩
  refine ⟨b, pr0.2, hvb, (wfEntries_mem hnames.1 hpr0).1, rfl, rfl, ?_⟩
  exact resolve_child hres hnames.2 (by rcases pr0 with ⟨n, e⟩; exact hpr0)

theorem walkBatch_master (fsys : EmbNode) (f : σ → GoStr → DirEntry → σ × Option ε)
    (hwf : wfB fsys = true) :
    ∀ (bases : List (List GoStr)) (s : σ) (H : Nat),
    GoodFrontier fsys H bases →
    (walkBatch fsys f s (bases.map pathOfParts) =
        (⟨applyTrace f s (bases.flatMap (levelVisits fsys)),
            bases.flatMap (levelVisits fsys), none⟩,
          (bases.flatMap (childDirParts fsys)).map pathOfParts) ∧
      noErrCalls f s (bases.flatMap (levelVisits fsys))) ∨
    (∃ t1 pr e nf, walkBatch fsys f s (bases.map pathOfParts) =
        (⟨applyTrace f s (t1 ++ [pr]), t1 ++ [pr], some (.visitor e)⟩, nf) ∧
      noErrCalls f s t1 ∧ (f (applyTrace f s t1) pr.1 pr.2).2 = some e ∧
      ∀ y ∈ t1 ++ [pr], TruthfulVisit fsys y)
  | [], s, H, _ => by
    left
    exact ⟨by simp [walkBatch_nil, applyTrace_nil], trivial⟩
  | b :: bs, s, H, hg => by
    rcases hg b (by simp) with ⟨hvb, es, hres, _⟩
    have hwfd := wf_resolve b fsys _ hwf hres
    have hnames := wfB_dir hwfd
    have hsan : sanitize (pathOfParts b) = pathOfParts b := sanitize_pathOfParts hvb
    have hrd : readDir fsys (sanitize (pathOfParts b)) = some (entryList es) := by
      rw [hsan]; exact readDir_canonical hvb hres
    have hlev : levelVisits fsys b = (entryList es).map ((pathOfParts b, ·)) :=
      levelVisits_eq hres
    have htruth : ∀ pr ∈ (runItems f (pathOfParts b) s (entryList es)).trace,
        TruthfulVisit fsys pr := by
      intro pr hm
      have hfst := runItems_fst f (pathOfParts b) (entryList es) s pr hm
      have hsnd := runItems_mem f (pathOfParts b) (entryList es) s pr hm
      rcases mem_entryList.mp hsnd with ⟨pr0, hpr0, hde⟩
      refine ⟨b, pr0.2, hvb, ?_, hfst, by rw [hde], ?_⟩
      · rw [hde]; exact (wfEntries_mem hnames.1 hpr0).1
      · rw [hde]
        exact resolve_child hres hnames.2 (by rcases pr0 with ⟨n, e⟩; exact hpr0)
    cases herr : (runItems f (pathOfParts b) s (entryList es)).err with
    | some er =>
      have herr2 : (runItems f (sanitize (pathOfParts b)) s (entryList es)).err
          = some er := by rw [hsan]; exact herr
      have hcomp := walkBatch_cons_err hrd f s herr2 (bs.map pathOfParts)
      rw [hsan] at hcomp
      rcases runItems_err f (pathOfParts b) (entryList es) s er herr with
        ⟨e, t1, de, her, htr, hok, hc⟩
      subst her
      right
      refine ⟨t1, (pathOfParts b, de), e,
        [] ++ foldersOf (runItems f (pathOfParts b) s (entryList es)).trace, ?_,
        hok, hc, ?_⟩
      · rw [List.map_cons, hcomp, runItems_st f (pathOfParts b) (entryList es) s,
          htr]
      · intro y hy
        exact htruth y (by rw [htr]; exact hy)
    | none =>
      have herr2 : (runItems f (sanitize (pathOfParts b)) s (entryList es)).err
          = none := by rw [hsan]; exact herr
      have hcomp := walkBatch_cons_ok hrd f s herr2 (bs.map pathOfParts)
      rw [hsan] at hcomp
      have hok0 := runItems_ok f (pathOfParts b) (entryList es) s herr
      have hst0 := runItems_st f (pathOfParts b) (entryList es) s
      have htr0 : (runItems f (pathOfParts b) s (entryList es)).trace =
          levelVisits fsys b := by rw [hok0.1, hlev]
      have hst1 : (runItems f (pathOfParts b) s (entryList es)).st =
          applyTrace f s (levelVisits fsys b) := by rw [hst0, htr0]
      have hfols : foldersOf (runItems f (pathOfParts b) s (entryList es)).trace =
          (childDirParts fsys b).map pathOfParts := by
        rw [htr0]; exact foldersOf_levelVisits hvb hres hnames.1
      rw [hst1] at hcomp
      have hgbs : GoodFrontier fsys H bs := fun b' hm => hg b' (by simp [hm])
      rcases walkBatch_master fsys f hwf bs
          (applyTrace f s (levelVisits fsys b)) H hgbs with
        ⟨hbs, hnec⟩ | ⟨t1, pr, e, nf, hbs, hnec, hc, htruth2⟩
      · rw [hbs] at hcomp
        left
        have hfols2 : foldersOf (levelVisits fsys b) =
            (childDirParts fsys b).map pathOfParts := by rw [← htr0]; exact hfols
        constructor
        · rw [List.map_cons, hcomp]
          simp [htr0, hfols2, applyTrace_append]
        · simp only [List.flatMap_cons, noErrCalls_append]
          refine ⟨by rw [← htr0]; exact hok0.2, ?_⟩
          exact hnec
      · rw [hbs] at hcomp
        right
        refine ⟨levelVisits fsys b ++ t1, pr, e,
          ([] ++ foldersOf (runItems f (pathOfParts b) s (entryList es)).trace) ++ nf,
          ?_, ?_, ?_, ?_⟩
        · rw [List.map_cons, hcomp]
          simp [htr0, applyTrace_append]
        · rw [noErrCalls_append]
          exact ⟨by rw [← htr0]; exact hok0.2, hnec⟩
        · rwa [applyTrace_append]
        · intro y hy
          rw [List.append_assoc] at hy
          rcases List.mem_append.mp hy with hy | hy
          · exact levelVisits_truthful hvb hres hwfd y hy
          · exact htruth2 y hy

theorem bfsVisits_nil (fsys : EmbNode) (fuel : Nat) :
    bfsVisits fsys fuel [] = [] := by
  cases fuel <;> rfl

theorem bfsVisits_succ_cons (fsys : EmbNode) (fuel : Nat) (b : List GoStr)
    (bs : List (List GoStr)) :
    bfsVisits fsys (fuel + 1) (b :: bs) =
      (b :: bs).flatMap (levelVisits fsys) ++
        bfsVisits fsys fuel ((b :: bs).flatMap (childDirParts fsys)) := rfl

theorem flatMap_level_truthful {fsys : EmbNode} (hwf : wfB fsys = true) {H : Nat}
    {bases : List (List GoStr)} (hg : GoodFrontier fsys H bases) :
    ∀ pr ∈ bases.flatMap (levelVisits fsys), TruthfulVisit fsys pr := by
  intro pr hm
  rcases List.mem_flatMap.mp hm with ⟨b, hb, hmb⟩
  rcases hg b hb with ⟨hvb, es, hres, _⟩
  exact levelVisits_truthful hvb hres (wf_resolve b fsys _ hwf hres) pr hmb

theorem walkLoop_master (fsys : EmbNode) (f : σ → GoStr → DirEntry → σ × Option ε)
    (hwf : wfB fsys = true) :
    ∀ (fuel H : Nat) (bases : List (List GoStr)) (s : σ), H ≤ fuel →
    GoodFrontier fsys H bases →
    (walkLoop fsys f fuel s (bases.map pathOfParts) =
        ⟨applyTrace f s (bfsVisits fsys fuel bases), bfsVisits fsys fuel bases,
          none⟩ ∧
      noErrCalls f s (bfsVisits fsys fuel bases)) ∨
    (∃ t1 pr e, walkLoop fsys f fuel s (bases.map pathOfParts) =
        ⟨applyTrace f s (t1 ++ [pr]), t1 ++ [pr], some (.visitor e)⟩ ∧
      noErrCalls f s t1 ∧ (f (applyTrace f s t1) pr.1 pr.2).2 = some e ∧
      ∀ y ∈ t1 ++ [pr], TruthfulVisit fsys y) := by
  intro fuel
  induction fuel with
  | zero =>
    intro H bases s hle hg
    cases bases with
    | nil =>
      left
      rw [List.map_nil, walkLoop_nil, bfsVisits_nil]
      exact ⟨rfl, trivial⟩
    | cons b bs =>
      exfalso
      rcases hg b (by simp) with ⟨_, es, _, hH⟩
      rw [Nat.le_zero.mp hle] at hH
      have h1 : embHeightEntries es + 1 ≤ 0 := hH
      exact absurd h1 (by simp)
  | succ fuel ih =>
    intro H bases s hle hg
    cases bases with
    | nil =>
      left
      rw [List.map_nil, walkLoop_nil, bfsVisits_nil]
      exact ⟨rfl, trivial⟩
    | cons b bs =>
      rcases walkBatch_master fsys f hwf (b :: bs) s H hg with
        ⟨hbatch, hnec⟩ | ⟨t1, pr, e, nf, hbatch, hnec, hc, htruth⟩
      · rw [List.map_cons] at hbatch
        have hloop := walkLoop_cons_ok_succ hbatch rfl fuel
        have hg' : GoodFrontier fsys (H - 1) ((b :: bs).flatMap (childDirParts fsys)) :=
          GoodFrontier_child hwf hg
        have hle' : H - 1 ≤ fuel := by omega
        rcases ih (H - 1) ((b :: bs).flatMap (childDirParts fsys))
            (applyTrace f s ((b :: bs).flatMap (levelVisits fsys))) hle' hg' with
          ⟨hrec, hnec2⟩ | ⟨t1, pr, e, hrec, hnec2, hc, htruth⟩
        · left
          constructor
          · rw [List.map_cons]
            simp only [hloop, hrec]
            rw [bfsVisits_succ_cons]
            simp [applyTrace_append]
          · rw [bfsVisits_succ_cons, noErrCalls_append]
            exact ⟨hnec, hnec2⟩
        · right
          refine ⟨(b :: bs).flatMap (levelVisits fsys) ++ t1, pr, e, ?_, ?_, ?_,
            ?_⟩
          · rw [List.map_cons]
            simp only [hloop, hrec]
            simp [applyTrace_append, List.append_assoc]
          · rw [noErrCalls_append]
            exact ⟨hnec, hnec2⟩
          · rwa [applyTrace_append]
          · intro y hy
            rw [List.append_assoc] at hy
            rcases List.mem_append.mp hy with hy | hy
            · exact flatMap_level_truthful hwf hg y hy
            · exact htruth y hy
      · rw [List.map_cons] at hbatch
        have hloop := walkLoop_cons_err hbatch rfl (fuel + 1)
        right
        exact ⟨t1, pr, e, by rw [List.map_cons, hloop], hnec, hc, htruth⟩

theorem GoodFrontier_mono {fsys : EmbNode} {H H2 : Nat} {bases : List (List GoStr)}
    (hle : H ≤ H2) (hg : GoodFrontier fsys H bases) : GoodFrontier fsys H2 bases := by
  intro b hm
  rcases hg b hm with ⟨hvb, es, hres, hH⟩
  exact ⟨hvb, es, hres, le_trans hH hle⟩

theorem Walk_master (fsys : EmbNode) (startPath : GoStr)
    (f : σ → GoStr → DirEntry → σ × Option ε) (s : σ)
    (hwf : wfB fsys = true) {ps : List GoStr} {es : List (GoStr × EmbNode)}
    (hps : pathParts (sanitize startPath) = some ps)
    (hres : resolve fsys ps = some (.dir es)) :
    (Walk fsys startPath f s =
        ⟨applyTrace f s (walkSpec fsys ps), walkSpec fsys ps, none⟩ ∧
      noErrCalls f s (walkSpec fsys ps)) ∨
    (∃ t1 pr e er, Walk fsys startPath f s =
        ⟨applyTrace f s (t1 ++ [pr]), t1 ++ [pr], some er⟩ ∧
      (er = .visitor e ∨ er = .noFolderFound (.visitor e)) ∧
      noErrCalls f s t1 ∧ (f (applyTrace f s t1) pr.1 pr.2).2 = some e ∧
      ∀ y ∈ t1 ++ [pr], TruthfulVisit fsys y) := by
  have hvb : validBase ps := validBase_of_pathParts_sanitize hps
  have hcan : pathOfParts ps = sanitize startPath := pathOfParts_pathParts hps
  have hrd : readDir fsys (sanitize startPath) = some (entryList es) := by
    rw [← hcan]; exact readDir_canonical hvb hres
  have hwfd := wf_resolve ps fsys _ hwf hres
  have hnames := wfB_dir hwfd
  have htruth : ∀ pr ∈ (runItems f (sanitize startPath) s (entryList es)).trace,
      TruthfulVisit fsys pr := by
    intro pr hm
    have hfst := runItems_fst f (sanitize startPath) (entryList es) s pr hm
    have hsnd := runItems_mem f (sanitize startPath) (entryList es) s pr hm
    rcases mem_entryList.mp hsnd with ⟨pr0, hpr0, hde⟩
    refine ⟨ps, pr0.2, hvb, ?_, by rw [hfst, ← hcan], by rw [hde], ?_⟩
    · rw [hde]; exact (wfEntries_mem hnames.1 hpr0).1
    · rw [hde]
      exact resolve_child hres hnames.2 (by rcases pr0 with ⟨n, e⟩; exact hpr0)
  cases herr : (runItems f (sanitize startPath) s (entryList es)).err with
  | some er =>
    rcases runItems_err f (sanitize startPath) (entryList es) s er herr with
      ⟨e, t1, de, her, htr, hok, hc⟩
    subst her
    cases hfol : foldersOf (runItems f (sanitize startPath) s (entryList es)).trace with
    | nil =>
      have hW := Walk_top_err_wrap hrd f s herr hfol
      right
      refine ⟨t1, (sanitize startPath, de), e, .noFolderFound (.visitor e), ?_,
        Or.inr rfl, hok, hc, ?_⟩
      · rw [hW, runItems_st f (sanitize startPath) (entryList es) s, htr]
      · intro y hy
        exact htruth y (by rw [htr]; exact hy)
    | cons q qs =>
      have hW := Walk_top_err_bare hrd f s herr hfol
      right
      refine ⟨t1, (sanitize startPath, de), e, .visitor e, ?_,
        Or.inl rfl, hok, hc, ?_⟩
      · rw [hW, runItems_st f (sanitize startPath) (entryList es) s, htr]
      · intro y hy
        exact htruth y (by rw [htr]; exact hy)
  | none =>
    have hok0 := runItems_ok f (sanitize startPath) (entryList es) s herr
    have hst0 := runItems_st f (sanitize startPath) (entryList es) s
    have htr0 : (runItems f (sanitize startPath) s (entryList es)).trace =
        levelVisits fsys ps := by
      rw [hok0.1, levelVisits_eq hres, hcan]
    have hst1 : (runItems f (sanitize startPath) s (entryList es)).st =
        applyTrace f s (levelVisits fsys ps) := by rw [hst0, htr0]
    have hfols : foldersOf (runItems f (sanitize startPath) s (entryList es)).trace =
        (childDirParts fsys ps).map pathOfParts := by
      rw [htr0]; exact foldersOf_levelVisits hvb hres hnames.1
    have hW := Walk_top_ok hrd f s herr
    rw [List.nil_append, hfols, hst1, htr0] at hW
    have hgf : GoodFrontier fsys (embHeight fsys) (childDirParts fsys ps) := by
      have hg0 : GoodFrontier fsys (embHeight (.dir es)) [ps] := by
        intro b hm
        rw [List.mem_singleton.mp hm]
        exact ⟨hvb, es, hres, le_refl _⟩
      have hg1 := GoodFrontier_child hwf hg0
      have hg2 : GoodFrontier fsys (embHeight (.dir es) - 1) (childDirParts fsys ps) := by
        intro b hm
        exact hg1 b (by simp [hm])
      exact GoodFrontier_mono
        (le_trans (Nat.sub_le _ _) (embHeight_resolve_le ps fsys _ hres)) hg2
    rcases walkLoop_master fsys f hwf (embHeight fsys) (embHeight fsys)
        (childDirParts fsys ps) (applyTrace f s (levelVisits fsys ps))
        (le_refl _) hgf with
      ⟨hrec, hnec2⟩ | ⟨t1, pr, e, hrec, hnec2, hc, htruth2⟩
    · left
      constructor
      · rw [hW]
        simp only [hrec]
        rw [walkSpec]
        simp [applyTrace_append]
      · rw [walkSpec, noErrCalls_append]
        exact ⟨by rw [← htr0]; exact hok0.2, hnec2⟩
    · right
      refine ⟨levelVisits fsys ps ++ t1, pr, e, .visitor e, ?_, Or.inl rfl, ?_, ?_,
        ?_⟩
      · rw [hW]
        simp only [hrec]
        simp [applyTrace_append, List.append_assoc]
      · rw [noErrCalls_append]
        exact ⟨by rw [← htr0]; exact hok0.2, hnec2⟩
      · rwa [applyTrace_append]
      · intro y hy
        rw [List.append_assoc] at hy
        rcases List.mem_append.mp hy with hy | hy
        · exact levelVisits_truthful hvb hres hwfd y hy
        · exact htruth2 y hy

/-! The spec-side breadth-first enumeration: truthfulness, completeness
(a permutation of all descendants), uniqueness, and level monotonicity. -/

theorem flatMap_perm_congr {α β : Type} {f g : α → List β} :
    ∀ {l : List α}, (∀ x ∈ l, (f x).Perm (g x)) →
    (l.flatMap f).Perm (l.flatMap g)
  | [], _ => List.Perm.refl _
  | a :: l, h => by
    simp only [List.flatMap_cons]
    exact (h a (by simp)).append
      (flatMap_perm_congr fun x hx => h x (by simp [hx]))

theorem flatMap_append_perm {α β : Type} (f g : α → List β) :
    ∀ l : List α,
    (l.flatMap fun x => f x ++ g x).Perm (l.flatMap f ++ l.flatMap g)
  | [] => List.Perm.refl _
  | a :: l => by
    simp only [List.flatMap_cons]
    have h1 := (flatMap_append_perm f g l).append_left (f a ++ g a)
    have h2 : ((f a ++ g a) ++ (l.flatMap f ++ l.flatMap g)).Perm
        ((f a ++ l.flatMap f) ++ (g a ++ l.flatMap g)) := by
      rw [List.append_assoc, List.append_assoc]
      exact (List.perm_append_comm_assoc (g a) (l.flatMap f) (l.flatMap g)).append_left _
    exact h1.trans h2

theorem flatMap_singleton_map {α β : Type} (h : α → β) :
    ∀ l : List α, (l.flatMap fun x => [h x]) = l.map h
  | [] => rfl
  | a :: l => by
    simp only [List.flatMap_cons, flatMap_singleton_map h l, List.map_cons]
    rfl

theorem flatMap_cons_split_perm {α β : Type} (h : α → β) (g : α → List β) :
    ∀ l : List α,
    (l.flatMap fun x => h x :: g x).Perm (l.map h ++ l.flatMap g) := by
  intro l
  have h1 : (l.flatMap fun x => h x :: g x) =
      l.flatMap fun x => [h x] ++ g x := by
    simp
  rw [h1]
  have h2 := flatMap_append_perm (fun x => [h x]) g l
  rwa [flatMap_singleton_map h l] at h2

theorem flatMap_filter_eq {α β : Type} (p : α → Bool) (g : α → List β)
    (hvanish : ∀ x, p x = false → g x = []) :
    ∀ l : List α, (l.filter p).flatMap g = l.flatMap g
  | [] => rfl
  | a :: l => by
    cases hp : p a with
    | true =>
      simp [List.filter_cons, hp, flatMap_filter_eq p g hvanish l]
    | false =>
      simp [List.filter_cons, hp, flatMap_filter_eq p g hvanish l, hvanish a hp]

theorem bfsVisits_truthful {fsys : EmbNode} (hwf : wfB fsys = true) :
    ∀ (fuel H : Nat) (bases : List (List GoStr)), GoodFrontier fsys H bases →
    ∀ pr ∈ bfsVisits fsys fuel bases, TruthfulVisit fsys pr := by
  intro fuel
  induction fuel with
  | zero =>
    intro H bases hg pr hm
    cases bases with
    | nil => rw [bfsVisits_nil] at hm; exact absurd hm (List.not_mem_nil _)
    | cons b bs =>
      simp only [bfsVisits] at hm
      exact absurd hm (List.not_mem_nil _)
  | succ fuel ih =>
    intro H bases hg pr hm
    cases bases with
    | nil => rw [bfsVisits_nil] at hm; exact absurd hm (List.not_mem_nil _)
    | cons b bs =>
      rw [bfsVisits_succ_cons] at hm
      rcases List.mem_append.mp hm with hm | hm
      · rcases List.mem_flatMap.mp hm with ⟨b', hb', hmb⟩
        rcases hg b' hb' with ⟨hvb, es, hres, _⟩
        exact levelVisits_truthful hvb hres (wf_resolve b' fsys _ hwf hres) pr hmb
      · exact ih (H - 1) _ (GoodFrontier_child hwf hg) pr hm

theorem flatMap_congr_mem {α β : Type} {f g : α → List β} :
    ∀ {l : List α}, (∀ x ∈ l, f x = g x) → l.flatMap f = l.flatMap g
  | [], _ => rfl
  | a :: l, h => by
    simp only [List.flatMap_cons]
    rw [h a (by simp), flatMap_congr_mem fun x hx => h x (by simp [hx])]

theorem subpathsEntries_map_append (b : List GoStr) :
    ∀ es : List (GoStr × EmbNode),
    (subpathsEntries es).map (b ++ ·) =
      es.flatMap fun pr =>
        (b ++ [pr.1]) :: (subpaths pr.2).map fun q => b ++ pr.1 :: q
  | [] => rfl
  | (n, e) :: es => by
    have hstep : subpathsEntries ((n, e) :: es) =
        [n] :: ((subpaths e).map (n :: ·) ++ subpathsEntries es) := rfl
    rw [hstep]
    simp only [List.map_cons, List.map_append, List.map_map, List.flatMap_cons]
    rw [subpathsEntries_map_append b es]
    rfl

theorem visitParts_levelVisits {fsys : EmbNode} {b : List GoStr}
    {es : List (GoStr × EmbNode)} (hvb : validBase b)
    (hres : resolve fsys b = some (.dir es)) :
    (levelVisits fsys b).map visitParts = es.map fun pr => b ++ [pr.1] := by
  rw [levelVisits_eq hres, entryList, List.map_map, List.map_map]
  apply List.map_congr_left
  intro pr _
  show visitParts (pathOfParts b, ⟨pr.1, pr.2.isDirB⟩) = b ++ [pr.1]
  rw [visitParts]
  simp only
  rw [cleanParts_pathOfParts hvb]

theorem descFrom_unfold {fsys : EmbNode} {b : List GoStr}
    {es : List (GoStr × EmbNode)} (hvb : validBase b)
    (hres : resolve fsys b = some (.dir es)) (hwfd : wfB (.dir es) = true) :
    (descFrom fsys b).Perm
      ((levelVisits fsys b).map visitParts ++
        (childDirParts fsys b).flatMap (descFrom fsys)) := by
  have hnames := wfB_dir hwfd
  have hL : descFrom fsys b =
      es.flatMap fun pr =>
        (b ++ [pr.1]) :: (subpaths pr.2).map fun q => b ++ pr.1 :: q := by
    rw [descFrom, hres]
    exact subpathsEntries_map_append b es
  have hR2 : (childDirParts fsys b).flatMap (descFrom fsys) =
      es.flatMap fun pr => (subpaths pr.2).map fun q => b ++ pr.1 :: q := by
    rw [childDirParts, hres, List.flatMap_map]
    rw [flatMap_congr_mem (f := fun pr : GoStr × EmbNode => descFrom fsys (b ++ [pr.1]))
      (g := fun pr : GoStr × EmbNode => (subpaths pr.2).map fun q => b ++ pr.1 :: q) ?hcong]
    case hcong =>
      intro pr hm
      have hpm : pr ∈ es := List.mem_of_mem_filter hm
      have hchild : resolve fsys (b ++ [pr.1]) = some pr.2 :=
        resolve_child hres hnames.2 (by rcases pr with ⟨n, e⟩; exact hpm)
      simp only [descFrom, hchild]
      apply List.map_congr_left
      intro q _
      rw [List.append_assoc]
      rfl
    exact flatMap_filter_eq _ _ (fun pr hp => by
      cases he : pr.2 with
      | file content => rfl
      | dir es' => exact absurd hp (by simp [he, EmbNode.isDirB])) es
  rw [hL, hR2, visitParts_levelVisits hvb hres]
  exact flatMap_cons_split_perm _ _ es

theorem childFrontier_good {fsys : EmbNode} {ps : List GoStr}
    {es : List (GoStr × EmbNode)} (hwf : wfB fsys = true) (hvb : validBase ps)
    (hres : resolve fsys ps = some (.dir es)) :
    GoodFrontier fsys (embHeight fsys) (childDirParts fsys ps) := by
  have hg0 : GoodFrontier fsys (embHeight (.dir es)) [ps] := by
    intro b hm
    rw [List.mem_singleton.mp hm]
    exact ⟨hvb, es, hres, le_refl _⟩
  have hg1 := GoodFrontier_child hwf hg0
  have hg2 : GoodFrontier fsys (embHeight (.dir es) - 1) (childDirParts fsys ps) :=
    fun b hm => hg1 b (by simp [hm])
  exact GoodFrontier_mono
    (le_trans (Nat.sub_le _ _) (embHeight_resolve_le ps fsys _ hres)) hg2

theorem bfsVisits_perm {fsys : EmbNode} (hwf : wfB fsys = true) :
    ∀ (fuel H : Nat) (bases : List (List GoStr)), H ≤ fuel →
    GoodFrontier fsys H bases →
    ((bfsVisits fsys fuel bases).map visitParts).Perm
      (bases.flatMap (descFrom fsys)) := by
  intro fuel
  induction fuel with
  | zero =>
    intro H bases hle hg
    cases bases with
    | nil => rw [bfsVisits_nil]; exact List.Perm.refl _
    | cons b bs =>
      exfalso
      rcases hg b (by simp) with ⟨_, es, _, hH⟩
      rw [Nat.le_zero.mp hle] at hH
      exact absurd (show embHeightEntries es + 1 ≤ 0 from hH) (by simp)
  | succ fuel ih =>
    intro H bases hle hg
    cases bases with
    | nil => rw [bfsVisits_nil]; exact List.Perm.refl _
    | cons b bs =>
      rw [bfsVisits_succ_cons, List.map_append]
      have hrec := ih (H - 1) ((b :: bs).flatMap (childDirParts fsys))
        (by omega) (GoodFrontier_child hwf hg)
      have hunfold : ∀ x ∈ b :: bs, (descFrom fsys x).Perm
          ((levelVisits fsys x).map visitParts ++
            (childDirParts fsys x).flatMap (descFrom fsys)) := by
        intro x hm
        rcases hg x hm with ⟨hvx, es, hresx, _⟩
        exact descFrom_unfold hvx hresx (wf_resolve x fsys _ hwf hresx)
      have h1 := flatMap_perm_congr hunfold
      have h2 := flatMap_append_perm
        (fun x => (levelVisits fsys x).map visitParts)
        (fun x => (childDirParts fsys x).flatMap (descFrom fsys)) (b :: bs)
      have h3 : (b :: bs).flatMap (fun x => (levelVisits fsys x).map visitParts) =
          ((b :: bs).flatMap (levelVisits fsys)).map visitParts :=
        (List.map_flatMap _ _ _).symm
      have h4 : (b :: bs).flatMap
            (fun x => (childDirParts fsys x).flatMap (descFrom fsys)) =
          ((b :: bs).flatMap (childDirParts fsys)).flatMap (descFrom fsys) :=
        (List.flatMap_assoc _ _ _).symm
      rw [h3, h4] at h2
      exact ((hrec.append_left _).trans (h1.trans h2).symm).symm.symm

theorem walkSpec_perm {fsys : EmbNode} {ps : List GoStr}
    {es : List (GoStr × EmbNode)} (hwf : wfB fsys = true) (hvb : validBase ps)
    (hres : resolve fsys ps = some (.dir es)) :
    ((walkSpec fsys ps).map visitParts).Perm (descFrom fsys ps) := by
  rw [walkSpec, List.map_append]
  have hunfold := descFrom_unfold hvb hres (wf_resolve ps fsys _ hwf hres)
  have hrec := bfsVisits_perm hwf (embHeight fsys) (embHeight fsys)
    (childDirParts fsys ps) (le_refl _) (childFrontier_good hwf hvb hres)
  exact (hrec.append_left _).trans hunfold.symm

theorem subpathsEntries_shape : ∀ (es : List (GoStr × EmbNode))
    (q : List GoStr), q ∈ subpathsEntries es →
    ∃ nm q', nm ∈ es.map Prod.fst ∧ q = nm :: q'
  | [], q, hm => absurd hm (List.not_mem_nil _)
  | (n, e) :: es, q, hm => by
    have hstep : subpathsEntries ((n, e) :: es) =
        [n] :: ((subpaths e).map (n :: ·) ++ subpathsEntries es) := rfl
    rw [hstep] at hm
    rcases List.mem_cons.mp hm with hh | hh
    · exact ⟨n, [], by rw [List.map_cons]; exact List.mem_cons_self _ _, hh⟩
    · rcases List.mem_append.mp hh with hh | hh
      · rcases List.mem_map.mp hh with ⟨q0, _, rfl⟩
        exact ⟨n, q0, by rw [List.map_cons]; exact List.mem_cons_self _ _, rfl⟩
      · rcases subpathsEntries_shape es q hh with ⟨nm, q', hnm, rfl⟩
        exact ⟨nm, q', by rw [List.map_cons]; exact List.mem_cons_of_mem _ hnm, rfl⟩

theorem subpaths_ne_nil {e : EmbNode} {q : List GoStr} (hm : q ∈ subpaths e) :
    q ≠ [] := by
  cases e with
  | file _ => exact absurd hm (List.not_mem_nil _)
  | dir es =>
    rcases subpathsEntries_shape es q hm with ⟨nm, q', _, rfl⟩
    exact List.cons_ne_nil _ _

mutual

theorem subpaths_nodup : ∀ (n : EmbNode), wfB n = true → (subpaths n).Nodup
  | .file _, _ => List.nodup_nil
  | .dir es, hw => subpathsEntries_nodup es (wfB_dir hw).1 (wfB_dir hw).2

theorem subpathsEntries_nodup : ∀ (es : List (GoStr × EmbNode)),
    wfEntries es = true → nodupB (es.map Prod.fst) = true →
    (subpathsEntries es).Nodup
  | [], _, _ => List.nodup_nil
  | (n, e) :: es, he, hnd => by
    have h1 := wfEntries_cons he
    have h2 : n ∉ es.map Prod.fst ∧ nodupB (es.map Prod.fst) = true :=
      nodupB_cons.mp (by rw [List.map_cons] at hnd; exact hnd)
    have hstep : subpathsEntries ((n, e) :: es) =
        [n] :: ((subpaths e).map (n :: ·) ++ subpathsEntries es) := rfl
    rw [hstep]
    refine List.Nodup.cons ?_ (List.Nodup.append ?_ ?_ ?_)
    · intro hmem
      rcases List.mem_append.mp hmem with hh | hh
      · rcases List.mem_map.mp hh with ⟨q0, hq0, hq⟩
        injection hq with _ hq2
        exact subpaths_ne_nil hq0 hq2
      · rcases subpathsEntries_shape es [n] hh with ⟨nm, q', hnm, hq⟩
        injection hq with hq1 hq2
        exact h2.1 (hq1 ▸ hnm)
    · exact (subpaths_nodup e h1.2.1).map fun a b hab => by injection hab
    · exact subpathsEntries_nodup es h1.2.2 h2.2
    · intro q hq1 hq2
      rcases List.mem_map.mp hq1 with ⟨q0, _, rfl⟩
      rcases subpathsEntries_shape es (n :: q0) hq2 with ⟨nm, q', hnm, hq⟩
      injection hq with hq1' _
      exact h2.1 (hq1' ▸ hnm)

end

theorem descFrom_nodup {fsys : EmbNode} {ps : List GoStr} (hwf : wfB fsys = true) :
    (descFrom fsys ps).Nodup := by
  cases hres : resolve fsys ps with
  | none => simp only [descFrom, hres]; exact List.nodup_nil
  | some n =>
    simp only [descFrom, hres]
    exact (subpaths_nodup n (wf_resolve ps fsys n hwf hres)).map
      fun a b hab => List.append_cancel_left hab

theorem pairwise_le_const {l : List Nat} {c : Nat} (h : ∀ x ∈ l, x = c) :
    List.Pairwise (fun x y => x ≤ y) l := by
  induction l with
  | nil => exact List.Pairwise.nil
  | cons a l ih =>
    refine List.Pairwise.cons ?_ (ih fun x hx => h x (by simp [hx]))
    intro b hb
    rw [h a (by simp), h b (by simp [hb])]

theorem visitParts_length_level {fsys : EmbNode} {b : List GoStr}
    {es : List (GoStr × EmbNode)} (hvb : validBase b)
    (hres : resolve fsys b = some (.dir es)) :
    ∀ x ∈ (levelVisits fsys b).map visitParts, x.length = b.length + 1 := by
  intro x hx
  rw [visitParts_levelVisits hvb hres] at hx
  rcases List.mem_map.mp hx with ⟨pr, _, rfl⟩
  simp

theorem childDirParts_length {fsys : EmbNode} {b : List GoStr} {b' : List GoStr}
    (hm : b' ∈ childDirParts fsys b) : b'.length = b.length + 1 := by
  rw [childDirParts] at hm
  cases hres : resolve fsys b with
  | none => rw [hres] at hm; exact absurd hm (List.not_mem_nil _)
  | some n =>
    rw [hres] at hm
    cases n with
    | file content => exact absurd hm (List.not_mem_nil _)
    | dir es =>
      rcases List.mem_map.mp hm with ⟨pr, _, rfl⟩
      simp

theorem bfsVisits_lengths {fsys : EmbNode} (hwf : wfB fsys = true) :
    ∀ (fuel H d : Nat) (bases : List (List GoStr)),
    GoodFrontier fsys H bases → (∀ b ∈ bases, b.length = d) →
    (∀ x ∈ (bfsVisits fsys fuel bases).map visitParts, d + 1 ≤ x.length) ∧
    List.Pairwise (fun x y => x ≤ y)
      ((bfsVisits fsys fuel bases).map fun pr => (visitParts pr).length) := by
  intro fuel
  induction fuel with
  | zero =>
    intro H d bases _ _
    cases bases with
    | nil =>
      rw [bfsVisits_nil]
      exact ⟨fun x hx => absurd hx (List.not_mem_nil _), List.Pairwise.nil⟩
    | cons b bs =>
      simp only [bfsVisits]
      exact ⟨fun x hx => absurd hx (List.not_mem_nil _), List.Pairwise.nil⟩
  | succ fuel ih =>
    intro H d bases hg hd
    cases bases with
    | nil =>
      rw [bfsVisits_nil]
      exact ⟨fun x hx => absurd hx (List.not_mem_nil _), List.Pairwise.nil⟩
    | cons b bs =>
      rw [bfsVisits_succ_cons]
      have hlev : ∀ x ∈ ((b :: bs).flatMap (levelVisits fsys)).map visitParts,
          x.length = d + 1 := by
        intro x hx
        rw [List.map_flatMap] at hx
        rcases List.mem_flatMap.mp hx with ⟨b', hb', hmb⟩
        rcases hg b' hb' with ⟨hvb, es, hres, _⟩
        rw [visitParts_length_level hvb hres x hmb, hd b' hb']
      have hd' : ∀ b' ∈ (b :: bs).flatMap (childDirParts fsys),
          b'.length = d + 1 := by
        intro b' hm
        rcases List.mem_flatMap.mp hm with ⟨b0, hb0, hmb⟩
        rw [childDirParts_length hmb, hd b0 hb0]
      have hih := ih (H - 1) (d + 1) ((b :: bs).flatMap (childDirParts fsys))
        (GoodFrontier_child hwf hg) hd'
      rw [List.map_append]
      constructor
      · intro x hx
        rcases List.mem_append.mp hx with hx | hx
        · rw [hlev x hx]
        · exact le_trans (by omega) (hih.1 x hx)
      · rw [List.map_append, List.pairwise_append]
        refine ⟨?_, hih.2, ?_⟩
        · apply pairwise_le_const
          intro x hx
          rcases List.mem_map.mp hx with ⟨pr, hpr, rfl⟩
          exact hlev _ (List.mem_map.mpr ⟨pr, hpr, rfl⟩)
        · intro a ha b2 hb2
          rcases List.mem_map.mp ha with ⟨pr, hpr, rfl⟩
          rcases List.mem_map.mp hb2 with ⟨pr2, hpr2, rfl⟩
          have h1 : (visitParts pr).length = d + 1 :=
            hlev _ (List.mem_map.mpr ⟨pr, hpr, rfl⟩)
          have h2 : d + 2 ≤ (visitParts pr2).length :=
            hih.1 _ (List.mem_map.mpr ⟨pr2, hpr2, rfl⟩)
          omega

theorem walkSpec_lengths {fsys : EmbNode} {ps : List GoStr}
    {es : List (GoStr × EmbNode)} (hwf : wfB fsys = true) (hvb : validBase ps)
    (hres : resolve fsys ps = some (.dir es)) :
    List.Pairwise (fun x y => x ≤ y)
      ((walkSpec fsys ps).map fun pr => (visitParts pr).length) := by
  rw [walkSpec, List.map_append, List.pairwise_append]
  have hgf := childFrontier_good hwf hvb hres
  have hd' : ∀ b' ∈ childDirParts fsys ps, b'.length = ps.length + 1 :=
    fun b' hm => childDirParts_length hm
  have hbfs := bfsVisits_lengths hwf (embHeight fsys) (embHeight fsys)
    (ps.length + 1) (childDirParts fsys ps) hgf hd'
  refine ⟨?_, hbfs.2, ?_⟩
  · apply pairwise_le_const
    intro x hx
    rcases List.mem_map.mp hx with ⟨pr, hpr, rfl⟩
    exact visitParts_length_level hvb hres _ (List.mem_map.mpr ⟨pr, hpr, rfl⟩)
  · intro a ha b2 hb2
    rcases List.mem_map.mp ha with ⟨pr, hpr, rfl⟩
    rcases List.mem_map.mp hb2 with ⟨pr2, hpr2, rfl⟩
    have h1 : (visitParts pr).length = ps.length + 1 :=
      visitParts_length_level hvb hres _ (List.mem_map.mpr ⟨pr, hpr, rfl⟩)
    have h2 : ps.length + 2 ≤ (visitParts pr2).length :=
      hbfs.1 _ (List.mem_map.mpr ⟨pr2, hpr2, rfl⟩)
    omega

/-! Claim theorems about the traversal engine. -/

/-- Claim C7: walking a start path that does not exist in the embedded
store invokes the visitor zero times and returns the not-found error,
wrapped at the top level in the descriptive no-folder-found message. -/
theorem claim_C7 (fsys : EmbNode) (startPath : GoStr) {σ ε : Type}
    (f : σ → GoStr → DirEntry → σ × Option ε) (s : σ)
    (h : readDir fsys (sanitize startPath) = none) :
    (Walk fsys startPath f s).trace = [] ∧
    (Walk fsys startPath f s).err =
      some (.noFolderFound (.notFound (sanitize startPath))) := by
  rw [Walk_eq_notFound h f s]
  exact ⟨rfl, rfl⟩

/-- Witness for claim C7 at a concrete missing start path on the fixture
tree. -/
theorem claim_C7_witness :
    readDir fsW (sanitize ['z']) = none ∧
    ((Walk fsW ['z'] (fun (_ : Unit) _ (_ : DirEntry) => ((), (none : Option Nat)))
        ()).trace = [] ∧
      (Walk fsW ['z'] (fun (_ : Unit) _ (_ : DirEntry) => ((), (none : Option Nat)))
        ()).err = some (.noFolderFound (.notFound (sanitize ['z'])))) :=
  ⟨rfl, claim_C7 fsW ['z'] _ () rfl⟩

/-- Claim C10: a walk addressed with host-native (backslash) separators
resolves exactly as the equivalent forward-slash walk, because WalkDir and
the embedded-file copy normalize the path before any lookup; the
forward-slash form of a path is its sanitize image. -/
theorem claim_C10 (fsys : EmbNode) {σ ε : Type}
    (f : σ → GoStr → DirEntry → σ × Option ε) (s : σ) (p : GoStr) (h : Host)
    (embedPath path : GoStr) :
    Walk fsys p f s = Walk fsys (sanitize p) f s ∧
    WalkDir fsys p f s = WalkDir fsys (sanitize p) f s ∧
    embedCopyToFile fsys h embedPath path =
      embedCopyToFile fsys h (sanitize embedPath) path := by
  have hwd : ∀ (σ2 ε2 : Type) (f2 : σ2 → GoStr → DirEntry → σ2 × Option ε2)
      (s2 : σ2), WalkDir fsys p f2 s2 = WalkDir fsys (sanitize p) f2 s2 := by
    intro σ2 ε2 f2 s2
    rw [WalkDir, WalkDir, sanitize_idem]
  refine ⟨?_, hwd σ ε f s, ?_⟩
  · rw [Walk, Walk, hwd _ _ (collectVisit f) (s, [])]
  · rw [embedCopyToFile, embedCopyToFile, sanitize_idem]

/-- Counterexample to claim C1 as stated: on a tree whose root holds only
the file a, a visitor failing on the very first entry is invoked exactly
once, but Walk does not return the visitor's error unchanged: it wraps it
in the no-folder-found error, so identity comparison against the sentinel
fails. -/
theorem claim_C1_counterexample :
    (Walk (EmbNode.dir [(['a'], .file [])]) ['.']
        (fun (_ : Unit) _ (_ : DirEntry) => ((), (some 7 : Option Nat))) ()).trace =
      [(['.'], ⟨['a'], false⟩)] ∧
    (Walk (EmbNode.dir [(['a'], .file [])]) ['.']
        (fun (_ : Unit) _ (_ : DirEntry) => ((), (some 7 : Option Nat))) ()).err =
      some (.noFolderFound (.visitor 7)) ∧
    some ((WErr.noFolderFound (.visitor 7)) : WErr Nat) ≠
      some ((WErr.visitor 7) : WErr Nat) := by
  refine ⟨rfl, rfl, ?_⟩
  decide

/-- Claim C1 (amended): when the visitor returns a non-nil error, Walk
stops immediately and returns that error: no invocation ever follows a
failing one, a run that returns no error made no failing call at all (the
error is never swallowed), and when the last invocation of the run fails
with e, Walk returns exactly e — verbatim, except when the failing entry
was met during the top-level scan with no directory entry seen up to that
point, in which case Walk returns e wrapped in the no-folder-found
error. -/
theorem claim_C1 (fsys : EmbNode) (startPath : GoStr) {σ ε : Type}
    (f : σ → GoStr → DirEntry → σ × Option ε) (s : σ) {r : WalkOut σ ε}
    (heq : Walk fsys startPath f s = r) :
    (r.err = none → noErrCalls f s r.trace) ∧
    (∀ t1 pr (e : ε), r.trace = t1 ++ [pr] →
      (f (applyTrace f s t1) pr.1 pr.2).2 = some e →
      (r.err = some (.visitor e) ∨
        (r.err = some (.noFolderFound (.visitor e)) ∧
          ∀ y ∈ r.trace, y.1 = sanitize startPath ∧ y.2.isDir = false))) ∧
    (∀ t1 pr t2, r.trace = t1 ++ pr :: t2 → t2 ≠ [] →
      (f (applyTrace f s t1) pr.1 pr.2).2 = none) := by
  have hsh := Walk_shape fsys startPath f s heq
  refine ⟨?_, ?_, ?_⟩
  · intro hnone
    rcases hsh.2 with ⟨hnec, _⟩ | ⟨T1, last, e2, htr2, _, _, herr2⟩
    · exact hnec
    · exfalso
      rcases herr2 with herr2 | ⟨herr2, _⟩ <;> rw [herr2] at hnone <;>
        exact Option.noConfusion hnone
  · intro t1 pr e htr hfail
    rcases hsh.2 with ⟨hnec, _⟩ | ⟨T1, last, e2, htr2, hnec, hcall, herr2⟩
    · exfalso
      rw [htr] at hnec
      rw [(noErrCalls_append.mp hnec).2.1] at hfail
      exact Option.noConfusion hfail
    · rw [htr] at htr2
      rcases List.append_inj' htr2 rfl with ⟨h1, h2⟩
      have h2b : pr = last := by injection h2
      rw [← h1] at hcall herr2
      rw [← h2b] at hcall herr2
      rw [hfail] at hcall
      have he2 : e2 = e := (Option.some.inj hcall).symm
      rw [he2] at herr2
      rcases herr2 with herr2 | ⟨herr2, hcond⟩
      · exact Or.inl herr2
      · refine Or.inr ⟨herr2, ?_⟩
        intro y hy
        rw [htr] at hy
        exact hcond y hy
  · intro t1 pr t2 htr ht2
    rcases hsh.2 with ⟨hnec, _⟩ | ⟨T1, last, e, htr2, hnec, _, _⟩
    · rw [htr] at hnec
      exact (noErrCalls_append.mp hnec).2.1
    · rcases List.eq_nil_or_concat t2 with rfl | ⟨t2', x, rfl⟩
      · exact absurd rfl ht2
      · rw [htr] at htr2
        have hx : (t1 ++ pr :: t2') ++ [x] = T1 ++ [last] := by
          rw [← htr2]; simp
        have hT1 : T1 = t1 ++ pr :: t2' :=
          (List.append_inj' hx rfl).1.symm
        rw [hT1] at hnec
        exact (noErrCalls_append.mp hnec).2.1

/-- Witness for the amended claim C1 on the fixture tree with an
always-failing visitor: the run's single invocation fails with 7, and
applying the claim forces Walk's returned error to be exactly that
visitor error (bare or corner-wrapped). -/
theorem claim_C1_witness :
    ((Walk fsW ['.'] (fun (_ : Unit) _ (_ : DirEntry) => ((), (some 7 : Option Nat)))
        ()).trace = [] ++ [((['.'] : GoStr), (⟨['d'], true⟩ : DirEntry))]) ∧
    (((fun (_ : Unit) _ (_ : DirEntry) => ((), (some 7 : Option Nat)))
        (applyTrace (fun (_ : Unit) _ (_ : DirEntry) => ((), (some 7 : Option Nat)))
          () []) (['.'] : GoStr) (⟨['d'], true⟩ : DirEntry)).2 = some 7) ∧
    ((Walk fsW ['.'] (fun (_ : Unit) _ (_ : DirEntry) => ((), (some 7 : Option Nat)))
        ()).err = some (.visitor 7) ∨
      ((Walk fsW ['.'] (fun (_ : Unit) _ (_ : DirEntry) => ((), (some 7 : Option Nat)))
          ()).err = some (.noFolderFound (.visitor 7)) ∧
        ∀ y ∈ (Walk fsW ['.']
            (fun (_ : Unit) _ (_ : DirEntry) => ((), (some 7 : Option Nat))) ()).trace,
          y.1 = sanitize ['.'] ∧ y.2.isDir = false)) :=
  ⟨rfl, rfl,
    (claim_C1 fsW ['.'] _ () rfl).2.1 [] ((['.'] : GoStr), (⟨['d'], true⟩ : DirEntry))
      7 rfl rfl⟩

/-- Claim C2: on a well-formed embedded tree, for an existing (listable)
start path and a visitor that never fails, Walk succeeds, invokes the
visitor exactly once for every node reachable strictly below the start
path (the visited full paths are a permutation of the duplicate-free list
of all descendants), and visits in breadth-first order (the depth of the
visited paths is monotone along the trace, so all immediate children of a
directory are reported before anything inside those children's own
subdirectories). -/
theorem claim_C2 (fsys : EmbNode) (startPath : GoStr) {σ ε : Type}
    (f : σ → GoStr → DirEntry → σ × Option ε) (s : σ)
    (hwf : wfB fsys = true) {items : List DirEntry}
    (hrd : readDir fsys (sanitize startPath) = some items)
    (hnf : ∀ st p de, (f st p de).2 = none) :
    ∃ ps, pathParts (sanitize startPath) = some ps ∧
      (Walk fsys startPath f s).err = none ∧
      ((Walk fsys startPath f s).trace.map visitParts).Perm (descFrom fsys ps) ∧
      (descFrom fsys ps).Nodup ∧
      List.Pairwise (fun x y => x ≤ y)
        ((Walk fsys startPath f s).trace.map fun pr => (visitParts pr).length) := by
  rcases readDir_inv hrd with ⟨ps, es, hps, hres, _⟩
  have hvb := validBase_of_pathParts_sanitize hps
  rcases Walk_master fsys startPath f s hwf hps hres with
    ⟨hW, _⟩ | ⟨t1, pr, e, er, _, _, _, hcall, _⟩
  · refine ⟨ps, hps, ?_, ?_, descFrom_nodup hwf, ?_⟩
    · rw [hW]
    · rw [hW]
      exact walkSpec_perm hwf hvb hres
    · rw [hW]
      exact walkSpec_lengths hwf hvb hres
  · exfalso
    rw [hnf _ _ _] at hcall
    exact Option.noConfusion hcall

/-- Witness for claim C2 on the fixture tree from its root. -/
theorem claim_C2_witness :
    wfB fsW = true ∧
    readDir fsW (sanitize ['.']) = some [⟨['d'], true⟩, ⟨['g'], false⟩] ∧
    (∃ ps, pathParts (sanitize ['.']) = some ps ∧
      (Walk fsW ['.'] (fun (_ : Unit) _ (_ : DirEntry) => ((), (none : Option Nat)))
        ()).err = none ∧
      ((Walk fsW ['.'] (fun (_ : Unit) _ (_ : DirEntry) => ((), (none : Option Nat)))
          ()).trace.map visitParts).Perm (descFrom fsW ps) ∧
      (descFrom fsW ps).Nodup ∧
      List.Pairwise (fun x y => x ≤ y)
        ((Walk fsW ['.'] (fun (_ : Unit) _ (_ : DirEntry) => ((), (none : Option Nat)))
          ()).trace.map fun pr => (visitParts pr).length)) :=
  ⟨rfl, rfl, claim_C2 fsW ['.'] _ () rfl rfl (fun _ _ _ => rfl)⟩

/-! Lemmas on the host-filesystem operations. -/

theorem setNode_nodes (h : Host) (k : List GoStr) (n : HostNode) (q : List GoStr) :
    (setNode h k n).nodes q = if q = k then some n else h.nodes q := rfl

theorem setNode_statErr (h : Host) (k : List GoStr) (n : HostNode) :
    (setNode h k n).statErr = h.statErr := rfl

theorem chainKeys_self : ∀ (pre ks : List GoStr), ks ≠ [] →
    pre ++ ks ∈ chainKeys pre ks
  | _, [], h => absurd rfl h
  | pre, c :: cs, _ => by
    rw [chainKeys]
    cases cs with
    | nil => simp
    | cons c2 cs2 =>
      have := chainKeys_self (pre ++ [c]) (c2 :: cs2) (by simp)
      rw [List.mem_cons]
      right
      rwa [List.append_assoc, List.singleton_append] at this

theorem chainKeys_prefix : ∀ (pre ks k : List GoStr), k ∈ chainKeys pre ks →
    ∃ t1 t2, ks = t1 ++ t2 ∧ t1 ≠ [] ∧ k = pre ++ t1
  | _, [], k, hm => absurd hm (List.not_mem_nil _)
  | pre, c :: cs, k, hm => by
    rw [chainKeys, List.mem_cons] at hm
    rcases hm with hm | hm
    · exact ⟨[c], cs, rfl, by simp, hm⟩
    · rcases chainKeys_prefix (pre ++ [c]) cs k hm with ⟨t1, t2, hks, hne, hk⟩
      exact ⟨c :: t1, t2, by rw [hks]; rfl, by simp,
        by rw [hk, List.append_assoc]; rfl⟩

theorem mkdirChain_statErr : ∀ (cs : List GoStr) (h : Host) (pre : List GoStr)
    (h' : Host), mkdirChain h pre cs = .ok h' → h'.statErr = h.statErr
  | [], h, pre, h', heq => by
    rw [mkdirChain] at heq
    cases heq
    rfl
  | c :: cs, h, pre, h', heq => by
    rw [mkdirChain] at heq
    cases hn : h.nodes (pre ++ [c]) with
    | none =>
      rw [hn] at heq
      have := mkdirChain_statErr cs _ _ _ heq
      rw [this, setNode_statErr]
    | some n =>
      cases n with
      | dir =>
        rw [hn] at heq
        exact mkdirChain_statErr cs _ _ _ heq
      | file content =>
        rw [hn] at heq
        exact Except.noConfusion heq

theorem mkdirChain_preserve : ∀ (cs : List GoStr) (h : Host) (pre : List GoStr)
    (h' : Host), mkdirChain h pre cs = .ok h' →
    ∀ q x, h.nodes q = some x → h'.nodes q = some x
  | [], h, pre, h', heq => by
    rw [mkdirChain] at heq
    cases heq
    exact fun q x hx => hx
  | c :: cs, h, pre, h', heq => by
    rw [mkdirChain] at heq
    intro q x hx
    cases hn : h.nodes (pre ++ [c]) with
    | none =>
      rw [hn] at heq
      refine mkdirChain_preserve cs _ _ _ heq q x ?_
      rw [setNode_nodes]
      by_cases hq : q = pre ++ [c]
      · rw [hq] at hx; rw [hx] at hn; exact Option.noConfusion hn
      · rw [if_neg hq]; exact hx
    | some n =>
      cases n with
      | dir =>
        rw [hn] at heq
        exact mkdirChain_preserve cs _ _ _ heq q x hx
      | file content =>
        rw [hn] at heq
        exact Except.noConfusion heq

theorem mkdirChain_writes : ∀ (cs : List GoStr) (h : Host) (pre : List GoStr)
    (h' : Host), mkdirChain h pre cs = .ok h' →
    ∀ q, q ∉ chainKeys pre cs → h'.nodes q = h.nodes q
  | [], h, pre, h', heq => by
    rw [mkdirChain] at heq
    cases heq
    exact fun q _ => rfl
  | c :: cs, h, pre, h', heq => by
    rw [mkdirChain] at heq
    intro q hq
    rw [chainKeys] at hq
    have hq1 : q ≠ pre ++ [c] := fun hc => hq (hc ▸ List.mem_cons_self _ _)
    have hq2 : q ∉ chainKeys (pre ++ [c]) cs := fun hc =>
      hq (List.mem_cons_of_mem _ hc)
    cases hn : h.nodes (pre ++ [c]) with
    | none =>
      rw [hn] at heq
      rw [mkdirChain_writes cs _ _ _ heq q hq2, setNode_nodes, if_neg hq1]
    | some n =>
      cases n with
      | dir =>
        rw [hn] at heq
        exact mkdirChain_writes cs _ _ _ heq q hq2
      | file content =>
        rw [hn] at heq
        exact Except.noConfusion heq

theorem mkdirChain_post : ∀ (cs : List GoStr) (h : Host) (pre : List GoStr)
    (h' : Host), mkdirChain h pre cs = .ok h' →
    ∀ k ∈ chainKeys pre cs, h'.nodes k = some .dir
  | [], h, pre, h', heq => by
    rw [chainKeys]
    exact fun k hk => absurd hk (List.not_mem_nil _)
  | c :: cs, h, pre, h', heq => by
    rw [mkdirChain] at heq
    intro k hk
    rw [chainKeys, List.mem_cons] at hk
    cases hn : h.nodes (pre ++ [c]) with
    | none =>
      rw [hn] at heq
      rcases hk with hk | hk
      · subst hk
        exact mkdirChain_preserve cs _ _ _ heq _ _ (by rw [setNode_nodes, if_pos rfl])
      · exact mkdirChain_post cs _ _ _ heq k hk
    | some n =>
      cases n with
      | dir =>
        rw [hn] at heq
        rcases hk with hk | hk
        · subst hk
          exact mkdirChain_preserve cs _ _ _ heq _ _ hn
        · exact mkdirChain_post cs _ _ _ heq k hk
      | file content =>
        rw [hn] at heq
        exact Except.noConfusion heq

theorem mkdirChain_noop : ∀ (cs : List GoStr) (h : Host) (pre : List GoStr),
    (∀ k ∈ chainKeys pre cs, h.nodes k = some .dir) →
    mkdirChain h pre cs = .ok h
  | [], h, pre, _ => rfl
  | c :: cs, h, pre, hall => by
    rw [mkdirChain]
    have h1 : h.nodes (pre ++ [c]) = some .dir :=
      hall _ (by rw [chainKeys]; exact List.mem_cons_self _ _)
    rw [h1]
    exact mkdirChain_noop cs h (pre ++ [c]) fun k hk =>
      hall k (by rw [chainKeys]; exact List.mem_cons_of_mem _ hk)

theorem osCreate_ok_eq {h : Host} {p : GoStr} {h' : Host}
    (heq : osCreate h p = .ok h') :
    h' = setNode h (hostKey p) (.file []) ∧ h.nodes (hostKey p) ≠ some .dir := by
  rw [osCreate] at heq
  cases hn : h.nodes (hostKey p) with
  | some n =>
    cases n with
    | dir => rw [hn] at heq; exact Except.noConfusion heq
    | file content =>
      rw [hn] at heq
      refine ⟨?_, by simp⟩
      by_cases h1 : hostKey p = []
      · rw [if_pos h1] at heq; exact Except.noConfusion heq
      · rw [if_neg h1] at heq
        by_cases h2 : (hostKey p).dropLast = []
        · rw [if_pos h2] at heq; cases heq; rfl
        · rw [if_neg h2] at heq
          cases hpar : h.nodes (hostKey p).dropLast with
          | none => rw [hpar] at heq; exact Except.noConfusion heq
          | some n2 =>
            cases n2 with
            | dir => rw [hpar] at heq; cases heq; rfl
            | file c2 => rw [hpar] at heq; exact Except.noConfusion heq
  | none =>
    rw [hn] at heq
    refine ⟨?_, by simp⟩
    by_cases h1 : hostKey p = []
    · rw [if_pos h1] at heq; exact Except.noConfusion heq
    · rw [if_neg h1] at heq
      by_cases h2 : (hostKey p).dropLast = []
      · rw [if_pos h2] at heq; cases heq; rfl
      · rw [if_neg h2] at heq
        cases hpar : h.nodes (hostKey p).dropLast with
        | none => rw [hpar] at heq; exact Except.noConfusion heq
        | some n2 =>
          cases n2 with
          | dir => rw [hpar] at heq; cases heq; rfl
          | file c2 => rw [hpar] at heq; exact Except.noConfusion heq

theorem embedCopy_ok {fsys : EmbNode} {h : Host} {ep p : GoStr} {h' : Host}
    (heq : embedCopyToFile fsys h ep p = .ok h') :
    ∃ c, embOpen fsys (sanitize ep) = some c ∧
      h' = setNode (setNode h (hostKey p) (.file [])) (hostKey p) (.file c) ∧
      h.nodes (hostKey p) ≠ some .dir := by
  rw [embedCopyToFile] at heq
  cases hop : embOpen fsys (sanitize ep) with
  | none => rw [hop] at heq; exact Except.noConfusion heq
  | some c =>
    rw [hop] at heq
    cases hcr : osCreate h p with
    | error e => rw [hcr] at heq; exact Except.noConfusion heq
    | ok h2 =>
      rw [hcr] at heq
      cases heq
      rcases osCreate_ok_eq hcr with ⟨h2eq, hnd⟩
      exact ⟨c, rfl, by rw [h2eq], hnd⟩

/-! Step lemmas for the policy visitors, and generic fold lemmas. -/

theorem applyTrace_inv {σ ε : Type} {f : σ → GoStr → DirEntry → σ × Option ε}
    (P : σ → Prop) :
    ∀ {tr : List (GoStr × DirEntry)} {h : σ},
    (∀ h2 y, y ∈ tr → P h2 → P (f h2 y.1 y.2).1) → P h → P (applyTrace f h tr)
  | [], h, _, hP => hP
  | y0 :: tr, h, hstep, hP => by
    rw [applyTrace_cons]
    exact applyTrace_inv P (fun h2 y hy => hstep h2 y (by simp [hy]))
      (hstep h y0 (by simp) hP)

theorem applyTrace_inv_ok {σ ε : Type} {f : σ → GoStr → DirEntry → σ × Option ε}
    (P : σ → Prop) :
    ∀ {tr : List (GoStr × DirEntry)} {h : σ}, noErrCalls f h tr →
    (∀ h2 y, y ∈ tr → (f h2 y.1 y.2).2 = none → P h2 → P (f h2 y.1 y.2).1) →
    P h → P (applyTrace f h tr)
  | [], h, _, _, hP => hP
  | y0 :: tr, h, hok, hstep, hP => by
    rw [applyTrace_cons]
    exact applyTrace_inv_ok P hok.2
      (fun h2 y hy => hstep h2 y (by simp [hy]))
      (hstep h y0 (by simp) hok.1 hP)

theorem osStat_notExist {h : Host} {p : GoStr} (hs : osStat h p = .notExist) :
    h.nodes (hostKey p) = none ∧ h.statErr (hostKey p) = false := by
  rw [osStat] at hs
  by_cases he : h.statErr (hostKey p) = true
  · rw [if_pos he] at hs; exact absurd hs (by simp)
  · rw [if_neg he] at hs
    refine ⟨?_, by cases hb : h.statErr (hostKey p); rfl; exact absurd hb he⟩
    cases hn : h.nodes (hostKey p) with
    | none => rfl
    | some n => rw [hn] at hs; exact absurd hs (by simp)

theorem osStat_ok {h : Host} {p : GoStr} (hs : osStat h p = .ok) :
    ∃ n, h.nodes (hostKey p) = some n := by
  rw [osStat] at hs
  by_cases he : h.statErr (hostKey p) = true
  · rw [if_pos he] at hs; exact absurd hs (by simp)
  · rw [if_neg he] at hs
    cases hn : h.nodes (hostKey p) with
    | none => rw [hn] at hs; exact absurd hs (by simp)
    | some n => exact ⟨n, rfl⟩

theorem osStat_otherErr {h : Host} {p : GoStr} (hs : osStat h p = .otherErr) :
    h.statErr (hostKey p) = true := by
  rw [osStat] at hs
  by_cases he : h.statErr (hostKey p) = true
  · exact he
  · rw [if_neg he] at hs
    cases hn : h.nodes (hostKey p) with
    | none => rw [hn] at hs; exact absurd hs (by simp)
    | some n => rw [hn] at hs; exact absurd hs (by simp)

theorem osStat_of_statErr {h : Host} {p : GoStr}
    (he : h.statErr (hostKey p) = true) : osStat h p = .otherErr := by
  rw [osStat, if_pos he]

theorem treeVisit_cases (out : GoStr) (h : Host) (p : GoStr) (de : DirEntry) :
    (de.isDir = true ∧
      ((∃ h', mkdirAll h (filepathJoin [out, p, de.name]) = .ok h' ∧
          treeVisit out h p de = (h', none)) ∨
        (∃ e, mkdirAll h (filepathJoin [out, p, de.name]) = .error e ∧
          treeVisit out h p de = (h, some (.os e))))) ∨
    (de.isDir = false ∧ treeVisit out h p de = (h, none)) := by
  by_cases hd : de.isDir = true
  · left
    refine ⟨hd, ?_⟩
    cases hmk : mkdirAll h (filepathJoin [out, p, de.name]) with
    | ok h' =>
      left
      exact ⟨h', rfl, by simp only [treeVisit, hd, if_true, hmk]⟩
    | error e =>
      right
      exact ⟨e, rfl, by simp only [treeVisit, hd, if_true, hmk]⟩
  · right
    have hd2 : de.isDir = false := by cases hb : de.isDir; rfl; exact absurd hb hd
    exact ⟨hd2, by simp only [treeVisit, hd2, Bool.false_eq_true, if_false]⟩

theorem touchVisit_cases (out : GoStr) (h : Host) (p : GoStr) (de : DirEntry) :
    (de.isDir = true ∧
      ((∃ h', mkdirAll h (filepathJoin [out, p, de.name]) = .ok h' ∧
          touchVisit out h p de = (h', none)) ∨
        (∃ e, mkdirAll h (filepathJoin [out, p, de.name]) = .error e ∧
          touchVisit out h p de = (h, some (.os e))))) ∨
    (de.isDir = false ∧
      ((osStat h (filepathJoin [out, p, de.name]) = .ok ∧
          touchVisit out h p de = (h, none)) ∨
        (osStat h (filepathJoin [out, p, de.name]) = .otherErr ∧
          touchVisit out h p de =
            (h, some (.os (.statOther (hostKey (filepathJoin [out, p, de.name])))))) ∨
        (osStat h (filepathJoin [out, p, de.name]) = .notExist ∧
          ((∃ h', osCreate h (filepathJoin [out, p, de.name]) = .ok h' ∧
              touchVisit out h p de = (h', none)) ∨
            (∃ e, osCreate h (filepathJoin [out, p, de.name]) = .error e ∧
              touchVisit out h p de = (h, some (.os e))))))) := by
  by_cases hd : de.isDir = true
  · left
    refine ⟨hd, ?_⟩
    cases hmk : mkdirAll h (filepathJoin [out, p, de.name]) with
    | ok h' => exact Or.inl ⟨h', rfl, by simp only [touchVisit, hd, if_true, hmk]⟩
    | error e => exact Or.inr ⟨e, rfl, by simp only [touchVisit, hd, if_true, hmk]⟩
  · right
    have hd2 : de.isDir = false := by cases hb : de.isDir; rfl; exact absurd hb hd
    refine ⟨hd2, ?_⟩
    cases hst : osStat h (filepathJoin [out, p, de.name]) with
    | ok =>
      exact Or.inl ⟨rfl,
        by simp only [touchVisit, hd2, Bool.false_eq_true, if_false, hst]⟩
    | otherErr =>
      exact Or.inr (Or.inl ⟨rfl,
        by simp only [touchVisit, hd2, Bool.false_eq_true, if_false, hst]⟩)
    | notExist =>
      refine Or.inr (Or.inr ⟨rfl, ?_⟩)
      cases hcr : osCreate h (filepathJoin [out, p, de.name]) with
      | ok h' =>
        exact Or.inl ⟨h', rfl,
          by simp only [touchVisit, hd2, Bool.false_eq_true, if_false, hst, hcr]⟩
      | error e =>
        exact Or.inr ⟨e, rfl,
          by simp only [touchVisit, hd2, Bool.false_eq_true, if_false, hst, hcr]⟩

theorem writeVisit_cases (fsys : EmbNode) (out : GoStr) (h : Host) (p : GoStr)
    (de : DirEntry) :
    (de.isDir = true ∧
      ((∃ h', mkdirAll h
            (filepathJoin [out, sanitize (filepathJoin [p, de.name])]) = .ok h' ∧
          writeVisit fsys out h p de = (h', none)) ∨
        (∃ e, mkdirAll h
            (filepathJoin [out, sanitize (filepathJoin [p, de.name])]) = .error e ∧
          writeVisit fsys out h p de = (h, some (.os e))))) ∨
    (de.isDir = false ∧
      ((∃ h', embedCopyToFile fsys h (sanitize (filepathJoin [p, de.name]))
            (filepathJoin [out, sanitize (filepathJoin [p, de.name])]) = .ok h' ∧
          writeVisit fsys out h p de = (h', none)) ∨
        (∃ e, embedCopyToFile fsys h (sanitize (filepathJoin [p, de.name]))
            (filepathJoin [out, sanitize (filepathJoin [p, de.name])]) = .error e ∧
          writeVisit fsys out h p de = (h, some e)))) := by
  by_cases hd : de.isDir = true
  · left
    refine ⟨hd, ?_⟩
    cases hmk : mkdirAll h (filepathJoin [out, sanitize (filepathJoin [p, de.name])]) with
    | ok h' => exact Or.inl ⟨h', rfl, by simp only [writeVisit, hd, if_true, hmk]⟩
    | error e => exact Or.inr ⟨e, rfl, by simp only [writeVisit, hd, if_true, hmk]⟩
  · right
    have hd2 : de.isDir = false := by cases hb : de.isDir; rfl; exact absurd hb hd
    refine ⟨hd2, ?_⟩
    cases hcp : embedCopyToFile fsys h (sanitize (filepathJoin [p, de.name]))
        (filepathJoin [out, sanitize (filepathJoin [p, de.name])]) with
    | ok h' =>
      exact Or.inl ⟨h', rfl,
        by simp only [writeVisit, hd2, Bool.false_eq_true, if_false, hcp]⟩
    | error e =>
      exact Or.inr ⟨e, rfl,
        by simp only [writeVisit, hd2, Bool.false_eq_true, if_false, hcp]⟩

theorem patchVisit_cases (fsys : EmbNode) (out : GoStr) (h : Host) (p : GoStr)
    (de : DirEntry) :
    (de.isDir = true ∧
      ((∃ h', mkdirAll h
            (filepathJoin [out, sanitize (filepathJoin [p, de.name])]) = .ok h' ∧
          patchVisit fsys out h p de = (h', none)) ∨
        (∃ e, mkdirAll h
            (filepathJoin [out, sanitize (filepathJoin [p, de.name])]) = .error e ∧
          patchVisit fsys out h p de = (h, some (.os e))))) ∨
    (de.isDir = false ∧
      ((osStat h (filepathJoin [out, sanitize (filepathJoin [p, de.name])]) = .ok ∧
          patchVisit fsys out h p de = (h, none)) ∨
        (osStat h (filepathJoin [out, sanitize (filepathJoin [p, de.name])]) =
            .otherErr ∧
          patchVisit fsys out h p de = (h, some (.os (.statOther
            (hostKey (filepathJoin [out, sanitize (filepathJoin [p, de.name])])))))) ∨
        (osStat h (filepathJoin [out, sanitize (filepathJoin [p, de.name])]) =
            .notExist ∧
          ((∃ h', embedCopyToFile fsys h (sanitize (filepathJoin [p, de.name]))
                (filepathJoin [out, sanitize (filepathJoin [p, de.name])]) = .ok h' ∧
              patchVisit fsys out h p de = (h', none)) ∨
            (∃ e, embedCopyToFile fsys h (sanitize (filepathJoin [p, de.name]))
                (filepathJoin [out, sanitize (filepathJoin [p, de.name])]) =
                  .error e ∧
              patchVisit fsys out h p de = (h, some e)))))) := by
  by_cases hd : de.isDir = true
  · left
    refine ⟨hd, ?_⟩
    cases hmk : mkdirAll h
        (filepathJoin [out, sanitize (filepathJoin [p, de.name])]) with
    | ok h' => exact Or.inl ⟨h', rfl, by simp only [patchVisit, hd, if_true, hmk]⟩
    | error e => exact Or.inr ⟨e, rfl, by simp only [patchVisit, hd, if_true, hmk]⟩
  · right
    have hd2 : de.isDir = false := by cases hb : de.isDir; rfl; exact absurd hb hd
    refine ⟨hd2, ?_⟩
    cases hst : osStat h (filepathJoin [out, sanitize (filepathJoin [p, de.name])]) with
    | ok =>
      exact Or.inl ⟨rfl,
        by simp only [patchVisit, hd2, Bool.false_eq_true, if_false, hst]⟩
    | otherErr =>
      exact Or.inr (Or.inl ⟨rfl,
        by simp only [patchVisit, hd2, Bool.false_eq_true, if_false, hst]⟩)
    | notExist =>
      refine Or.inr (Or.inr ⟨rfl, ?_⟩)
      cases hcp : embedCopyToFile fsys h (sanitize (filepathJoin [p, de.name]))
          (filepathJoin [out, sanitize (filepathJoin [p, de.name])]) with
      | ok h' =>
        exact Or.inl ⟨h', rfl,
          by simp only [patchVisit, hd2, Bool.false_eq_true, if_false, hst, hcp]⟩
      | error e =>
        exact Or.inr ⟨e, rfl,
          by simp only [patchVisit, hd2, Bool.false_eq_true, if_false, hst, hcp]⟩

theorem createVisit_st (out : GoStr) (h : Host) (p : GoStr) (de : DirEntry) :
    (createVisit out h p de).1 = h := by
  by_cases hd : de.isDir = true
  · simp only [createVisit, hd, if_true]
  · have hd2 : de.isDir = false := by cases hb : de.isDir; rfl; exact absurd hb hd
    simp only [createVisit, hd2, Bool.false_eq_true, if_false]
    cases hst : osStat h (filepathJoin [out, filepathJoin [p, de.name]]) <;> rfl

theorem validBase_append {base : List GoStr} {n : GoStr}
    (hb : validBase base) (hn : validName n = true) : validBase (base ++ [n]) := by
  intro c hc
  rcases List.mem_append.mp hc with h | h
  · exact hb c h
  · rw [List.mem_singleton] at h; subst h; exact hn

theorem keyT_eq (out p : GoStr) {n : GoStr} (hn : validName n = true) :
    hostKey (filepathJoin [out, p, n]) = hostKey out ++ (cleanParts p ++ [n]) := by
  have hnp := validName_props hn
  rw [hostKey, cleanParts_filepathJoin]
  simp only [List.flatMap_cons, List.flatMap_nil, List.append_nil]
  rw [cleanParts_single hnp.1 hnp.2.1 hnp.2.2.1]
  rfl

theorem keyC_eq (out p : GoStr) {n : GoStr} (hn : validName n = true) :
    hostKey (filepathJoin [out, filepathJoin [p, n]]) =
      hostKey out ++ (cleanParts p ++ [n]) := by
  have hnp := validName_props hn
  rw [hostKey, cleanParts_filepathJoin]
  simp only [List.flatMap_cons, List.flatMap_nil, List.append_nil]
  rw [cleanParts_filepathJoin]
  simp only [List.flatMap_cons, List.flatMap_nil, List.append_nil]
  rw [cleanParts_single hnp.1 hnp.2.1 hnp.2.2.1]
  rfl

theorem keyW_path_eq {p : GoStr} {base : List GoStr} {n : GoStr}
    (hp : p = pathOfParts base) (hb : validBase base) (hn : validName n = true) :
    sanitize (filepathJoin [p, n]) = pathOfParts (base ++ [n]) := by
  subst hp
  rw [filepathJoin_canonical hb hn]
  exact sanitize_pathOfParts (validBase_append hb hn)

theorem keyW_eq (out : GoStr) {base : List GoStr} {n : GoStr}
    (hb : validBase base) (hn : validName n = true) :
    hostKey (filepathJoin [out, pathOfParts (base ++ [n])]) =
      hostKey out ++ (base ++ [n]) := by
  rw [hostKey, cleanParts_filepathJoin]
  simp only [List.flatMap_cons, List.flatMap_nil, List.append_nil]
  rw [cleanParts_pathOfParts (validBase_append hb hn)]
  rfl

theorem embOpen_canonical {fsys : EmbNode} {q : List GoStr} {c : List Nat}
    (hb : validBase q) (hq : resolve fsys q = some (.file c)) :
    embOpen fsys (pathOfParts q) = some c := by
  simp only [embOpen, pathParts_pathOfParts hb, hq]

theorem resolve_through_file {fsys : EmbNode} {q : List GoStr} {c : List Nat}
    (hq : resolve fsys q = some (.file c)) {rest : List GoStr} (hrest : rest ≠ []) :
    resolve fsys (q ++ rest) = none := by
  rw [resolve_append, hq]
  cases rest with
  | nil => exact absurd rfl hrest
  | cons r rs => simp [resolve_file]

theorem truthful_resolve {fsys : EmbNode} {y : GoStr × DirEntry}
    (hty : TruthfulVisit fsys y) :
    ∃ child, resolve fsys (visitParts y) = some child ∧
      y.2.isDir = child.isDirB ∧ visitParts y ≠ [] ∧
      validBase (visitParts y) := by
  rcases hty with ⟨base, child, hvb, hvn, hp1, hdir, hres⟩
  refine ⟨child, ?_, hdir, by simp [visitParts], ?_⟩
  · rw [visitParts, hp1, cleanParts_pathOfParts hvb]; exact hres
  · rw [visitParts, hp1, cleanParts_pathOfParts hvb]
    exact validBase_append hvb hvn

theorem fileKey_frame {fsys : EmbNode} {q : List GoStr} {c : List Nat}
    (hq : resolve fsys q = some (.file c)) (out : GoStr)
    {y : GoStr × DirEntry} (hty : TruthfulVisit fsys y)
    (hne : visitParts y ≠ q) :
    hostKey out ++ q ∉ chainKeys [] (hostKey out ++ visitParts y) ∧
      hostKey out ++ q ≠ hostKey out ++ visitParts y := by
  rcases truthful_resolve hty with ⟨child, hres, _, _, _⟩
  constructor
  · intro hmem
    rcases chainKeys_prefix [] (hostKey out ++ visitParts y) _ hmem with
      ⟨t1, t2, hks, _, hk⟩
    rw [List.nil_append] at hk
    subst hk
    rw [List.append_assoc] at hks
    have hvq : visitParts y = q ++ t2 := List.append_cancel_left hks
    cases t2 with
    | nil => rw [List.append_nil] at hvq; exact hne hvq
    | cons r rs =>
      rw [hvq, resolve_through_file hq (by simp)] at hres
      exact Option.noConfusion hres
  · intro hk
    exact hne (List.append_cancel_left hk).symm

theorem treeVisit_statErr (out : GoStr) (h : Host) (p : GoStr) (de : DirEntry) :
    ((treeVisit out h p de).1).statErr = h.statErr := by
  rcases treeVisit_cases out h p de with ⟨_, ⟨h', hmk, heq⟩ | ⟨e, _, heq⟩⟩ | ⟨_, heq⟩
  · rw [heq]; rw [mkdirAll] at hmk; exact mkdirChain_statErr _ _ _ _ hmk
  · rw [heq]
  · rw [heq]

theorem touchVisit_statErr (out : GoStr) (h : Host) (p : GoStr) (de : DirEntry) :
    ((touchVisit out h p de).1).statErr = h.statErr := by
  rcases touchVisit_cases out h p de with
    ⟨_, ⟨h', hmk, heq⟩ | ⟨e, _, heq⟩⟩ |
    ⟨_, ⟨_, heq⟩ | ⟨_, heq⟩ | ⟨_, ⟨h', hcr, heq⟩ | ⟨e, _, heq⟩⟩⟩
  · rw [heq]; rw [mkdirAll] at hmk; exact mkdirChain_statErr _ _ _ _ hmk
  · rw [heq]
  · rw [heq]
  · rw [heq]
  · rw [heq, (osCreate_ok_eq hcr).1, setNode_statErr]
  · rw [heq]

theorem writeVisit_statErr (fsys : EmbNode) (out : GoStr) (h : Host) (p : GoStr)
    (de : DirEntry) :
    ((writeVisit fsys out h p de).1).statErr = h.statErr := by
  rcases writeVisit_cases fsys out h p de with
    ⟨_, ⟨h', hmk, heq⟩ | ⟨e, _, heq⟩⟩ | ⟨_, ⟨h', hcp, heq⟩ | ⟨e, _, heq⟩⟩
  · rw [heq]; rw [mkdirAll] at hmk; exact mkdirChain_statErr _ _ _ _ hmk
  · rw [heq]
  · rcases embedCopy_ok hcp with ⟨c, _, hh', _⟩
    rw [heq, hh', setNode_statErr, setNode_statErr]
  · rw [heq]

theorem patchVisit_statErr (fsys : EmbNode) (out : GoStr) (h : Host) (p : GoStr)
    (de : DirEntry) :
    ((patchVisit fsys out h p de).1).statErr = h.statErr := by
  rcases patchVisit_cases fsys out h p de with
    ⟨_, ⟨h', hmk, heq⟩ | ⟨e, _, heq⟩⟩ |
    ⟨_, ⟨_, heq⟩ | ⟨_, heq⟩ | ⟨_, ⟨h', hcp, heq⟩ | ⟨e, _, heq⟩⟩⟩
  · rw [heq]; rw [mkdirAll] at hmk; exact mkdirChain_statErr _ _ _ _ hmk
  · rw [heq]
  · rw [heq]
  · rw [heq]
  · rcases embedCopy_ok hcp with ⟨c, _, hh', _⟩
    rw [heq, hh', setNode_statErr, setNode_statErr]
  · rw [heq]

theorem createVisit_statErr (out : GoStr) (h : Host) (p : GoStr) (de : DirEntry) :
    ((createVisit out h p de).1).statErr = h.statErr := by
  rw [createVisit_st]

theorem treeVisit_preserve (out : GoStr) (h : Host) (p : GoStr) (de : DirEntry)
    {q : List GoStr} {x : HostNode} (hx : h.nodes q = some x) :
    ((treeVisit out h p de).1).nodes q = some x := by
  rcases treeVisit_cases out h p de with ⟨_, ⟨h', hmk, heq⟩ | ⟨e, _, heq⟩⟩ | ⟨_, heq⟩
  · rw [heq]; rw [mkdirAll] at hmk; exact mkdirChain_preserve _ _ _ _ hmk q x hx
  · rw [heq]; exact hx
  · rw [heq]; exact hx

theorem touchVisit_preserve (out : GoStr) (h : Host) (p : GoStr) (de : DirEntry)
    {q : List GoStr} {x : HostNode} (hx : h.nodes q = some x) :
    ((touchVisit out h p de).1).nodes q = some x := by
  rcases touchVisit_cases out h p de with
    ⟨_, ⟨h', hmk, heq⟩ | ⟨e, _, heq⟩⟩ |
    ⟨_, ⟨_, heq⟩ | ⟨_, heq⟩ | ⟨hst, ⟨h', hcr, heq⟩ | ⟨e, _, heq⟩⟩⟩
  · rw [heq]; rw [mkdirAll] at hmk; exact mkdirChain_preserve _ _ _ _ hmk q x hx
  · rw [heq]; exact hx
  · rw [heq]; exact hx
  · rw [heq]; exact hx
  · rw [heq, (osCreate_ok_eq hcr).1, setNode_nodes]
    have hnone := (osStat_notExist hst).1
    rw [if_neg (fun hc => by rw [hc, hnone] at hx; exact Option.noConfusion hx)]
    exact hx
  · rw [heq]; exact hx

theorem patchVisit_preserve (fsys : EmbNode) (out : GoStr) (h : Host) (p : GoStr)
    (de : DirEntry) {q : List GoStr} {x : HostNode} (hx : h.nodes q = some x) :
    ((patchVisit fsys out h p de).1).nodes q = some x := by
  rcases patchVisit_cases fsys out h p de with
    ⟨_, ⟨h', hmk, heq⟩ | ⟨e, _, heq⟩⟩ |
    ⟨_, ⟨_, heq⟩ | ⟨_, heq⟩ | ⟨hst, ⟨h', hcp, heq⟩ | ⟨e, _, heq⟩⟩⟩
  · rw [heq]; rw [mkdirAll] at hmk; exact mkdirChain_preserve _ _ _ _ hmk q x hx
  · rw [heq]; exact hx
  · rw [heq]; exact hx
  · rw [heq]; exact hx
  · rcases embedCopy_ok hcp with ⟨c, _, hh', _⟩
    rw [heq, hh', setNode_nodes, setNode_nodes]
    have hnone := (osStat_notExist hst).1
    have hqne : ¬q = hostKey (filepathJoin [out, sanitize (filepathJoin [p, de.name])]) :=
      fun hc => by rw [hc, hnone] at hx; exact Option.noConfusion hx
    rw [if_neg hqne, if_neg hqne]
    exact hx
  · rw [heq]; exact hx

theorem writeVisit_dirStable (fsys : EmbNode) (out : GoStr) (h : Host) (p : GoStr)
    (de : DirEntry) {q : List GoStr} (hx : h.nodes q = some .dir) :
    ((writeVisit fsys out h p de).1).nodes q = some .dir := by
  rcases writeVisit_cases fsys out h p de with
    ⟨_, ⟨h', hmk, heq⟩ | ⟨e, _, heq⟩⟩ | ⟨_, ⟨h', hcp, heq⟩ | ⟨e, _, heq⟩⟩
  · rw [heq]; rw [mkdirAll] at hmk; exact mkdirChain_preserve _ _ _ _ hmk q _ hx
  · rw [heq]; exact hx
  · rcases embedCopy_ok hcp with ⟨c, _, hh', hnd⟩
    rw [heq, hh', setNode_nodes, setNode_nodes]
    have hqne : ¬q = hostKey (filepathJoin [out, sanitize (filepathJoin [p, de.name])]) :=
      fun hc => hnd (by rw [← hc]; exact hx)
    rw [if_neg hqne, if_neg hqne]
    exact hx
  · rw [heq]; exact hx

theorem treeVisit_frame (out : GoStr) (h : Host) (p : GoStr) (de : DirEntry)
    {k : List GoStr}
    (hk1 : k ∉ chainKeys [] (hostKey (filepathJoin [out, p, de.name]))) :
    ((treeVisit out h p de).1).nodes k = h.nodes k := by
  rcases treeVisit_cases out h p de with ⟨_, ⟨h', hmk, heq⟩ | ⟨e, _, heq⟩⟩ | ⟨_, heq⟩
  · rw [heq]; rw [mkdirAll] at hmk; exact mkdirChain_writes _ _ _ _ hmk k hk1
  · rw [heq]
  · rw [heq]

theorem touchVisit_frame (out : GoStr) (h : Host) (p : GoStr) (de : DirEntry)
    {k : List GoStr}
    (hk1 : k ∉ chainKeys [] (hostKey (filepathJoin [out, p, de.name])))
    (hk2 : k ≠ hostKey (filepathJoin [out, p, de.name])) :
    ((touchVisit out h p de).1).nodes k = h.nodes k := by
  rcases touchVisit_cases out h p de with
    ⟨_, ⟨h', hmk, heq⟩ | ⟨e, _, heq⟩⟩ |
    ⟨_, ⟨_, heq⟩ | ⟨_, heq⟩ | ⟨_, ⟨h', hcr, heq⟩ | ⟨e, _, heq⟩⟩⟩
  · rw [heq]; rw [mkdirAll] at hmk; exact mkdirChain_writes _ _ _ _ hmk k hk1
  · rw [heq]
  · rw [heq]
  · rw [heq]
  · rw [heq, (osCreate_ok_eq hcr).1, setNode_nodes, if_neg hk2]
  · rw [heq]

theorem writeVisit_frame (fsys : EmbNode) (out : GoStr) (h : Host) (p : GoStr)
    (de : DirEntry) {k : List GoStr}
    (hk1 : k ∉ chainKeys []
      (hostKey (filepathJoin [out, sanitize (filepathJoin [p, de.name])])))
    (hk2 : k ≠ hostKey (filepathJoin [out, sanitize (filepathJoin [p, de.name])])) :
    ((writeVisit fsys out h p de).1).nodes k = h.nodes k := by
  rcases writeVisit_cases fsys out h p de with
    ⟨_, ⟨h', hmk, heq⟩ | ⟨e, _, heq⟩⟩ | ⟨_, ⟨h', hcp, heq⟩ | ⟨e, _, heq⟩⟩
  · rw [heq]; rw [mkdirAll] at hmk; exact mkdirChain_writes _ _ _ _ hmk k hk1
  · rw [heq]
  · rcases embedCopy_ok hcp with ⟨c, _, hh', _⟩
    rw [heq, hh', setNode_nodes, setNode_nodes, if_neg hk2, if_neg hk2]
  · rw [heq]

theorem patchVisit_frame (fsys : EmbNode) (out : GoStr) (h : Host) (p : GoStr)
    (de : DirEntry) {k : List GoStr}
    (hk1 : k ∉ chainKeys []
      (hostKey (filepathJoin [out, sanitize (filepathJoin [p, de.name])])))
    (hk2 : k ≠ hostKey (filepathJoin [out, sanitize (filepathJoin [p, de.name])])) :
    ((patchVisit fsys out h p de).1).nodes k = h.nodes k := by
  rcases patchVisit_cases fsys out h p de with
    ⟨_, ⟨h', hmk, heq⟩ | ⟨e, _, heq⟩⟩ |
    ⟨_, ⟨_, heq⟩ | ⟨_, heq⟩ | ⟨_, ⟨h', hcp, heq⟩ | ⟨e, _, heq⟩⟩⟩
  · rw [heq]; rw [mkdirAll] at hmk; exact mkdirChain_writes _ _ _ _ hmk k hk1
  · rw [heq]
  · rw [heq]
  · rw [heq]
  · rcases embedCopy_ok hcp with ⟨c, _, hh', _⟩
    rw [heq, hh', setNode_nodes, setNode_nodes, if_neg hk2, if_neg hk2]
  · rw [heq]

/-! Completeness helpers: every real node has a call in the success trace,
and exactly one. -/

theorem subpathsEntries_intro :
    ∀ (es : List (GoStr × EmbNode)) (n : GoStr) (e : EmbNode), (n, e) ∈ es →
    [n] ∈ subpathsEntries es ∧ ∀ q ∈ subpaths e, (n :: q) ∈ subpathsEntries es
  | [], _, _, hm => absurd hm (List.not_mem_nil _)
  | (m, d) :: es, n, e, hm => by
    rw [subpathsEntries]
    rcases List.mem_cons.mp hm with hh | hh
    · injection hh with h1 h2
      subst h1; subst h2
      constructor
      · exact List.mem_cons_self _ _
      · intro q hq
        exact List.mem_cons_of_mem _
          (List.mem_append_left _ (List.mem_map_of_mem _ hq))
    · rcases subpathsEntries_intro es n e hh with ⟨h1, h2⟩
      constructor
      · exact List.mem_cons_of_mem _ (List.mem_append_right _ h1)
      · intro q hq
        exact List.mem_cons_of_mem _ (List.mem_append_right _ (h2 q hq))

theorem resolve_mem_subpaths : ∀ (q : List GoStr) (n m : EmbNode), q ≠ [] →
    resolve n q = some m → q ∈ subpaths n
  | [], _, _, hne, _ => absurd rfl hne
  | _ :: _, .file content, m, _, hr => by
    rw [resolve_file] at hr; exact Option.noConfusion hr
  | c :: cs, .dir es, m, _, hr => by
    rw [resolve_dir] at hr
    rcases resolveIn_mem hr with ⟨e, hm, hre⟩
    rw [subpaths]
    cases cs with
    | nil => exact (subpathsEntries_intro es c e hm).1
    | cons c2 cs2 =>
      exact (subpathsEntries_intro es c e hm).2 _
        (resolve_mem_subpaths (c2 :: cs2) e m (by simp) hre)

theorem descFrom_nil (fsys : EmbNode) : descFrom fsys [] = subpaths fsys := by
  simp [descFrom, resolve_nil]

theorem walkSpec_truthful {fsys : EmbNode} {ps : List GoStr}
    {es : List (GoStr × EmbNode)} (hwf : wfB fsys = true) (hvb : validBase ps)
    (hres : resolve fsys ps = some (.dir es)) :
    ∀ pr ∈ walkSpec fsys ps, TruthfulVisit fsys pr := by
  intro pr hm
  rw [walkSpec] at hm
  rcases List.mem_append.mp hm with hm | hm
  · exact levelVisits_truthful hvb hres (wf_resolve ps fsys _ hwf hres) pr hm
  · exact bfsVisits_truthful hwf (embHeight fsys) (embHeight fsys) _
      (childFrontier_good hwf hvb hres) pr hm

theorem split_of_nodup_map {α β : Type} {g : α → β} {T : List α}
    (hnd : (T.map g).Nodup) {q : β} (hq : q ∈ T.map g) :
    ∃ A pr B, T = A ++ pr :: B ∧ g pr = q ∧
      (∀ y ∈ A, g y ≠ q) ∧ ∀ y ∈ B, g y ≠ q := by
  rcases List.mem_map.mp hq with ⟨pr, hprm, hgpr⟩
  rcases List.append_of_mem hprm with ⟨A, B, hT⟩
  subst hT
  rw [List.map_append, List.map_cons] at hnd
  rcases List.nodup_append.mp hnd with ⟨_, hndB, hdisj⟩
  refine ⟨A, pr, B, rfl, hgpr, ?_, ?_⟩
  · intro y hy hgy
    exact hdisj (List.mem_map_of_mem g hy) (by rw [hgy, ← hgpr]; simp)
  · intro y hy hgy
    rcases List.nodup_cons.mp hndB with ⟨hnotm, _⟩
    exact hnotm (by rw [hgpr, ← hgy]; exact List.mem_map_of_mem g hy)

theorem walkSpec_split {fsys : EmbNode} {es : List (GoStr × EmbNode)}
    (hwf : wfB fsys = true) (hres : resolve fsys [] = some (.dir es))
    {q : List GoStr} (hq : q ∈ subpaths fsys) :
    ∃ A pr B, walkSpec fsys [] = A ++ pr :: B ∧ visitParts pr = q ∧
      (∀ y ∈ A, visitParts y ≠ q) ∧ ∀ y ∈ B, visitParts y ≠ q := by
  have hperm := walkSpec_perm hwf (fun c hc => absurd hc (List.not_mem_nil _)) hres
  have hnd : ((walkSpec fsys []).map visitParts).Nodup := by
    refine hperm.nodup_iff.mpr ?_
    rw [descFrom_nil]
    exact subpaths_nodup fsys hwf
  have hqm : q ∈ (walkSpec fsys []).map visitParts := by
    refine hperm.mem_iff.mpr ?_
    rw [descFrom_nil]
    exact hq
  exact split_of_nodup_map hnd hqm

theorem Walk_dot_file (content : List Nat)
    (f : σ → GoStr → DirEntry → σ × Option ε) (s : σ) :
    Walk (.file content) ['.'] f s =
      ⟨s, [], some (.noFolderFound (.notFound ['.']))⟩ :=
  Walk_eq_notFound
    (show readDir (EmbNode.file content) (sanitize ['.']) = none from rfl) f s

/-! Run-level helpers for the policy claims. -/

theorem Walk_dot_success {σ ε : Type} {fsys : EmbNode}
    (f : σ → GoStr → DirEntry → σ × Option ε) (s : σ) (hwf : wfB fsys = true)
    (hsucc : (Walk fsys ['.'] f s).err = none) :
    ∃ es, fsys = .dir es ∧
      Walk fsys ['.'] f s =
        ⟨applyTrace f s (walkSpec fsys []), walkSpec fsys [], none⟩ ∧
      noErrCalls f s (walkSpec fsys []) := by
  cases fsys with
  | file content =>
    rw [Walk_dot_file] at hsucc
    exact absurd hsucc (by simp)
  | dir es =>
    refine ⟨es, rfl, ?_⟩
    rcases Walk_master (.dir es) ['.'] f s hwf
        (show pathParts (sanitize ['.']) = some [] from rfl) (resolve_nil _) with
      h1 | ⟨t1, pr, e, er, hW, _, _, _, _⟩
    · exact h1
    · rw [hW] at hsucc
      exact absurd hsucc (by simp)

theorem keyT_visit (out : GoStr) {pr : GoStr × DirEntry}
    (hn : validName pr.2.name = true) :
    hostKey (filepathJoin [out, pr.1, pr.2.name]) = hostKey out ++ visitParts pr := by
  rw [visitParts]
  exact keyT_eq out pr.1 hn

theorem keyC_visit (out : GoStr) {pr : GoStr × DirEntry}
    (hn : validName pr.2.name = true) :
    hostKey (filepathJoin [out, filepathJoin [pr.1, pr.2.name]]) =
      hostKey out ++ visitParts pr := by
  rw [visitParts]
  exact keyC_eq out pr.1 hn

theorem keyW_visit (out : GoStr) {fsys : EmbNode} {pr : GoStr × DirEntry}
    (hty : TruthfulVisit fsys pr) :
    sanitize (filepathJoin [pr.1, pr.2.name]) = pathOfParts (visitParts pr) ∧
      hostKey (filepathJoin [out, sanitize (filepathJoin [pr.1, pr.2.name])]) =
        hostKey out ++ visitParts pr := by
  rcases hty with ⟨base, child, hvb, hvn, hp1, _, _⟩
  have hvp : visitParts pr = base ++ [pr.2.name] := by
    rw [visitParts, hp1, cleanParts_pathOfParts hvb]
  have h1 := keyW_path_eq hp1 hvb hvn
  refine ⟨by rw [hvp]; exact h1, ?_⟩
  rw [h1, hvp]
  exact keyW_eq out hvb hvn

theorem Tree_st_preserve (fsys : EmbNode) (out : GoStr) (h : Host)
    {k : List GoStr} {x : HostNode} (hx : h.nodes k = some x) :
    ((Tree fsys out h).st).nodes k = some x := by
  have hs := Walk_shape fsys ['.'] (treeVisit out) h
    (show Walk fsys ['.'] (treeVisit out) h = Tree fsys out h from rfl)
  rw [hs.1]
  exact applyTrace_inv (fun h2 => h2.nodes k = some x)
    (fun h2 y _ hP => treeVisit_preserve out h2 y.1 y.2 hP) hx

theorem Touch_st_preserve (fsys : EmbNode) (out : GoStr) (h : Host)
    {k : List GoStr} {x : HostNode} (hx : h.nodes k = some x) :
    ((Touch fsys out h).st).nodes k = some x := by
  have hs := Walk_shape fsys ['.'] (touchVisit out) h
    (show Walk fsys ['.'] (touchVisit out) h = Touch fsys out h from rfl)
  rw [hs.1]
  exact applyTrace_inv (fun h2 => h2.nodes k = some x)
    (fun h2 y _ hP => touchVisit_preserve out h2 y.1 y.2 hP) hx

theorem Patch_st_preserve (fsys : EmbNode) (out : GoStr) (h : Host)
    {k : List GoStr} {x : HostNode} (hx : h.nodes k = some x) :
    ((Patch fsys out h).st).nodes k = some x := by
  have hs := Walk_shape fsys ['.'] (patchVisit fsys out) h
    (show Walk fsys ['.'] (patchVisit fsys out) h = Patch fsys out h from rfl)
  rw [hs.1]
  exact applyTrace_inv (fun h2 => h2.nodes k = some x)
    (fun h2 y _ hP => patchVisit_preserve fsys out h2 y.1 y.2 hP) hx

theorem touch_trace_statErr (out : GoStr) (h : Host)
    (A : List (GoStr × DirEntry)) :
    (applyTrace (touchVisit out) h A).statErr = h.statErr := by
  refine applyTrace_inv (fun (h2 : Host) => h2.statErr = h.statErr) ?_ rfl
  intro h2 y _ hP
  rw [touchVisit_statErr]
  exact hP

theorem patch_trace_statErr (fsys : EmbNode) (out : GoStr) (h : Host)
    (A : List (GoStr × DirEntry)) :
    (applyTrace (patchVisit fsys out) h A).statErr = h.statErr := by
  refine applyTrace_inv (fun (h2 : Host) => h2.statErr = h.statErr) ?_ rfl
  intro h2 y _ hP
  rw [patchVisit_statErr]
  exact hP

/-- C5: Touch (Stub) and Patch (ConservativeCreate) are non-destructive:
every pre-existing host node — in particular a host file pre-populated with
arbitrary content at an embedded file's target — survives either run with
its content byte-for-byte unchanged; and on a well-formed embedded tree a
successful run certifies that no embedded file target had a stat failure
other than not-exist in the initial host state (only "absent" triggers
creation or copy; any other stat error is propagated as a failure). -/
theorem claim_C5 (fsys : EmbNode) (out : GoStr) (h : Host) :
    (∀ k x, h.nodes k = some x → ((Touch fsys out h).st).nodes k = some x) ∧
    (∀ k x, h.nodes k = some x → ((Patch fsys out h).st).nodes k = some x) ∧
    (wfB fsys = true → ∀ q c, q ≠ [] → resolve fsys q = some (.file c) →
      ((Touch fsys out h).err = none → h.statErr (hostKey out ++ q) = false) ∧
      ((Patch fsys out h).err = none → h.statErr (hostKey out ++ q) = false)) := by
  refine ⟨fun k x hx => Touch_st_preserve fsys out h hx,
    fun k x hx => Patch_st_preserve fsys out h hx, ?_⟩
  intro hwf q c hqne hq
  constructor
  · intro hsucc
    rcases Walk_dot_success (touchVisit out) h hwf hsucc with ⟨es, hfs, hW, hnec⟩
    have hres : resolve fsys [] = some (.dir es) := by
      rw [hfs]; exact resolve_nil _
    rcases walkSpec_split hwf hres (resolve_mem_subpaths q fsys _ hqne hq) with
      ⟨A, pr, B, hsp, hvp, _, _⟩
    have hprm : pr ∈ walkSpec fsys [] := by rw [hsp]; simp
    have hty : TruthfulVisit fsys pr :=
      walkSpec_truthful hwf (fun d hd => absurd hd (List.not_mem_nil _)) hres pr hprm
    rw [hsp] at hnec
    have hcall : (touchVisit out (applyTrace (touchVisit out) h A) pr.1 pr.2).2 =
        none := (noErrCalls_append.mp hnec).2.1
    rcases truthful_resolve hty with ⟨child, hresv, hdir, _, _⟩
    rw [hvp, hq] at hresv
    have hchild : child = .file c := (Option.some.inj hresv).symm
    have hfd : pr.2.isDir = false := by rw [hdir, hchild]; rfl
    have hvn : validName pr.2.name = true := by
      rcases hty with ⟨base, child2, _, hvn2, _, _, _⟩; exact hvn2
    by_contra hne2
    have hse : h.statErr (hostKey out ++ q) = true := by
      cases hb : h.statErr (hostKey out ++ q)
      · exact absurd hb hne2
      · rfl
    have hkey : hostKey (filepathJoin [out, pr.1, pr.2.name]) =
        hostKey out ++ q := by
      rw [keyT_visit out hvn, hvp]
    have hstA : (applyTrace (touchVisit out) h A).statErr
        (hostKey (filepathJoin [out, pr.1, pr.2.name])) = true := by
      rw [touch_trace_statErr, hkey]; exact hse
    have hos := osStat_of_statErr hstA
    rcases touchVisit_cases out (applyTrace (touchVisit out) h A) pr.1 pr.2 with
      ⟨hdT, _⟩ | ⟨_, ⟨hst2, _⟩ | ⟨hst2, heq⟩ | ⟨hst2, _⟩⟩
    · rw [hdT] at hfd; exact Bool.noConfusion hfd
    · rw [hst2] at hos; exact StatRes.noConfusion hos
    · rw [heq] at hcall; exact Option.noConfusion hcall
    · rw [hst2] at hos; exact StatRes.noConfusion hos
  · intro hsucc
    rcases Walk_dot_success (patchVisit fsys out) h hwf hsucc with ⟨es, hfs, hW, hnec⟩
    have hres : resolve fsys [] = some (.dir es) := by
      rw [hfs]; exact resolve_nil _
    rcases walkSpec_split hwf hres (resolve_mem_subpaths q fsys _ hqne hq) with
      ⟨A, pr, B, hsp, hvp, _, _⟩
    have hprm : pr ∈ walkSpec fsys [] := by rw [hsp]; simp
    have hty : TruthfulVisit fsys pr :=
      walkSpec_truthful hwf (fun d hd => absurd hd (List.not_mem_nil _)) hres pr hprm
    rw [hsp] at hnec
    have hcall : (patchVisit fsys out (applyTrace (patchVisit fsys out) h A)
        pr.1 pr.2).2 = none := (noErrCalls_append.mp hnec).2.1
    rcases truthful_resolve hty with ⟨child, hresv, hdir, _, _⟩
    rw [hvp, hq] at hresv
    have hchild : child = .file c := (Option.some.inj hresv).symm
    have hfd : pr.2.isDir = false := by rw [hdir, hchild]; rfl
    by_contra hne2
    have hse : h.statErr (hostKey out ++ q) = true := by
      cases hb : h.statErr (hostKey out ++ q)
      · exact absurd hb hne2
      · rfl
    have hkey : hostKey (filepathJoin [out, sanitize (filepathJoin
        [pr.1, pr.2.name])]) = hostKey out ++ q := by
      rw [(keyW_visit out hty).2, hvp]
    have hstA : (applyTrace (patchVisit fsys out) h A).statErr
        (hostKey (filepathJoin [out, sanitize (filepathJoin [pr.1, pr.2.name])])) =
        true := by
      rw [patch_trace_statErr, hkey]; exact hse
    have hos := osStat_of_statErr hstA
    rcases patchVisit_cases fsys out (applyTrace (patchVisit fsys out) h A)
        pr.1 pr.2 with
      ⟨hdT, _⟩ | ⟨_, ⟨hst2, _⟩ | ⟨hst2, heq⟩ | ⟨hst2, _⟩⟩
    · rw [hdT] at hfd; exact Bool.noConfusion hfd
    · rw [hst2] at hos; exact StatRes.noConfusion hos
    · rw [heq] at hcall; exact Option.noConfusion hcall
    · rw [hst2] at hos; exact StatRes.noConfusion hos

/-- Witness for C5 at the fixture: the pre-populated host file at g's
target keeps its content [1] (distinct from the embedded [9]) under both
Touch and Patch, and the successful Touch run certifies the absence of a
stat failure at that target. -/
theorem claim_C5_witness :
    h1.nodes [['g']] = some (.file [1]) ∧
    ((Touch fsW ['o'] h1).st).nodes [['g']] = some (.file [1]) ∧
    ((Patch fsW ['o'] h1).st).nodes [['g']] = some (.file [1]) ∧
    h1.statErr (hostKey ['o'] ++ [['g']]) = false := by
  have hc := claim_C5 fsW ['o'] h1
  exact ⟨rfl, hc.1 _ _ rfl, hc.2.1 _ _ rfl,
    (hc.2.2 (by decide) [['g']] [9] (by simp) rfl).1 rfl⟩

theorem write_file_cov {fsys : EmbNode} {out : GoStr} {h : Host}
    (hwf : wfB fsys = true) (hsucc : (Write fsys out h).err = none) :
    ∀ q c, q ≠ [] → resolve fsys q = some (.file c) →
      ((Write fsys out h).st).nodes (hostKey out ++ q) = some (.file c) := by
  intro q c hqne hq
  rcases Walk_dot_success (writeVisit fsys out) h hwf hsucc with ⟨es, hfs, hW, hnec⟩
  have hres : resolve fsys [] = some (.dir es) := by
    rw [hfs]; exact resolve_nil _
  rcases walkSpec_split hwf hres (resolve_mem_subpaths q fsys _ hqne hq) with
    ⟨A, pr, B, hsp, hvp, _, hBne⟩
  have htr : ∀ y ∈ walkSpec fsys [], TruthfulVisit fsys y :=
    walkSpec_truthful hwf (fun d hd => absurd hd (List.not_mem_nil _)) hres
  have hty : TruthfulVisit fsys pr := htr pr (by rw [hsp]; simp)
  rw [hsp] at hnec
  rcases noErrCalls_append.mp hnec with ⟨hnA, hnpB⟩
  have hcall := hnpB.1
  rcases truthful_resolve hty with ⟨child, hresv, hdir, _, hvbq⟩
  rw [hvp] at hresv hvbq
  rw [hq] at hresv
  have hchild : child = .file c := (Option.some.inj hresv).symm
  have hfd : pr.2.isDir = false := by rw [hdir, hchild]; rfl
  set stA := applyTrace (writeVisit fsys out) h A with hstA
  rcases writeVisit_cases fsys out stA pr.1 pr.2 with
    ⟨hdT, _⟩ | ⟨_, ⟨h', hcp, heqv⟩ | ⟨e, hcp, heqv⟩⟩
  · rw [hdT] at hfd; exact Bool.noConfusion hfd
  · rcases embedCopy_ok hcp with ⟨c2, hop, hh', _⟩
    have hkey : hostKey (filepathJoin [out, sanitize (filepathJoin
        [pr.1, pr.2.name])]) = hostKey out ++ q := by
      rw [(keyW_visit out hty).2, hvp]
    have hep : sanitize (sanitize (filepathJoin [pr.1, pr.2.name])) =
        pathOfParts q := by
      rw [sanitize_idem, (keyW_visit out hty).1, hvp]
    rw [hep, embOpen_canonical hvbq hq] at hop
    have hc2 : c2 = c := (Option.some.inj hop).symm
    rw [hc2] at hh'
    have hWst : (Write fsys out h).st = applyTrace (writeVisit fsys out) h
        (walkSpec fsys []) := by
      rw [show Write fsys out h = Walk fsys ['.'] (writeVisit fsys out) h from rfl,
        hW]
    rw [hWst, hsp, applyTrace_append, applyTrace_cons, ← hstA]
    have hfst : (writeVisit fsys out stA pr.1 pr.2).1 = h' := by rw [heqv]
    rw [hfst, hh']
    refine applyTrace_inv (fun (h2 : Host) =>
      h2.nodes (hostKey out ++ q) = some (.file c)) ?_ ?_
    · intro h2 y hy hP
      have htyy : TruthfulVisit fsys y := htr y (by rw [hsp]; simp [hy])
      have hneq : visitParts y ≠ q := hBne y hy
      have hff := fileKey_frame hq out htyy hneq
      have hkW := (keyW_visit out htyy).2
      rw [writeVisit_frame fsys out h2 y.1 y.2 (by rw [hkW]; exact hff.1)
        (by rw [hkW]; exact hff.2)]
      exact hP
    · simp [setNode_nodes, hkey]
  · rw [heqv] at hcall; exact Option.noConfusion hcall

/-- C6: after a successful Write (Overwrite) run on a well-formed embedded
tree, the host node at every embedded file's target is a file holding
exactly the embedded byte content, regardless of what the host held there
before (the copy truncates and writes the full content, never appending or
writing partially). -/
theorem claim_C6 (fsys : EmbNode) (out : GoStr) (h : Host)
    (hwf : wfB fsys = true) (hsucc : (Write fsys out h).err = none) :
    ∀ q c, q ≠ [] → resolve fsys q = some (.file c) →
      ((Write fsys out h).st).nodes (hostKey out ++ q) = some (.file c) :=
  write_file_cov hwf hsucc

/-- Witness for C6 at the fixture: the host file at g's target held [1];
after the successful Write run it holds exactly the embedded content [9]. -/
theorem claim_C6_witness :
    wfB fsW = true ∧ (Write fsW ['o'] h1).err = none ∧
    ((Write fsW ['o'] h1).st).nodes (hostKey ['o'] ++ [['g']]) =
      some (.file [9]) :=
  ⟨by decide, rfl,
    claim_C6 fsW ['o'] h1 (by decide) rfl [['g']] [9] (by simp) rfl⟩

/-! Directory coverage: on success every directory target, and every
ancestor in its MkdirAll chain, exists as a host directory afterwards. -/

theorem policy_success_dirs {f : Host → GoStr → DirEntry → Host × Option RebedErr}
    {fsys : EmbNode} {h : Host} (out : GoStr) (hwf : wfB fsys = true)
    (hsucc : (Walk fsys ['.'] f h).err = none)
    (Hdir : ∀ (h2 : Host) (y : GoStr × DirEntry), TruthfulVisit fsys y →
      y.2.isDir = true → (f h2 y.1 y.2).2 = none →
      ∃ h', mkdirChain h2 [] (hostKey out ++ visitParts y) = .ok h' ∧
        (f h2 y.1 y.2).1 = h')
    (Hstable : ∀ (h2 : Host) (y : GoStr × DirEntry) k,
      h2.nodes k = some .dir → ((f h2 y.1 y.2).1).nodes k = some .dir) :
    ∀ q ds, q ≠ [] → resolve fsys q = some (.dir ds) →
      ∀ k ∈ chainKeys [] (hostKey out ++ q),
        ((Walk fsys ['.'] f h).st).nodes k = some .dir := by
  intro q ds hqne hq k hk
  rcases Walk_dot_success f h hwf hsucc with ⟨es, hfs, hW, hnec⟩
  have hres : resolve fsys [] = some (.dir es) := by
    rw [hfs]; exact resolve_nil _
  rcases walkSpec_split hwf hres (resolve_mem_subpaths q fsys _ hqne hq) with
    ⟨A, pr, B, hsp, hvp, _, _⟩
  have htr : ∀ y ∈ walkSpec fsys [], TruthfulVisit fsys y :=
    walkSpec_truthful hwf (fun d hd => absurd hd (List.not_mem_nil _)) hres
  have hty : TruthfulVisit fsys pr := htr pr (by rw [hsp]; simp)
  rw [hsp] at hnec
  rcases noErrCalls_append.mp hnec with ⟨_, hnpB⟩
  have hcall := hnpB.1
  rcases truthful_resolve hty with ⟨child, hresv, hdir, _, _⟩
  rw [hvp, hq] at hresv
  have hchild : child = .dir ds := (Option.some.inj hresv).symm
  have hfd : pr.2.isDir = true := by rw [hdir, hchild]; rfl
  set stA := applyTrace f h A with hstA
  rcases Hdir stA pr hty hfd hcall with ⟨h', hmk, hfst⟩
  have hdirs : h'.nodes k = some .dir := by
    refine mkdirChain_post _ _ _ _ hmk k ?_
    rw [hvp]
    exact hk
  have hWst : (Walk fsys ['.'] f h).st = applyTrace f h (walkSpec fsys []) := by
    rw [hW]
  rw [hWst, hsp, applyTrace_append, applyTrace_cons, ← hstA, hfst]
  exact applyTrace_inv (fun (h2 : Host) => h2.nodes k = some .dir)
    (fun h2 y _ hP => Hstable h2 y k hP) hdirs

theorem treeVisit_Hdir (fsys : EmbNode) (out : GoStr) :
    ∀ (h2 : Host) (y : GoStr × DirEntry), TruthfulVisit fsys y →
      y.2.isDir = true → (treeVisit out h2 y.1 y.2).2 = none →
      ∃ h', mkdirChain h2 [] (hostKey out ++ visitParts y) = .ok h' ∧
        (treeVisit out h2 y.1 y.2).1 = h' := by
  intro h2 y hty hd hcall
  have hvn : validName y.2.name = true := by
    rcases hty with ⟨b, c2, _, hvn2, _, _, _⟩; exact hvn2
  rcases treeVisit_cases out h2 y.1 y.2 with
    ⟨_, ⟨h', hmk, heq⟩ | ⟨e, hmk, heq⟩⟩ | ⟨hd2, _⟩
  · refine ⟨h', ?_, by rw [heq]⟩
    rw [mkdirAll] at hmk
    rwa [keyT_visit out hvn] at hmk
  · rw [heq] at hcall; exact Option.noConfusion hcall
  · rw [hd] at hd2; exact Bool.noConfusion hd2

theorem touchVisit_Hdir (fsys : EmbNode) (out : GoStr) :
    ∀ (h2 : Host) (y : GoStr × DirEntry), TruthfulVisit fsys y →
      y.2.isDir = true → (touchVisit out h2 y.1 y.2).2 = none →
      ∃ h', mkdirChain h2 [] (hostKey out ++ visitParts y) = .ok h' ∧
        (touchVisit out h2 y.1 y.2).1 = h' := by
  intro h2 y hty hd hcall
  have hvn : validName y.2.name = true := by
    rcases hty with ⟨b, c2, _, hvn2, _, _, _⟩; exact hvn2
  rcases touchVisit_cases out h2 y.1 y.2 with
    ⟨_, ⟨h', hmk, heq⟩ | ⟨e, hmk, heq⟩⟩ | ⟨hd2, _⟩
  · refine ⟨h', ?_, by rw [heq]⟩
    rw [mkdirAll] at hmk
    rwa [keyT_visit out hvn] at hmk
  · rw [heq] at hcall; exact Option.noConfusion hcall
  · rw [hd] at hd2; exact Bool.noConfusion hd2

theorem writeVisit_Hdir (fsys : EmbNode) (out : GoStr) :
    ∀ (h2 : Host) (y : GoStr × DirEntry), TruthfulVisit fsys y →
      y.2.isDir = true → (writeVisit fsys out h2 y.1 y.2).2 = none →
      ∃ h', mkdirChain h2 [] (hostKey out ++ visitParts y) = .ok h' ∧
        (writeVisit fsys out h2 y.1 y.2).1 = h' := by
  intro h2 y hty hd hcall
  rcases writeVisit_cases fsys out h2 y.1 y.2 with
    ⟨_, ⟨h', hmk, heq⟩ | ⟨e, hmk, heq⟩⟩ | ⟨hd2, _⟩
  · refine ⟨h', ?_, by rw [heq]⟩
    rw [mkdirAll] at hmk
    rwa [(keyW_visit out hty).2] at hmk
  · rw [heq] at hcall; exact Option.noConfusion hcall
  · rw [hd] at hd2; exact Bool.noConfusion hd2

theorem patchVisit_Hdir (fsys : EmbNode) (out : GoStr) :
    ∀ (h2 : Host) (y : GoStr × DirEntry), TruthfulVisit fsys y →
      y.2.isDir = true → (patchVisit fsys out h2 y.1 y.2).2 = none →
      ∃ h', mkdirChain h2 [] (hostKey out ++ visitParts y) = .ok h' ∧
        (patchVisit fsys out h2 y.1 y.2).1 = h' := by
  intro h2 y hty hd hcall
  rcases patchVisit_cases fsys out h2 y.1 y.2 with
    ⟨_, ⟨h', hmk, heq⟩ | ⟨e, hmk, heq⟩⟩ | ⟨hd2, _⟩
  · refine ⟨h', ?_, by rw [heq]⟩
    rw [mkdirAll] at hmk
    rwa [(keyW_visit out hty).2] at hmk
  · rw [heq] at hcall; exact Option.noConfusion hcall
  · rw [hd] at hd2; exact Bool.noConfusion hd2

theorem Tree_success_dirs {fsys : EmbNode} {out : GoStr} {h : Host}
    (hwf : wfB fsys = true) (hsucc : (Tree fsys out h).err = none) :
    ∀ q ds, q ≠ [] → resolve fsys q = some (.dir ds) →
      ∀ k ∈ chainKeys [] (hostKey out ++ q),
        ((Tree fsys out h).st).nodes k = some .dir :=
  policy_success_dirs out hwf hsucc (treeVisit_Hdir fsys out)
    (fun h2 y _ hP => treeVisit_preserve out h2 y.1 y.2 hP)

theorem Touch_success_dirs {fsys : EmbNode} {out : GoStr} {h : Host}
    (hwf : wfB fsys = true) (hsucc : (Touch fsys out h).err = none) :
    ∀ q ds, q ≠ [] → resolve fsys q = some (.dir ds) →
      ∀ k ∈ chainKeys [] (hostKey out ++ q),
        ((Touch fsys out h).st).nodes k = some .dir :=
  policy_success_dirs out hwf hsucc (touchVisit_Hdir fsys out)
    (fun h2 y _ hP => touchVisit_preserve out h2 y.1 y.2 hP)

theorem Write_success_dirs {fsys : EmbNode} {out : GoStr} {h : Host}
    (hwf : wfB fsys = true) (hsucc : (Write fsys out h).err = none) :
    ∀ q ds, q ≠ [] → resolve fsys q = some (.dir ds) →
      ∀ k ∈ chainKeys [] (hostKey out ++ q),
        ((Write fsys out h).st).nodes k = some .dir :=
  policy_success_dirs out hwf hsucc (writeVisit_Hdir fsys out)
    (fun h2 y _ hP => writeVisit_dirStable fsys out h2 y.1 y.2 hP)

theorem Patch_success_dirs {fsys : EmbNode} {out : GoStr} {h : Host}
    (hwf : wfB fsys = true) (hsucc : (Patch fsys out h).err = none) :
    ∀ q ds, q ≠ [] → resolve fsys q = some (.dir ds) →
      ∀ k ∈ chainKeys [] (hostKey out ++ q),
        ((Patch fsys out h).st).nodes k = some .dir :=
  policy_success_dirs out hwf hsucc (patchVisit_Hdir fsys out)
    (fun h2 y _ hP => patchVisit_preserve fsys out h2 y.1 y.2 hP)

/-! Create as pre-flight plus Patch. -/

theorem createWalk_st (fsys : EmbNode) (out : GoStr) (h : Host) :
    (Walk fsys ['.'] (createVisit out) h).st = h := by
  have hs := Walk_shape fsys ['.'] (createVisit out) h
    (show Walk fsys ['.'] (createVisit out) h =
      Walk fsys ['.'] (createVisit out) h from rfl)
  rw [hs.1]
  exact applyTrace_inv (fun (h2 : Host) => h2 = h)
    (fun h2 y _ hP => by rw [createVisit_st]; exact hP) rfl

theorem Create_unfold (fsys : EmbNode) (out : GoStr) (h : Host) :
    Create fsys out h =
      (match (Walk fsys ['.'] (createVisit out) h).err with
        | some e => ⟨(Walk fsys ['.'] (createVisit out) h).st,
            (Walk fsys ['.'] (createVisit out) h).trace, some e⟩
        | none => Patch fsys out (Walk fsys ['.'] (createVisit out) h).st) := rfl

theorem create_split {fsys : EmbNode} {out : GoStr} {h : Host}
    (hsucc : (Create fsys out h).err = none) :
    Create fsys out h = Patch fsys out h ∧ (Patch fsys out h).err = none := by
  cases herr : (Walk fsys ['.'] (createVisit out) h).err with
  | some e =>
    rw [Create_unfold, herr] at hsucc
    exact absurd hsucc (by simp)
  | none =>
    have hC : Create fsys out h = Patch fsys out h := by
      rw [Create_unfold, herr, createWalk_st]
    refine ⟨hC, ?_⟩
    rw [← hC]
    exact hsucc

theorem treeVisit_noop {fsys : EmbNode} {out : GoStr} {st1 : Host}
    {y : GoStr × DirEntry} (hty : TruthfulVisit fsys y)
    (hdirs : ∀ q ds, q ≠ [] → resolve fsys q = some (.dir ds) →
      ∀ k ∈ chainKeys [] (hostKey out ++ q), st1.nodes k = some .dir) :
    treeVisit out st1 y.1 y.2 = (st1, none) := by
  have hvn : validName y.2.name = true := by
    rcases hty with ⟨b, c2, _, hvn2, _, _, _⟩; exact hvn2
  rcases truthful_resolve hty with ⟨child, hresv, hdir, hvne, _⟩
  cases hchild : child with
  | file content =>
    have hfd : y.2.isDir = false := by rw [hdir, hchild]; rfl
    rcases treeVisit_cases out st1 y.1 y.2 with ⟨hd2, _⟩ | ⟨_, heq⟩
    · rw [hfd] at hd2; exact Bool.noConfusion hd2
    · exact heq
  | dir ds =>
    have hfd : y.2.isDir = true := by rw [hdir, hchild]; rfl
    have hnp : mkdirChain st1 [] (hostKey out ++ visitParts y) = .ok st1 := by
      apply mkdirChain_noop
      intro k hk
      exact hdirs (visitParts y) ds hvne (by rw [← hchild]; exact hresv) k hk
    rcases treeVisit_cases out st1 y.1 y.2 with
      ⟨_, ⟨h', hmk, heq⟩ | ⟨e, hmk, heq⟩⟩ | ⟨hd2, _⟩
    · rw [mkdirAll, keyT_visit out hvn, hnp] at hmk
      have hh : st1 = h' := Except.ok.inj hmk
      rw [heq, ← hh]
    · rw [mkdirAll, keyT_visit out hvn, hnp] at hmk
      exact Except.noConfusion hmk
    · rw [hfd] at hd2; exact Bool.noConfusion hd2

/-- C9 counterexample: with a host file blocking the single embedded
directory's target, the first Tree run fails — and so does the second run
against the same destination root, so the claim's unconditional "no error
on the second run" does not hold. -/
theorem claim_C9_counterexample :
    (Tree fsA ['o'] hFileA).err ≠ none ∧
    (Tree fsA ['o'] ((Tree fsA ['o'] hFileA).st)).err ≠ none := by
  exact ⟨by decide, by decide⟩

/-- C9 (amended): provided the first Tree (Structure) run succeeds, running
it a second time against the same destination root returns no error and
changes nothing: the host state after the second run is exactly the state
after the first, so the set of directories under the root is the same as
after a single run. -/
theorem claim_C9 (fsys : EmbNode) (out : GoStr) (h : Host)
    (hwf : wfB fsys = true) (hsucc : (Tree fsys out h).err = none) :
    (Tree fsys out ((Tree fsys out h).st)).err = none ∧
    (Tree fsys out ((Tree fsys out h).st)).st = (Tree fsys out h).st := by
  have hdirs := Tree_success_dirs hwf hsucc
  cases fsys with
  | file content =>
    rw [show Tree (.file content) out h =
        Walk (.file content) ['.'] (treeVisit out) h from rfl,
      Walk_dot_file content (treeVisit out) h] at hsucc
    exact absurd hsucc (by simp)
  | dir es =>
    have hres : resolve (.dir es) [] = some (.dir es) := resolve_nil _
    have htr := walkSpec_truthful hwf
      (fun d hd => absurd hd (List.not_mem_nil _)) hres
    have hnoop : ∀ y, TruthfulVisit (.dir es) y →
        treeVisit out ((Tree (.dir es) out h).st) y.1 y.2 =
          ((Tree (.dir es) out h).st, none) :=
      fun y hy => treeVisit_noop hy hdirs
    rcases Walk_master (.dir es) ['.'] (treeVisit out) ((Tree (.dir es) out h).st)
        hwf (show pathParts (sanitize ['.']) = some [] from rfl) hres with
      ⟨hW2, _⟩ | ⟨t1, pr, e, er, hW2, _, _, hcall, htruth⟩
    · have hstid : applyTrace (treeVisit out) ((Tree (.dir es) out h).st)
          (walkSpec (.dir es) []) = (Tree (.dir es) out h).st := by
        refine applyTrace_inv
          (fun (h2 : Host) => h2 = (Tree (.dir es) out h).st) ?_ rfl
        intro h2 y hy hP
        rw [hP, hnoop y (htr y hy)]
      rw [show Tree (.dir es) out ((Tree (.dir es) out h).st) =
          Walk (.dir es) ['.'] (treeVisit out) ((Tree (.dir es) out h).st) from rfl,
        hW2]
      exact ⟨rfl, hstid⟩
    · exfalso
      have hstid : applyTrace (treeVisit out) ((Tree (.dir es) out h).st) t1 =
          (Tree (.dir es) out h).st := by
        refine applyTrace_inv
          (fun (h2 : Host) => h2 = (Tree (.dir es) out h).st) ?_ rfl
        intro h2 y hy hP
        rw [hP, hnoop y (htruth y (List.mem_append_left _ hy))]
      rw [hstid, hnoop pr (htruth pr (List.mem_append_right _ (by simp)))] at hcall
      exact Option.noConfusion hcall

/-- Witness for C9 at the fixture: the first Tree run on the empty host
succeeds, and the second run returns no error and leaves the state of the
first run untouched. -/
theorem claim_C9_witness :
    wfB fsW = true ∧ (Tree fsW ['o'] h0).err = none ∧
    (Tree fsW ['o'] ((Tree fsW ['o'] h0).st)).err = none ∧
    (Tree fsW ['o'] ((Tree fsW ['o'] h0).st)).st = (Tree fsW ['o'] h0).st := by
  have hc := claim_C9 fsW ['o'] h0 (by decide) (by decide)
  exact ⟨by decide, by decide, hc.1, hc.2⟩

theorem self_mem_chainKeys {ks : List GoStr} (h : ks ≠ []) :
    ks ∈ chainKeys [] ks := by
  have hm := chainKeys_self [] ks h
  rwa [List.nil_append] at hm

theorem touch_file_create {fsys : EmbNode} {out : GoStr} {h : Host}
    (hwf : wfB fsys = true) (hsucc : (Touch fsys out h).err = none)
    {q : List GoStr} {c : List Nat} (hqne : q ≠ [])
    (hq : resolve fsys q = some (.file c))
    (habs : h.nodes (hostKey out ++ q) = none) :
    ((Touch fsys out h).st).nodes (hostKey out ++ q) = some (.file []) := by
  rcases Walk_dot_success (touchVisit out) h hwf hsucc with ⟨es, hfs, hW, hnec⟩
  have hres : resolve fsys [] = some (.dir es) := by
    rw [hfs]; exact resolve_nil _
  rcases walkSpec_split hwf hres (resolve_mem_subpaths q fsys _ hqne hq) with
    ⟨A, pr, B, hsp, hvp, hAne, hBne⟩
  have htr : ∀ y ∈ walkSpec fsys [], TruthfulVisit fsys y :=
    walkSpec_truthful hwf (fun d hd => absurd hd (List.not_mem_nil _)) hres
  have hty : TruthfulVisit fsys pr := htr pr (by rw [hsp]; simp)
  rw [hsp] at hnec
  rcases noErrCalls_append.mp hnec with ⟨hnA, hnpB⟩
  have hcall := hnpB.1
  rcases truthful_resolve hty with ⟨child, hresv, hdir, _, _⟩
  rw [hvp, hq] at hresv
  have hchild : child = .file c := (Option.some.inj hresv).symm
  have hfd : pr.2.isDir = false := by rw [hdir, hchild]; rfl
  have hvn : validName pr.2.name = true := by
    rcases hty with ⟨b, c2, _, hvn2, _, _, _⟩; exact hvn2
  set stA := applyTrace (touchVisit out) h A with hstA
  have hframeA : stA.nodes (hostKey out ++ q) = h.nodes (hostKey out ++ q) := by
    rw [hstA]
    refine applyTrace_inv (fun (h2 : Host) =>
      h2.nodes (hostKey out ++ q) = h.nodes (hostKey out ++ q)) ?_ rfl
    intro h2 y hy hP
    have htyy := htr y (by rw [hsp]; simp [hy])
    have hneq := hAne y hy
    have hff := fileKey_frame hq out htyy hneq
    have hvny : validName y.2.name = true := by
      rcases htyy with ⟨b, c2, _, hvn2, _, _, _⟩; exact hvn2
    rw [touchVisit_frame out h2 y.1 y.2
      (by rw [keyT_visit out hvny]; exact hff.1)
      (by rw [keyT_visit out hvny]; exact hff.2)]
    exact hP
  have habsA : stA.nodes (hostKey out ++ q) = none := by rw [hframeA, habs]
  have hkey : hostKey (filepathJoin [out, pr.1, pr.2.name]) = hostKey out ++ q := by
    rw [keyT_visit out hvn, hvp]
  rcases touchVisit_cases out stA pr.1 pr.2 with
    ⟨hdT, _⟩ | ⟨_, ⟨hst2, _⟩ | ⟨_, heqv⟩ | ⟨hst2, ⟨h', hcr, heqv⟩ | ⟨e, _, heqv⟩⟩⟩
  · rw [hdT] at hfd; exact Bool.noConfusion hfd
  · rcases osStat_ok hst2 with ⟨n, hn⟩
    rw [hkey, habsA] at hn
    exact Option.noConfusion hn
  · rw [heqv] at hcall; exact Option.noConfusion hcall
  · have hh' := (osCreate_ok_eq hcr).1
    have hWst : (Touch fsys out h).st = applyTrace (touchVisit out) h
        (walkSpec fsys []) := by
      rw [show Touch fsys out h = Walk fsys ['.'] (touchVisit out) h from rfl, hW]
    rw [hWst, hsp, applyTrace_append, applyTrace_cons, ← hstA]
    have hfst : (touchVisit out stA pr.1 pr.2).1 = h' := by rw [heqv]
    rw [hfst, hh']
    refine applyTrace_inv (fun (h2 : Host) =>
      h2.nodes (hostKey out ++ q) = some (.file [])) ?_ ?_
    · intro h2 y hy hP
      have htyy := htr y (by rw [hsp]; simp [hy])
      have hneq := hBne y hy
      have hff := fileKey_frame hq out htyy hneq
      have hvny : validName y.2.name = true := by
        rcases htyy with ⟨b, c2, _, hvn2, _, _, _⟩; exact hvn2
      rw [touchVisit_frame out h2 y.1 y.2
        (by rw [keyT_visit out hvny]; exact hff.1)
        (by rw [keyT_visit out hvny]; exact hff.2)]
      exact hP
    · simp [setNode_nodes, hkey]
  · rw [heqv] at hcall; exact Option.noConfusion hcall

theorem patch_file_create {fsys : EmbNode} {out : GoStr} {h : Host}
    (hwf : wfB fsys = true) (hsucc : (Patch fsys out h).err = none)
    {q : List GoStr} {c : List Nat} (hqne : q ≠ [])
    (hq : resolve fsys q = some (.file c))
    (habs : h.nodes (hostKey out ++ q) = none) :
    ((Patch fsys out h).st).nodes (hostKey out ++ q) = some (.file c) := by
  rcases Walk_dot_success (patchVisit fsys out) h hwf hsucc with ⟨es, hfs, hW, hnec⟩
  have hres : resolve fsys [] = some (.dir es) := by
    rw [hfs]; exact resolve_nil _
  rcases walkSpec_split hwf hres (resolve_mem_subpaths q fsys _ hqne hq) with
    ⟨A, pr, B, hsp, hvp, hAne, hBne⟩
  have htr : ∀ y ∈ walkSpec fsys [], TruthfulVisit fsys y :=
    walkSpec_truthful hwf (fun d hd => absurd hd (List.not_mem_nil _)) hres
  have hty : TruthfulVisit fsys pr := htr pr (by rw [hsp]; simp)
  rw [hsp] at hnec
  rcases noErrCalls_append.mp hnec with ⟨hnA, hnpB⟩
  have hcall := hnpB.1
  rcases truthful_resolve hty with ⟨child, hresv, hdir, _, hvbq⟩
  rw [hvp] at hresv hvbq
  rw [hq] at hresv
  have hchild : child = .file c := (Option.some.inj hresv).symm
  have hfd : pr.2.isDir = false := by rw [hdir, hchild]; rfl
  set stA := applyTrace (patchVisit fsys out) h A with hstA
  have hframeA : stA.nodes (hostKey out ++ q) = h.nodes (hostKey out ++ q) := by
    rw [hstA]
    refine applyTrace_inv (fun (h2 : Host) =>
      h2.nodes (hostKey out ++ q) = h.nodes (hostKey out ++ q)) ?_ rfl
    intro h2 y hy hP
    have htyy := htr y (by rw [hsp]; simp [hy])
    have hneq := hAne y hy
    have hff := fileKey_frame hq out htyy hneq
    have hkW := (keyW_visit out htyy).2
    rw [patchVisit_frame fsys out h2 y.1 y.2 (by rw [hkW]; exact hff.1)
      (by rw [hkW]; exact hff.2)]
    exact hP
  have habsA : stA.nodes (hostKey out ++ q) = none := by rw [hframeA, habs]
  have hkey : hostKey (filepathJoin [out, sanitize (filepathJoin
      [pr.1, pr.2.name])]) = hostKey out ++ q := by
    rw [(keyW_visit out hty).2, hvp]
  rcases patchVisit_cases fsys out stA pr.1 pr.2 with
    ⟨hdT, _⟩ | ⟨_, ⟨hst2, _⟩ | ⟨_, heqv⟩ | ⟨hst2, ⟨h', hcp, heqv⟩ | ⟨e, _, heqv⟩⟩⟩
  · rw [hdT] at hfd; exact Bool.noConfusion hfd
  · rcases osStat_ok hst2 with ⟨n, hn⟩
    rw [hkey, habsA] at hn
    exact Option.noConfusion hn
  · rw [heqv] at hcall; exact Option.noConfusion hcall
  · rcases embedCopy_ok hcp with ⟨c2, hop, hh', _⟩
    have hep : sanitize (sanitize (filepathJoin [pr.1, pr.2.name])) =
        pathOfParts q := by
      rw [sanitize_idem, (keyW_visit out hty).1, hvp]
    rw [hep, embOpen_canonical hvbq hq] at hop
    have hc2 : c2 = c := (Option.some.inj hop).symm
    rw [hc2] at hh'
    have hWst : (Patch fsys out h).st = applyTrace (patchVisit fsys out) h
        (walkSpec fsys []) := by
      rw [show Patch fsys out h = Walk fsys ['.'] (patchVisit fsys out) h from rfl,
        hW]
    rw [hWst, hsp, applyTrace_append, applyTrace_cons, ← hstA]
    have hfst : (patchVisit fsys out stA pr.1 pr.2).1 = h' := by rw [heqv]
    rw [hfst, hh']
    refine applyTrace_inv (fun (h2 : Host) =>
      h2.nodes (hostKey out ++ q) = some (.file c)) ?_ ?_
    · intro h2 y hy hP
      have htyy := htr y (by rw [hsp]; simp [hy])
      have hneq := hBne y hy
      have hff := fileKey_frame hq out htyy hneq
      have hkW := (keyW_visit out htyy).2
      rw [patchVisit_frame fsys out h2 y.1 y.2 (by rw [hkW]; exact hff.1)
        (by rw [hkW]; exact hff.2)]
      exact hP
    · simp [setNode_nodes, hkey]
  · rw [heqv] at hcall; exact Option.noConfusion hcall

/-- C4 counterexample: on the tree with the single embedded file a, a
successful Tree run creates no node at the mirrored path at all, and a
successful Touch run against a host directory sitting at the file's target
leaves that directory there — in neither case does a node of the same kind
(a file) exist at the mirrored path. -/
theorem claim_C4_counterexample :
    ((Tree fsF ['o'] h0).err = none ∧
      ((Tree fsF ['o'] h0).st).nodes [['o'], ['a']] = none) ∧
    ((Touch fsF ['o'] hDirA).err = none ∧
      ((Touch fsF ['o'] hDirA).st).nodes [['o'], ['a']] = some .dir) :=
  ⟨⟨by decide, by decide⟩, by decide, by decide⟩

/-- C4 (amended): full coverage by kind holds with two repairs forced by
the counterexample.  After a successful run on a well-formed tree: every
embedded directory is mirrored as a host directory under all five policies
(Tree, Touch, Write, Patch, Create); every embedded file is mirrored as a
host file holding the embedded content under Write, and under Touch, Patch
and Create whenever the host held nothing at the target (Touch creates it
empty, Patch and Create copy the content); Tree gives no guarantee for
files, and Touch/Patch/Create leave any pre-existing host node at a file
target in place whatever its kind. -/
theorem claim_C4 (fsys : EmbNode) (out : GoStr) (h : Host)
    (hwf : wfB fsys = true) :
    ∀ q, q ≠ [] →
    (∀ ds, resolve fsys q = some (.dir ds) →
      ((Tree fsys out h).err = none →
        ((Tree fsys out h).st).nodes (hostKey out ++ q) = some .dir) ∧
      ((Touch fsys out h).err = none →
        ((Touch fsys out h).st).nodes (hostKey out ++ q) = some .dir) ∧
      ((Write fsys out h).err = none →
        ((Write fsys out h).st).nodes (hostKey out ++ q) = some .dir) ∧
      ((Patch fsys out h).err = none →
        ((Patch fsys out h).st).nodes (hostKey out ++ q) = some .dir) ∧
      ((Create fsys out h).err = none →
        ((Create fsys out h).st).nodes (hostKey out ++ q) = some .dir)) ∧
    (∀ c, resolve fsys q = some (.file c) →
      ((Write fsys out h).err = none →
        ((Write fsys out h).st).nodes (hostKey out ++ q) = some (.file c)) ∧
      ((Touch fsys out h).err = none → h.nodes (hostKey out ++ q) = none →
        ((Touch fsys out h).st).nodes (hostKey out ++ q) = some (.file [])) ∧
      ((Patch fsys out h).err = none → h.nodes (hostKey out ++ q) = none →
        ((Patch fsys out h).st).nodes (hostKey out ++ q) = some (.file c)) ∧
      ((Create fsys out h).err = none → h.nodes (hostKey out ++ q) = none →
        ((Create fsys out h).st).nodes (hostKey out ++ q) = some (.file c))) := by
  intro q hqne
  have hkm : hostKey out ++ q ∈ chainKeys [] (hostKey out ++ q) :=
    self_mem_chainKeys fun hc => hqne (List.append_eq_nil.mp hc).2
  constructor
  · intro ds hq
    refine ⟨fun hs => Tree_success_dirs hwf hs q ds hqne hq _ hkm,
      fun hs => Touch_success_dirs hwf hs q ds hqne hq _ hkm,
      fun hs => Write_success_dirs hwf hs q ds hqne hq _ hkm,
      fun hs => Patch_success_dirs hwf hs q ds hqne hq _ hkm,
      fun hs => ?_⟩
    rcases create_split hs with ⟨hCP, hPs⟩
    rw [hCP]
    exact Patch_success_dirs hwf hPs q ds hqne hq _ hkm
  · intro c hq
    refine ⟨fun hs => write_file_cov hwf hs q c hqne hq,
      fun hs habs => touch_file_create hwf hs hqne hq habs,
      fun hs habs => patch_file_create hwf hs hqne hq habs,
      fun hs habs => ?_⟩
    rcases create_split hs with ⟨hCP, hPs⟩
    rw [hCP]
    exact patch_file_create hwf hPs hqne hq habs

/-- Witness for C4 at the fixture over the empty host: all five policies
succeed; the directory d is mirrored by Tree, and the file d/f is mirrored
with its content by Write and Create and as an empty file by Touch. -/
theorem claim_C4_witness :
    wfB fsW = true ∧
    (Tree fsW ['o'] h0).err = none ∧
    ((Tree fsW ['o'] h0).st).nodes [['o'], ['d']] = some .dir ∧
    ((Write fsW ['o'] h0).st).nodes [['o'], ['d'], ['f']] = some (.file [7, 8]) ∧
    ((Touch fsW ['o'] h0).st).nodes [['o'], ['d'], ['f']] = some (.file []) ∧
    ((Create fsW ['o'] h0).st).nodes [['o'], ['d'], ['f']] =
      some (.file [7, 8]) := by
  have hc := claim_C4 fsW ['o'] h0 (by decide)
  refine ⟨by decide, by decide, ?_, ?_, ?_, ?_⟩
  · exact ((hc [['d']] (by simp)).1 _ rfl).1 (by decide)
  · exact ((hc [['d'], ['f']] (by simp)).2 [7, 8] rfl).1 (by decide)
  · exact ((hc [['d'], ['f']] (by simp)).2 [7, 8] rfl).2.1 (by decide) rfl
  · exact ((hc [['d'], ['f']] (by simp)).2 [7, 8] rfl).2.2.2 (by decide) rfl

/-! Create's conflict pass. -/

theorem createVisit_cases (out : GoStr) (h : Host) (p : GoStr) (de : DirEntry) :
    (de.isDir = true ∧ createVisit out h p de = (h, none)) ∨
    (de.isDir = false ∧
      ((osStat h (filepathJoin [out, filepathJoin [p, de.name]]) = .notExist ∧
          createVisit out h p de = (h, none)) ∨
        (osStat h (filepathJoin [out, filepathJoin [p, de.name]]) = .otherErr ∧
          createVisit out h p de = (h, some (.os (.statOther
            (hostKey (filepathJoin [out, filepathJoin [p, de.name]])))))) ∨
        (osStat h (filepathJoin [out, filepathJoin [p, de.name]]) = .ok ∧
          createVisit out h p de = (h, some .errExist)))) := by
  by_cases hd : de.isDir = true
  · exact Or.inl ⟨hd, by simp only [createVisit, hd, if_true]⟩
  · have hd2 : de.isDir = false := by cases hb : de.isDir; rfl; exact absurd hb hd
    refine Or.inr ⟨hd2, ?_⟩
    cases hst : osStat h (filepathJoin [out, filepathJoin [p, de.name]]) with
    | notExist =>
      exact Or.inl ⟨rfl,
        by simp only [createVisit, hd2, Bool.false_eq_true, if_false, hst]⟩
    | otherErr =>
      exact Or.inr (Or.inl ⟨rfl,
        by simp only [createVisit, hd2, Bool.false_eq_true, if_false, hst]⟩)
    | ok =>
      exact Or.inr (Or.inr ⟨rfl,
        by simp only [createVisit, hd2, Bool.false_eq_true, if_false, hst]⟩)

theorem applyTrace_createVisit (out : GoStr) (h : Host)
    (t : List (GoStr × DirEntry)) : applyTrace (createVisit out) h t = h := by
  refine applyTrace_inv (fun (h2 : Host) => h2 = h) ?_ rfl
  intro h2 y _ hP
  rw [createVisit_st]
  exact hP

theorem create_conflict {fsys : EmbNode} {out : GoStr} {h : Host}
    (hwf : wfB fsys = true) (hstatok : ∀ k, h.statErr k = false)
    {q : List GoStr} {c : List Nat} {x : HostNode} (hqne : q ≠ [])
    (hq : resolve fsys q = some (.file c))
    (hx : h.nodes (hostKey out ++ q) = some x) :
    ((Create fsys out h).err = some (.visitor .errExist) ∨
      (Create fsys out h).err = some (.noFolderFound (.visitor .errExist))) ∧
    (Create fsys out h).st = h := by
  cases fsys with
  | file content =>
    cases q with
    | nil => exact absurd rfl hqne
    | cons a as => rw [resolve_file] at hq; exact Option.noConfusion hq
  | dir es =>
    have hres : resolve (.dir es) [] = some (.dir es) := resolve_nil _
    rcases Walk_master (.dir es) ['.'] (createVisit out) h hwf
        (show pathParts (sanitize ['.']) = some [] from rfl) hres with
      ⟨hW, hnec⟩ | ⟨t1, pr, e, er, hW, her, _, hcall, htruth⟩
    · exfalso
      rcases walkSpec_split hwf hres (resolve_mem_subpaths q _ _ hqne hq) with
        ⟨A, pr, B, hsp, hvp, _, _⟩
      have hty : TruthfulVisit (.dir es) pr :=
        walkSpec_truthful hwf (fun d hd => absurd hd (List.not_mem_nil _)) hres pr
          (by rw [hsp]; simp)
      rw [hsp] at hnec
      have hcall := (noErrCalls_append.mp hnec).2.1
      rw [applyTrace_createVisit out h A] at hcall
      rcases truthful_resolve hty with ⟨child, hresv, hdir, _, _⟩
      rw [hvp, hq] at hresv
      have hchild : child = .file c := (Option.some.inj hresv).symm
      have hfd : pr.2.isDir = false := by rw [hdir, hchild]; rfl
      have hvn : validName pr.2.name = true := by
        rcases hty with ⟨b, c2, _, hvn2, _, _, _⟩; exact hvn2
      have hkey : hostKey (filepathJoin [out, filepathJoin [pr.1, pr.2.name]]) =
          hostKey out ++ q := by rw [keyC_visit out hvn, hvp]
      rcases createVisit_cases out h pr.1 pr.2 with
        ⟨hdT, _⟩ | ⟨_, ⟨hst2, _⟩ | ⟨hst2, _⟩ | ⟨_, heqv⟩⟩
      · rw [hdT] at hfd; exact Bool.noConfusion hfd
      · have hnone := (osStat_notExist hst2).1
        rw [hkey, hx] at hnone
        exact Option.noConfusion hnone
      · have hse := osStat_otherErr hst2
        rw [hkey, hstatok] at hse
        exact Bool.noConfusion hse
      · rw [heqv] at hcall
        exact Option.noConfusion hcall
    · rw [applyTrace_createVisit out h t1] at hcall
      have he : e = .errExist := by
        rcases createVisit_cases out h pr.1 pr.2 with
          ⟨_, heqv⟩ | ⟨hfd2, ⟨_, heqv⟩ | ⟨hst2, heqv⟩ | ⟨_, heqv⟩⟩
        · rw [heqv] at hcall; exact Option.noConfusion hcall
        · rw [heqv] at hcall; exact Option.noConfusion hcall
        · have hse := osStat_otherErr hst2
          rw [hstatok] at hse
          exact Bool.noConfusion hse
        · rw [heqv] at hcall
          exact (Option.some.inj hcall).symm
      subst he
      have herr2 : (Walk (.dir es) ['.'] (createVisit out) h).err = some er := by
        rw [hW]
      constructor
      · rcases her with her | her
        · left
          rw [Create_unfold, herr2, her]
        · right
          rw [Create_unfold, herr2, her]
      · rw [Create_unfold, herr2]
        exact createWalk_st _ _ _

theorem create_delegates {fsys : EmbNode} {out : GoStr} {h : Host}
    (hwf : wfB fsys = true) (hstatok : ∀ k, h.statErr k = false)
    (habs : ∀ q c, q ≠ [] → resolve fsys q = some (.file c) →
      h.nodes (hostKey out ++ q) = none) :
    Create fsys out h = Patch fsys out h := by
  cases fsys with
  | file content =>
    have hwd1 := Walk_dot_file content (createVisit out) h
    have hwd2 := Walk_dot_file content (patchVisit (.file content) out) h
    rw [Create_unfold, hwd1, show Patch (.file content) out h =
      Walk (.file content) ['.'] (patchVisit (.file content) out) h from rfl, hwd2]
  | dir es =>
    have hres : resolve (.dir es) [] = some (.dir es) := resolve_nil _
    rcases Walk_master (.dir es) ['.'] (createVisit out) h hwf
        (show pathParts (sanitize ['.']) = some [] from rfl) hres with
      ⟨hW, _⟩ | ⟨t1, pr, e, er, hW, her, _, hcall, htruth⟩
    · have herr : (Walk (.dir es) ['.'] (createVisit out) h).err = none := by
        rw [hW]
      rw [Create_unfold, herr, createWalk_st]
    · exfalso
      rw [applyTrace_createVisit out h t1] at hcall
      have hty := htruth pr (by simp)
      rcases truthful_resolve hty with ⟨child, hresv, hdir, hvne, _⟩
      cases hchild : child with
      | dir ds =>
        have hfd : pr.2.isDir = true := by rw [hdir, hchild]; rfl
        rcases createVisit_cases out h pr.1 pr.2 with ⟨_, heqv⟩ | ⟨hfd2, _⟩
        · rw [heqv] at hcall; exact Option.noConfusion hcall
        · rw [hfd] at hfd2; exact Bool.noConfusion hfd2
      | file cc =>
        have hfd : pr.2.isDir = false := by rw [hdir, hchild]; rfl
        have hvn : validName pr.2.name = true := by
          rcases hty with ⟨b, c2, _, hvn2, _, _, _⟩; exact hvn2
        have hkey : hostKey (filepathJoin [out, filepathJoin [pr.1, pr.2.name]]) =
            hostKey out ++ visitParts pr := keyC_visit out hvn
        have habs2 : h.nodes (hostKey out ++ visitParts pr) = none :=
          habs (visitParts pr) cc hvne (by rw [← hchild]; exact hresv)
        rcases createVisit_cases out h pr.1 pr.2 with
          ⟨hdT, _⟩ | ⟨_, ⟨_, heqv⟩ | ⟨hst2, _⟩ | ⟨hst2, _⟩⟩
        · rw [hdT] at hfd; exact Bool.noConfusion hfd
        · rw [heqv] at hcall; exact Option.noConfusion hcall
        · have hse := osStat_otherErr hst2
          rw [hstatok] at hse
          exact Bool.noConfusion hse
        · rcases osStat_ok hst2 with ⟨n, hn⟩
          rw [hkey, habs2] at hn
          exact Option.noConfusion hn

/-- C3 counterexample: two embedded trees whose only conflicts sit at
different paths (a in one, b in the other) make Create fail with exactly
the same error value — the os.ErrExist sentinel carries no conflicting
path, so the error does not identify the collision. -/
theorem claim_C3_counterexample :
    (Create fs3a ['o'] hAB).err = some (.visitor .errExist) ∧
    (Create fs3b ['o'] hAB).err = some (.visitor .errExist) ∧
    resolve fs3a [['a']] = some (.file [1]) ∧ resolve fs3a [['b']] = none ∧
    resolve fs3b [['b']] = some (.file [1]) ∧ resolve fs3b [['a']] = none :=
  ⟨by decide, by decide, rfl, rfl, rfl, rfl⟩

/-- C3 (amended): on a well-formed tree with no stat failures, if some
embedded file's target already exists as a file on the host, Create fails
with the os.ErrExist sentinel — possibly wrapped in the top-level "no
folder found" message when no directory entry preceded the conflict — and
the error carries no conflicting path; the pre-flight pass modifies
nothing at all under the destination.  If no embedded file path
pre-exists on the host, Create delegates to the Patch
(ConservativeCreate) behaviour to perform the materialization. -/
theorem claim_C3 (fsys : EmbNode) (out : GoStr) (h : Host)
    (hwf : wfB fsys = true) (hstatok : ∀ k, h.statErr k = false) :
    (∀ q c x, q ≠ [] → resolve fsys q = some (.file c) →
      h.nodes (hostKey out ++ q) = some (.file x) →
      ((Create fsys out h).err = some (.visitor .errExist) ∨
        (Create fsys out h).err = some (.noFolderFound (.visitor .errExist))) ∧
      (Create fsys out h).st = h) ∧
    ((∀ q c, q ≠ [] → resolve fsys q = some (.file c) →
        h.nodes (hostKey out ++ q) = none) →
      Create fsys out h = Patch fsys out h) :=
  ⟨fun _ _ _ hqne hq hx => create_conflict hwf hstatok hqne hq hx,
    fun habs => create_delegates hwf hstatok habs⟩

/-- Witness for C3: the host file at a's target makes Create fail with the
ErrExist sentinel while modifying nothing, and on the empty host Create
coincides with Patch. -/
theorem claim_C3_witness :
    hAB.nodes [['o'], ['a']] = some (.file [5]) ∧
    ((Create fs3a ['o'] hAB).err = some (.visitor .errExist) ∨
      (Create fs3a ['o'] hAB).err =
        some (.noFolderFound (.visitor .errExist))) ∧
    (Create fs3a ['o'] hAB).st = hAB ∧
    Create fs3a ['o'] h0 = Patch fs3a ['o'] h0 := by
  have hc := claim_C3 fs3a ['o'] hAB (by decide) (fun k => rfl)
  have hd := claim_C3 fs3a ['o'] h0 (by decide) (fun k => rfl)
  exact ⟨rfl, (hc.1 [['a']] [1] [5] (by simp) rfl rfl).1,
    (hc.1 [['a']] [1] [5] (by simp) rfl rfl).2,
    hd.2 fun _ _ _ _ => rfl⟩

/-- C8 counterexample: with a host directory at the embedded file a's
target, the conflict still triggers — but the tree has no directory entry,
so the buffer of folders is empty and the sentinel comes back wrapped in
the "no folder found" message rather than as the bare ErrExist value. -/
theorem claim_C8_counterexample :
    hDirA.nodes [['o'], ['a']] = some .dir ∧
    (Create fsF ['o'] hDirA).err =
      some (.noFolderFound (.visitor .errExist)) ∧
    (Create fsF ['o'] hDirA).err ≠ some (.visitor .errExist) :=
  ⟨rfl, by decide, by decide⟩

/-- C8 (amended): in Create's pre-flight pass any host entry whatsoever at
an embedded file's target triggers the abort: a host directory at the
target makes Create return the ErrExist sentinel — possibly wrapped in the
top-level "no folder found" message when no directory entry preceded the
conflict — because the conflict test is "stat succeeds" rather than "a
regular file exists"; and only embedded directory entries are exempt from
conflict checking (the pre-flight visitor never reports them). -/
theorem claim_C8 (fsys : EmbNode) (out : GoStr) (h : Host)
    (hwf : wfB fsys = true) (hstatok : ∀ k, h.statErr k = false) :
    (∀ q c, q ≠ [] → resolve fsys q = some (.file c) →
      h.nodes (hostKey out ++ q) = some .dir →
      ((Create fsys out h).err = some (.visitor .errExist) ∨
        (Create fsys out h).err = some (.noFolderFound (.visitor .errExist))) ∧
      (Create fsys out h).st = h) ∧
    (∀ (h2 : Host) (p : GoStr) (de : DirEntry), de.isDir = true →
      createVisit out h2 p de = (h2, none)) :=
  ⟨fun _ _ hqne hq hx => create_conflict hwf hstatok hqne hq hx,
    fun h2 p de hd => by simp only [createVisit, hd, if_true]⟩

/-- Witness for C8: the host directory at a's target aborts Create with
the (here wrapped) ErrExist sentinel without modifying anything, and the
pre-flight visitor reports nothing for a directory entry. -/
theorem claim_C8_witness :
    hDirA.nodes [['o'], ['a']] = some .dir ∧
    ((Create fsF ['o'] hDirA).err = some (.visitor .errExist) ∨
      (Create fsF ['o'] hDirA).err =
        some (.noFolderFound (.visitor .errExist))) ∧
    (Create fsF ['o'] hDirA).st = hDirA ∧
    createVisit ['o'] hDirA ['.'] ⟨['x'], true⟩ = (hDirA, none) := by
  have hc := claim_C8 fsF ['o'] hDirA (by decide) (fun k => rfl)
  exact ⟨rfl, (hc.1 [['a']] [2] (by simp) rfl rfl).1,
    (hc.1 [['a']] [2] (by simp) rfl rfl).2,
    hc.2 hDirA ['.'] ⟨['x'], true⟩ rfl⟩

end Rebed
